import Mathlib

/-!
# Labirinth.cpp: breadth-first search for a shortest path in a character maze

A shallow embedding of `src/Labirinth.cpp` and the properties proved of it.

Modelling conventions.
* `int` is `Int`; the grids considered have far fewer than `2^31` cells, so no
  arithmetic of the program wraps.
* `std::vector<T>` and `std::string` are lists.  An index outside a vector, a
  write outside a string and the dereference of `symbol2PointType.end()` have no
  defined behaviour in C++; they are the `Fault` results of the embedding.
* The input stream is the list of its characters; the output stream is the list
  of the characters written to it.
* The two `while` loops take a fuel argument and answer `Outcome.outOfFuel` when
  it does not suffice.
-/

namespace LabirinthCpp

/-! ## The anonymous namespace -/

/-- The number of neighbour directions. -/
def DIRECTIONS : Nat := 4

/-- Row offsets of the four directions. -/
def dx : List Int := [0, 1, 0, -1]

/-- Column offsets of the four directions. -/
def dy : List Int := [1, 0, -1, 0]

/-- The character written on the cells of the path. -/
def pathChar : Char := '*'

/-- A cell coordinate: `x` is the row, `y` the column. -/
structure Point where
  x : Int
  y : Int
deriving DecidableEq, Repr

/-- The default constructor `Point()`. -/
def Point.default : Point := ⟨0, 0⟩

/-- The member `operator==`. -/
def Point.eq (a other : Point) : Bool := a.x == other.x && a.y == other.y

/-- The member `operator!=`. -/
def Point.ne (a other : Point) : Bool := a.x != other.x || a.y != other.y

/-- The enumeration `PointType`. -/
inductive PointType where
  | EMPTY
  | WALL
  | START
  | FINISH
  | PATH
deriving DecidableEq, Repr

/-- The map `symbol2PointType`, as its list of key-value pairs. -/
def symbol2PointType : List (Char × PointType) :=
  [('_', PointType.EMPTY), ('#', PointType.WALL), ('S', PointType.START),
   ('E', PointType.FINISH), ('*', PointType.PATH)]

/-- The ways in which the program leaves defined behaviour. -/
inductive Fault where
  /-- The iterator `end()`, which `symbol2PointType.find` returns for a character
  that is not a key, was dereferenced.  The program makes no check and reports no
  error there: the read `->second` has no defined behaviour. -/
  | endDeref
  /-- An index outside a vector, or a write outside a string. -/
  | outOfRange
deriving DecidableEq, Repr

/-- The result of running a loop with fuel. -/
inductive Outcome (α : Type) where
  | outOfFuel
  | fault (f : Fault)
  | done (a : α)
deriving DecidableEq, Repr

/-! ## Vectors and strings -/

/-- The entry of a vector of vectors at a point, when both indices are inside. -/
def cellAt {α : Type} (m : List (List α)) (p : Point) : Option α :=
  if p.x < 0 ∨ p.y < 0 then none
  else match m[p.x.toNat]? with
    | none => none
    | some row => row[p.y.toNat]?

/-- The read `m[p.x][p.y]` of a `std::vector<std::vector<T>>`. -/
def vecRead {α : Type} (m : List (List α)) (p : Point) : Except Fault α :=
  match cellAt m p with
  | some a => .ok a
  | none => .error .outOfRange

/-- The write `m[p.x][p.y] = v`; it also models a write into a vector of strings,
where the index must be less than the length of the string. -/
def vecWrite {α : Type} (m : List (List α)) (p : Point) (v : α) : Except Fault (List (List α)) :=
  match cellAt m p with
  | some _ => .ok (m.set p.x.toNat ((m.getD p.x.toNat []).set p.y.toNat v))
  | none => .error .outOfRange

/-- The read `labirinth_[p.x][p.y]` of a `std::vector<std::string>`: the index
equal to the length of the string reads the terminating null character. -/
def strRead (m : List (List Char)) (p : Point) : Except Fault Char :=
  if p.x < 0 ∨ p.y < 0 then .error .outOfRange
  else match m[p.x.toNat]? with
    | none => .error .outOfRange
    | some row =>
      match row[p.y.toNat]? with
      | some c => .ok c
      | none => if p.y.toNat = row.length then .ok (Char.ofNat 0) else .error .outOfRange

/-! ## The class -/

/-- The data members of the class `Labirinth`. -/
structure Labirinth where
  labirinth_ : List (List Char)
  used_ : List (List Bool)
  parent_ : List (List Point)
  start_ : Point
  finish_ : Point
  xSize : Int
  ySize : Int
  hasPath : Bool
  pathLength : Int
  queue_ : List (Int × Point × Point)
deriving DecidableEq, Repr

/-- The member initialisers of the class, before the constructor body runs. -/
def Labirinth.initial : Labirinth :=
  { labirinth_ := [], used_ := [], parent_ := [], start_ := Point.default,
    finish_ := Point.default, xSize := 0, ySize := 0, hasPath := false,
    pathLength := -1, queue_ := [] }

/-- The overload `getPointType(char)`, which is
`symbol2PointType.find(charAtPoint)->second`.  The iterator is not compared with
`end()`: for a character that is not a key the dereference has no defined
behaviour, for which the fault `endDeref` stands. -/
def getPointType (charAtPoint : Char) : Except Fault PointType :=
  match symbol2PointType.lookup charAtPoint with
  | some t => .ok t
  | none => .error .endDeref

/-- The overload `getPointType(const Point&)`. -/
def getPointTypeAt (s : Labirinth) (point : Point) : Except Fault PointType :=
  match strRead s.labirinth_ point with
  | .ok c => getPointType c
  | .error f => .error f

/-- The member `isOutOfRange`. -/
def isOutOfRange (s : Labirinth) (point : Point) : Bool :=
  decide (point.x < 0) || decide (point.x ≥ s.xSize) || decide (point.y < 0)
    || decide (point.y ≥ s.ySize)

/-- The loop `while (getline(in, line)) labirinth_.push_back(line)`: `line`
holds the characters read since the last newline.  At the end of the stream
`getline` succeeds exactly when it has extracted a character. -/
def readLinesAux : List Char → List Char → List (List Char)
  | [], line => if line = [] then [] else [line]
  | c :: rest, line =>
    if c = '\n' then line :: readLinesAux rest [] else readLinesAux rest (line ++ [c])

/-- The lines that the `getline` loop of `readLabirinth` stores. -/
def readLines (input : List Char) : List (List Char) := readLinesAux input []

/-- The body of the inner scan loop of `readLabirinth` at row `i`, column `j`. -/
def scanCell (s : Labirinth) (i j : Nat) : Except Fault Labirinth :=
  match strRead s.labirinth_ ⟨i, j⟩ with
  | .error f => .error f
  | .ok c =>
    match getPointType c with
    | .error f => .error f
    | .ok t =>
      if t = PointType.START then .ok { s with start_ := ⟨i, j⟩ }
      else if t = PointType.FINISH then .ok { s with finish_ := ⟨i, j⟩ }
      else .ok s

/-- The inner scan loop `for (int j = 0; j < ySize; ++j)`. -/
def scanRow (s : Labirinth) (i : Nat) : Except Fault Labirinth :=
  (List.range s.ySize.toNat).foldlM (fun s j => scanCell s i j) s

/-- The outer scan loop `for (int i = 0; i < xSize; ++i)`. -/
def scanGrid (s : Labirinth) : Except Fault Labirinth :=
  (List.range s.xSize.toNat).foldlM (fun s i => scanRow s i) s

/-- The member `readLabirinth`, run by the constructor on a fresh object. -/
def readLabirinth (input : List Char) : Except Fault Labirinth :=
  let lines := readLines input
  let s : Labirinth := { Labirinth.initial with labirinth_ := lines }
  let s := { s with xSize := (lines.length : Int) }
  let s := if s.xSize > 0 then { s with ySize := ((lines.headD []).length : Int) } else s
  match scanGrid s with
  | .error f => .error f
  | .ok s =>
    .ok { s with
      used_ := List.replicate s.xSize.toNat (List.replicate s.ySize.toNat false)
      parent_ := List.replicate s.xSize.toNat (List.replicate s.ySize.toNat ⟨-1, -1⟩) }

/-- The loop of `colorPath`. -/
def colorLoop : Nat → Labirinth → Point → Outcome Labirinth
  | 0, _, _ => .outOfFuel
  | fuel + 1, s, point =>
    match vecRead s.parent_ point with
    | .error f => .fault f
    | .ok q =>
      if q.ne point then
        match vecWrite s.labirinth_ point pathChar with
        | .error f => .fault f
        | .ok g => colorLoop fuel { s with labirinth_ := g } q
      else .done s

/-- The member `colorPath`. -/
def colorPath (fuel : Nat) (s : Labirinth) : Outcome Labirinth :=
  if !s.hasPath then .done s
  else
    match vecRead s.parent_ s.finish_ with
    | .error f => .fault f
    | .ok point => colorLoop fuel s point

/-- The member `isPathExists`. -/
def isPathExists (s : Labirinth) : Bool := s.hasPath

/-- The member `getPathLength`. -/
def getPathLength (s : Labirinth) : Int := s.pathLength

/-- The member `printLabirinth`: the characters written to `out`. -/
def printLabirinth (s : Labirinth) : Except Fault (List Char) :=
  (List.range s.xSize.toNat).foldlM
    (fun out i =>
      match s.labirinth_[i]? with
      | some row => .ok (out ++ row ++ ['\n'])
      | none => .error .outOfRange)
    []

/-- The body of `for (int i = 0; i < DIRECTIONS; ++i)` in `findPath`. -/
def pushNeighbour (s : Labirinth) (distance : Int) (tmp : Point) (i : Nat) :
    Except Fault Labirinth :=
  let to' : Point := ⟨tmp.x + dx.getD i 0, tmp.y + dy.getD i 0⟩
  if isOutOfRange s to' then .ok s
  else
    match getPointTypeAt s to' with
    | .error f => .error f
    | .ok t =>
      if t = PointType.WALL then .ok s
      else .ok { s with queue_ := s.queue_ ++ [(distance + 1, to', tmp)] }

/-- The loop `for (int i = 0; i < DIRECTIONS; ++i)` in `findPath`. -/
def pushNeighbours (s : Labirinth) (distance : Int) (tmp : Point) : Except Fault Labirinth :=
  (List.range DIRECTIONS).foldlM (fun s i => pushNeighbour s distance tmp i) s

/-- What one iteration of the `while` loop of `findPath` leads to. -/
inductive Iter where
  /-- An access without defined behaviour. -/
  | fault (f : Fault)
  /-- The loop goes on, by `continue` or at the end of the body. -/
  | next (s : Labirinth)
  /-- The branch `tmp == finish_`, just before `colorPath()`. -/
  | finish (s : Labirinth)
deriving DecidableEq, Repr

/-- The body of the `while` loop of `findPath`, after the front of the queue has
been popped into `distance`, `tmp` and `parent`. -/
def loopBody (s : Labirinth) (distance : Int) (tmp parent : Point) : Iter :=
  match vecRead s.used_ tmp with
  | .error f => .fault f
  | .ok true => .next s
  | .ok false =>
    match vecWrite s.used_ tmp true with
    | .error f => .fault f
    | .ok u =>
      match vecWrite s.parent_ tmp parent with
      | .error f => .fault f
      | .ok par =>
        let s := { s with used_ := u, parent_ := par }
        if tmp.eq s.finish_ then
          .finish { s with hasPath := true, pathLength := distance }
        else
          match pushNeighbours s distance tmp with
          | .error f => .fault f
          | .ok s => .next s

/-- The `while (!queue_.empty())` loop of `findPath`. -/
def findPathLoop : Nat → Labirinth → Outcome Labirinth
  | 0, _ => .outOfFuel
  | fuel + 1, s =>
    match s.queue_ with
    | [] => .done s
    | (distance, tmp, parent) :: rest =>
      match loopBody { s with queue_ := rest } distance tmp parent with
      | .fault f => .fault f
      | .next s => findPathLoop fuel s
      | .finish s => colorPath fuel s

/-- The member `findPath`. -/
def findPath (fuel : Nat) (s : Labirinth) : Outcome Labirinth :=
  findPathLoop fuel { s with queue_ := s.queue_ ++ [(0, s.start_, s.start_)] }

/-- The constructor followed by `findPath()`, as `main` runs them. -/
def loadAndFind (fuel : Nat) (input : List Char) : Outcome Labirinth :=
  match readLabirinth input with
  | .error f => .fault f
  | .ok s => findPath fuel s

/-! ## Vocabulary of the properties -/

/-- The five characters that are keys of `symbol2PointType`. -/
def Recognised (c : Char) : Prop := c = '_' ∨ c = '#' ∨ c = 'S' ∨ c = 'E' ∨ c = '*'

/-- The grid is rectangular: every row is as long as the first one. -/
def Rect (g : List (List Char)) : Prop := ∀ row ∈ g, row.length = (g.headD []).length

/-- Every character of the grid is a recognised one. -/
def AllRecognised (g : List (List Char)) : Prop := ∀ row ∈ g, ∀ c ∈ row, Recognised c

instance (c : Char) : Decidable (Recognised c) := by
  unfold Recognised; infer_instance

instance (g : List (List Char)) : Decidable (Rect g) := by
  unfold Rect; infer_instance

instance (g : List (List Char)) : Decidable (AllRecognised g) := by
  unfold AllRecognised; infer_instance

/-- The number of cells of the matrix that hold `a`. -/
def countCells {α : Type} [DecidableEq α] (a : α) (m : List (List α)) : Nat :=
  (m.map (fun row => row.count a)).sum

/-- The point is inside the bounds `xSize`, `ySize` of the object. -/
def InRange (s : Labirinth) (p : Point) : Prop :=
  0 ≤ p.x ∧ p.x < s.xSize ∧ 0 ≤ p.y ∧ p.y < s.ySize

/-- Orthogonal adjacency: one coordinate equal, the other differing by one. -/
def Adj (p q : Point) : Prop :=
  (q.x = p.x ∧ (q.y = p.y + 1 ∨ q.y = p.y - 1)) ∨ (q.y = p.y ∧ (q.x = p.x + 1 ∨ q.x = p.x - 1))

/-- The cell is inside the grid and is not a wall. -/
def Open (g : List (List Char)) (p : Point) : Prop := ∃ c, cellAt g p = some c ∧ c ≠ '#'

instance (p q : Point) : Decidable (Adj p q) := by
  unfold Adj; infer_instance

instance (g : List (List Char)) (p : Point) : Decidable (Open g p) :=
  match h : cellAt g p with
  | none => isFalse (fun ⟨c, hc, _⟩ => by rw [h] at hc; cases hc)
  | some c =>
    if hw : c = '#' then
      isFalse (fun ⟨c', hc, hne⟩ => by
        rw [h] at hc
        exact hne (Option.some.inj hc ▸ hw))
    else isTrue ⟨c, h, hw⟩

/-- The number of cells of the grid read from `input`. -/
def cellCount (input : List Char) : Nat :=
  (readLines input).length * ((readLines input).headD []).length

/-- A number of loop iterations that suffices for `findPath` on the grid read from
`input`. -/
def enoughFuel (input : List Char) : Nat := 5 * cellCount input + 2

/-- The relation `Route g a k b`: a route of `k` edges leads from `a` to `b`, every
step going to an orthogonally adjacent cell that is inside the grid and not a
wall. -/
inductive Route (g : List (List Char)) (a : Point) : Nat → Point → Prop where
  | here : Route g a 0 a
  | step {k : Nat} {p q : Point} : Route g a k p → Adj p q → Open g q → Route g a (k + 1) q

/-- A route as `Route` all of whose cells after the first hold a character of the
list `cs`. -/
inductive RouteVia (g : List (List Char)) (cs : List Char) (a : Point) : Nat → Point → Prop where
  | here : RouteVia g cs a 0 a
  | step {k : Nat} {p q : Point} {c : Char} : RouteVia g cs a k p → Adj p q →
      cellAt g q = some c → c ∈ cs → RouteVia g cs a (k + 1) q

/-- The list `path` is the chain of `parent_` from the Finish cell to the Start
cell: it has `len + 1` cells, each cell is followed by its `parent_` entry, which
is orthogonally adjacent to it, all its cells are inside the bounds and none is a
wall, and its cells other than the two ends hold the path character. -/
def IsParentPath (s : Labirinth) (path : List Point) (len : Nat) : Prop :=
  path.length = len + 1 ∧ path.head? = some s.finish_ ∧ path.getLast? = some s.start_ ∧
  path.Chain' (fun p q => cellAt s.parent_ p = some q ∧ Adj p q) ∧
  (∀ p ∈ path, InRange s p ∧ ∃ c, cellAt s.labirinth_ p = some c ∧ c ≠ '#') ∧
  (∀ p ∈ path, p ≠ s.start_ → p ≠ s.finish_ → cellAt s.labirinth_ p = some pathChar)

/-- The matrix has `n` rows of `m` entries each. -/
def Dims {α : Type} (mat : List (List α)) (n m : Nat) : Prop :=
  mat.length = n ∧ ∀ row ∈ mat, row.length = m

/-- The cell has been marked in `used_`. -/
def Used (u : List (List Bool)) (p : Point) : Prop := cellAt u p = some true

/-- The relation `Trail g u par st p l`: `l` lists the cells met when following the
parent entries from `p` up to, and without, the root `st`; all of them are marked,
hold a non-wall character and are adjacent to their parent. -/
inductive Trail (g : List (List Char)) (u : List (List Bool)) (par : List (List Point))
    (st : Point) : Point → List Point → Prop where
  | root : Used u st → cellAt par st = some st → Trail g u par st st []
  | step {p q : Point} {l : List Point} : Used u p → cellAt par p = some q → Adj q p →
      Open g p → Trail g u par st q l → Trail g u par st p (p :: l)

/-- The entries that the direction loop appends to the queue. -/
def newEntries (g : List (List Char)) (distance : Int) (tmp : Point) :
    List (Int × Point × Point) :=
  (List.range DIRECTIONS).filterMap fun i =>
    let q : Point := ⟨tmp.x + dx.getD i 0, tmp.y + dy.getD i 0⟩
    match cellAt g q with
    | some c => if c = '#' then none else some (distance + 1, q, tmp)
    | none => none

/-- The static facts about an object whose grid is `g`, with `n` rows and `m`
columns, that the search never changes. -/
structure Shape (g : List (List Char)) (n m : Nat) (s : Labirinth) : Prop where
  xs : s.xSize = n
  ys : s.ySize = m
  grid : Dims g n m
  chars : AllRecognised g
  usedDims : Dims s.used_ n m
  parentDims : Dims s.parent_ n m
  startIn : InRange s s.start_
  finishIn : InRange s s.finish_

/-- The invariant of the `while` loop of `findPath`, at the loop test. -/
structure Inv (g : List (List Char)) (n m : Nat) (s : Labirinth) : Prop where
  shape : Shape g n m s
  lab : s.labirinth_ = g
  noPath : s.hasPath = false
  noLength : s.pathLength = -1
  qTrail : ∀ e ∈ s.queue_, (e.1 = 0 ∧ e.2.1 = s.start_ ∧ e.2.2 = s.start_) ∨
    ∃ l, e.1 = (l.length : Int) + 1 ∧ Trail g s.used_ s.parent_ s.start_ e.2.2 l ∧
      Adj e.2.2 e.2.1 ∧ Open g e.2.1
  sorted : s.queue_.Pairwise (fun a b => a.1 ≤ b.1)
  span : ∀ a ∈ s.queue_, ∀ b ∈ s.queue_, b.1 ≤ a.1 + 1
  nbrs : ∀ p, Used s.used_ p → ∀ r, Adj p r → Open g r → ∀ k : Nat, Route g s.start_ k p →
    Used s.used_ r ∨ ∃ e ∈ s.queue_, e.2.1 = r ∧ e.1 ≤ (k : Int) + 1
  startSeen : Used s.used_ s.start_ ∨ ∃ e ∈ s.queue_, e.2.1 = s.start_ ∧ e.1 ≤ 0
  usedTrail : ∀ p, Used s.used_ p → ∃ l, Trail g s.used_ s.parent_ s.start_ p l
  finishFree : ¬ Used s.used_ s.finish_
  bound : ∀ e ∈ s.queue_, e.1 + (countCells false s.used_ : Int) ≤ (n * m : Nat)

/-- What holds when the search has just reached the Finish cell, before
`colorPath` runs: `l` is the trail of the Finish cell. -/
structure Found (g : List (List Char)) (n m : Nat) (s : Labirinth) (l : List Point) : Prop where
  shape : Shape g n m s
  lab : s.labirinth_ = g
  hasPath : s.hasPath = true
  len : s.pathLength = (l.length : Int)
  trail : Trail g s.used_ s.parent_ s.start_ s.finish_ l
  minimal : ∀ k : Nat, Route g s.start_ k s.finish_ → l.length ≤ k
  bound : l.length + 1 ≤ n * m

/-- What holds of the object `s'` that `findPath` returns when the queue has run
empty: nothing but the queue and the marks has changed, and no route leads from
`st` to `fin`. -/
structure NoPath (g : List (List Char)) (st fin : Point) (s' : Labirinth) : Prop where
  hasPath : s'.hasPath = false
  len : s'.pathLength = -1
  lab : s'.labirinth_ = g
  start : s'.start_ = st
  finish : s'.finish_ = fin
  unreachable : ∀ k : Nat, ¬ Route g st k fin

/-- What holds of the object `s'` that `findPath` returns when the search has
reached the Finish cell: `l` is the trail of the Finish cell, its length is the
reported length and is minimal, and the cells of `l` after the first are the ones
that `colorPath` has overwritten. -/
structure PathFound (g : List (List Char)) (n m : Nat) (st fin : Point) (s' : Labirinth)
    (l : List Point) : Prop where
  hasPath : s'.hasPath = true
  len : s'.pathLength = (l.length : Int)
  start : s'.start_ = st
  finish : s'.finish_ = fin
  xs : s'.xSize = n
  ys : s'.ySize = m
  trail : Trail g s'.used_ s'.parent_ st fin l
  minimal : ∀ k : Nat, Route g st k fin → l.length ≤ k
  dims : Dims s'.labirinth_ n m
  cells : ∀ p, cellAt s'.labirinth_ p = if p ∈ l.tail then some pathChar else cellAt g p
  stars : (∀ p ∈ l.tail, cellAt g p ≠ some pathChar) →
    countCells pathChar s'.labirinth_ = countCells pathChar g + l.tail.length

/-- The object as `readLabirinth` leaves it on the grid `g` of `n` rows and `m`
columns. -/
structure Fresh (g : List (List Char)) (n m : Nat) (s : Labirinth) : Prop where
  shape : Shape g n m s
  lab : s.labirinth_ = g
  noPath : s.hasPath = false
  noLength : s.pathLength = -1
  queue : s.queue_ = []
  used : s.used_ = List.replicate n (List.replicate m false)
  parent : s.parent_ = List.replicate n (List.replicate m ⟨-1, -1⟩)

/-- The cell `(a, b)` comes before the cell `(i, j)` in the row-major order of the
scan of `readLabirinth`. -/
def Before (a b i j : Nat) : Prop := a < i ∨ (a = i ∧ b < j)

/-- The state of `start_` (for `c = 'S'`) or `finish_` (for `c = 'E'`) when the scan
of `readLabirinth` stands before the cell `(i, j)`: `pt` is still `dflt` and no
cell scanned so far holds `c`, or `pt` is the last cell scanned so far that holds
`c`.  The grid has `m` columns. -/
def LastAt (g : List (List Char)) (m : Nat) (c : Char) (dflt pt : Point) (i j : Nat) : Prop :=
  (pt = dflt ∧ ∀ a b : Nat, b < m → Before a b i j → cellAt g ⟨a, b⟩ ≠ some c) ∨
  ∃ a b : Nat, pt = ⟨a, b⟩ ∧ cellAt g ⟨a, b⟩ = some c ∧ b < m ∧ Before a b i j ∧
    ∀ a' b' : Nat, b' < m → Before a b a' b' → Before a' b' i j → cellAt g ⟨a', b'⟩ ≠ some c

/-- The value of `start_` or `finish_` after the whole scan: the default when no
cell holds `c`, and else the last cell in row-major order that holds `c`. -/
def LastOf (g : List (List Char)) (c : Char) (dflt pt : Point) : Prop :=
  (pt = dflt ∧ ∀ p, cellAt g p ≠ some c) ∨
  (cellAt g pt = some c ∧
    ∀ p, cellAt g p = some c → p.x < pt.x ∨ (p.x = pt.x ∧ p.y ≤ pt.y))

/-- The object while the scan of `readLabirinth` stands before the cell `(i, j)`. -/
structure Scanned (g : List (List Char)) (n m : Nat) (s : Labirinth) (i j : Nat) : Prop where
  lab : s.labirinth_ = g
  xs : s.xSize = n
  ys : s.ySize = m
  used : s.used_ = []
  parent : s.parent_ = []
  noPath : s.hasPath = false
  noLength : s.pathLength = -1
  queue : s.queue_ = []
  start : LastAt g m 'S' Point.default s.start_ i j
  finish : LastAt g m 'E' Point.default s.finish_ i j

/-- The input of scenario A of the specification: the single row `S_E`. -/
def scenarioA : List Char := "S_E\n".toList

/-- The input of scenario B of the specification: the single row `S#E`. -/
def scenarioB : List Char := "S#E\n".toList

/-- The input of scenario C of the specification: three rows around a wall. -/
def scenarioC : List Char := "S__\n_#_\n__E\n".toList

/-- A grid without `S`, whose `E` can be reached from the cell `(0, 0)`. -/
def noStartInput : List Char := "__E\n".toList

/-- A grid that already holds path characters between `S` and `E`. -/
def markedInput : List Char := "S*_E\n".toList

/-- An input of two rows whose last row has no newline after it. -/
def roundTripInput : List Char := "S_\n#E".toList

/-- The object that the constructor makes of `roundTripInput`. -/
def roundTripObject : Labirinth :=
  { labirinth_ := ["S_".toList, "#E".toList], used_ := [[false, false], [false, false]],
    parent_ := [[⟨-1, -1⟩, ⟨-1, -1⟩], [⟨-1, -1⟩, ⟨-1, -1⟩]], start_ := ⟨0, 0⟩,
    finish_ := ⟨1, 1⟩, xSize := 2, ySize := 2, hasPath := false, pathLength := -1,
    queue_ := [] }

/-- A row whose middle character is none of the five keys of `symbol2PointType`. -/
def unknownCharInput : List Char := "S?E\n".toList

/-- A grid with three `S` and three `E`. -/
def manyEndsInput : List Char := "SES\nESE\n".toList

/-- The rows, each followed by a newline character. -/
def unlines : List (List Char) → List Char
  | [] => []
  | row :: rest => row ++ '\n' :: unlines rest

/-- The relation `LoopNext s s'`: one pass through the body of the `while` loop of
`findPath` leads from the object `s` at the loop test to the object `s'` at the
loop test. -/
def LoopNext (s s' : Labirinth) : Prop :=
  ∃ (d : Int) (tmp par : Point) (rest : List (Int × Point × Point)),
    s.queue_ = (d, tmp, par) :: rest ∧ loopBody { s with queue_ := rest } d tmp par = .next s'

/-- The relation `LoopFinish s s'`: the pass through the body of the `while` loop
that starts with the object `s` at the loop test reaches the branch
`tmp == finish_` with the object `s'`, on which `colorPath` is called. -/
def LoopFinish (s s' : Labirinth) : Prop :=
  ∃ (d : Int) (tmp par : Point) (rest : List (Int × Point × Point)),
    s.queue_ = (d, tmp, par) :: rest ∧ loopBody { s with queue_ := rest } d tmp par = .finish s'

/-- The relation `AtLoop s0 k s`: `findPath`, called on the object `s0`, stands at
the test of its `while` loop with the object `s` after `k` passes through the
body. -/
inductive AtLoop (s0 : Labirinth) : Nat → Labirinth → Prop where
  | first : AtLoop s0 0 { s0 with queue_ := s0.queue_ ++ [(0, s0.start_, s0.start_)] }
  | next {k : Nat} {s s' : Labirinth} : AtLoop s0 k s → LoopNext s s' → AtLoop s0 (k + 1) s'

/-- The state of the marks and parent entries of the object: a cell inside the
bounds that is not marked holds the unset parent `(-1, -1)`, the Start cell, once
marked, is its own parent, and the parent of every other marked cell is a marked
cell orthogonally adjacent to it. -/
def ParentsSettled (s : Labirinth) : Prop :=
  (∀ p, InRange s p → ¬ Used s.used_ p → cellAt s.parent_ p = some ⟨-1, -1⟩) ∧
  (Used s.used_ s.start_ → cellAt s.parent_ s.start_ = some s.start_) ∧
  (∀ p, Used s.used_ p → p ≠ s.start_ →
    ∃ q, cellAt s.parent_ p = some q ∧ Adj q p ∧ Used s.used_ q)

/-- What a pass through the loop body from `s` to `s'` does to the marks and
parent entries: no mark is taken back, a parent entry changes only where the mark
is set in this pass, and the parent written for a cell other than the Start cell
is a cell adjacent to it that was marked before the pass. -/
def MarksOnce (s s' : Labirinth) : Prop :=
  (∀ p, Used s.used_ p → Used s'.used_ p) ∧
  (∀ p, cellAt s'.parent_ p ≠ cellAt s.parent_ p → ¬ Used s.used_ p ∧ Used s'.used_ p) ∧
  (∀ p, ¬ Used s.used_ p → Used s'.used_ p → p ≠ s.start_ →
    ∃ q, cellAt s'.parent_ p = some q ∧ Adj q p ∧ Used s.used_ q)

/-- The grid has at least one row and one column, none of its cells is a wall,
`S` stands in its top-left corner and in no other cell, and `E` stands in its
bottom-right corner. -/
def IsCornerGrid (g : List (List Char)) : Prop :=
  0 < g.length ∧ 0 < (g.headD []).length ∧
  ∀ i < g.length, ∀ j < (g.headD []).length,
    cellAt g ⟨(i : Int), (j : Int)⟩ ≠ some '#' ∧
    (cellAt g ⟨(i : Int), (j : Int)⟩ = some 'S' ↔ i = 0 ∧ j = 0) ∧
    (i + 1 = g.length ∧ j + 1 = (g.headD []).length →
      cellAt g ⟨(i : Int), (j : Int)⟩ = some 'E')

instance (g : List (List Char)) : Decidable (IsCornerGrid g) := by
  unfold IsCornerGrid; infer_instance

/-- The cell lies in the top row or in the last column of a grid of `n` rows and
`m` columns and is neither the top-left nor the bottom-right corner. -/
def OnCornerPath (n m : Nat) (p : Point) : Prop :=
  0 ≤ p.x ∧ p.x < n ∧ 0 ≤ p.y ∧ p.y < m ∧ (p.x = 0 ∨ p.y = (m : Int) - 1) ∧
    p ≠ ⟨0, 0⟩ ∧ p ≠ ⟨(n : Int) - 1, (m : Int) - 1⟩

instance (n m : Nat) (p : Point) : Decidable (OnCornerPath n m p) := by
  unfold OnCornerPath; infer_instance

/-- The grid that the specification gives as the output of its scenario C. -/
def scenarioCOutput : List (List Char) := ["S**".toList, "_#*".toList, "__E".toList]

/-- The parent that the search records for a cell of a grid without walls whose
Start cell is `(0, 0)`: the cell above it, for a cell of the top row the cell to
its left, and for the Start cell the cell itself. -/
def expectedParent (p : Point) : Point :=
  if 0 < p.x then ⟨p.x - 1, p.y⟩ else if 0 < p.y then ⟨p.x, p.y - 1⟩ else p

/-- The order in which the search marks the cells of a grid without walls whose
Start cell is `(0, 0)`: by anti-diagonal, and within an anti-diagonal by row. -/
def MarkedBefore (p q : Point) : Prop :=
  p.x + p.y < q.x + q.y ∨ (p.x + p.y = q.x + q.y ∧ p.x < q.x)

/-- The order of the triples in the queue on such a grid: by the cell that pushed
them, and among the triples of one cell the one for its right neighbour first. -/
def QueuedBefore (e e' : Int × Point × Point) : Prop :=
  MarkedBefore e.2.2 e'.2.2 ∨
    (e.2.2 = e'.2.2 ∧ (e'.2.1 = ⟨e'.2.2.x, e'.2.2.y + 1⟩ → e.2.1 = ⟨e.2.2.x, e.2.2.y + 1⟩))

/-- The invariant of the loop of `findPath` on a grid without walls whose Start
cell is `(0, 0)`. -/
structure Sweep (s : Labirinth) : Prop where
  z : Used s.used_ ⟨0, 0⟩ ∨ (s.queue_ = [(0, ⟨0, 0⟩, ⟨0, 0⟩)] ∧ ∀ p, ¬ Used s.used_ p)
  ent : Used s.used_ ⟨0, 0⟩ → ∀ e ∈ s.queue_, Used s.used_ e.2.2 ∧ Adj e.2.2 e.2.1
  ord : s.queue_.Pairwise QueuedBefore
  down : ∀ p q, Used s.used_ p → InRange s q → MarkedBefore q p → Used s.used_ q
  nb : ∀ p r, Used s.used_ p → Adj p r → InRange s r →
    Used s.used_ r ∨ ∃ e ∈ s.queue_, e.2.1 = r ∧ e.2.2 = p
  par : ∀ p, Used s.used_ p → cellAt s.parent_ p = some (expectedParent p)

/-- A grid of three rows and four columns without walls. -/
def cornerInput : List Char := "S___\n____\n___E\n".toList

/-- The termination measure of the `while` loop of `findPath`. -/
def measure (s : Labirinth) : Nat := s.queue_.length + 4 * countCells false s.used_

/-! ## Points, characters and cell types -/

theorem Point.eq_iff (a b : Point) : a.eq b = true ↔ a = b := by
  cases a; cases b; simp [Point.eq]

theorem Point.ne_iff (a b : Point) : a.ne b = true ↔ a ≠ b := by
  cases a; cases b
  simp only [Point.ne, Bool.or_eq_true, bne_iff_ne, ne_eq, Point.mk.injEq]
  tauto

theorem getPointType_of_recognised {c : Char} (h : Recognised c) :
    ∃ t, getPointType c = .ok t ∧ (t = PointType.WALL ↔ c = '#') ∧
      (t = PointType.START ↔ c = 'S') ∧ (t = PointType.FINISH ↔ c = 'E') := by
  rcases h with h | h | h | h | h <;> subst h <;> exact ⟨_, rfl, by decide, by decide, by decide⟩

theorem getPointType_ok_iff (c : Char) : (∃ t, getPointType c = .ok t) ↔ Recognised c := by
  constructor
  · rintro ⟨t, ht⟩
    unfold getPointType symbol2PointType at ht
    simp only [List.lookup] at ht
    unfold Recognised
    by_cases h1 : c = '_'
    · exact Or.inl h1
    by_cases h2 : c = '#'
    · exact Or.inr (Or.inl h2)
    by_cases h3 : c = 'S'
    · exact Or.inr (Or.inr (Or.inl h3))
    by_cases h4 : c = 'E'
    · exact Or.inr (Or.inr (Or.inr (Or.inl h4)))
    by_cases h5 : c = '*'
    · exact Or.inr (Or.inr (Or.inr (Or.inr h5)))
    · have e1 : (c == '_') = false := by simpa using h1
      have e2 : (c == '#') = false := by simpa using h2
      have e3 : (c == 'S') = false := by simpa using h3
      have e4 : (c == 'E') = false := by simpa using h4
      have e5 : (c == '*') = false := by simpa using h5
      simp [e1, e2, e3, e4, e5] at ht
  · intro h
    obtain ⟨t, ht, _⟩ := getPointType_of_recognised h
    exact ⟨t, ht⟩

/-! ## Matrices -/

theorem cellAt_eq_some {α : Type} {mat : List (List α)} {p : Point} {a : α} :
    cellAt mat p = some a ↔
      0 ≤ p.x ∧ 0 ≤ p.y ∧ ∃ row, mat[p.x.toNat]? = some row ∧ row[p.y.toNat]? = some a := by
  unfold cellAt
  by_cases h : p.x < 0 ∨ p.y < 0
  · rw [if_pos h]
    constructor
    · intro h'; cases h'
    · rintro ⟨h1, h2, _⟩; omega
  · rw [if_neg h]
    have h1 : 0 ≤ p.x := by omega
    have h2 : 0 ≤ p.y := by omega
    cases hrow : mat[p.x.toNat]? with
    | none => simp
    | some row => simp [h1, h2]

theorem point_eq_of_toNat {p q : Point} (hp1 : 0 ≤ p.x) (hp2 : 0 ≤ p.y) (hq1 : 0 ≤ q.x)
    (hq2 : 0 ≤ q.y) (hx : p.x.toNat = q.x.toNat) (hy : p.y.toNat = q.y.toNat) : p = q := by
  cases p; cases q
  simp only [Point.mk.injEq] at *
  omega

theorem cellAt_some_iff_of_dims {α : Type} {mat : List (List α)} {n m : Nat} (h : Dims mat n m)
    (p : Point) : (∃ a, cellAt mat p = some a) ↔ 0 ≤ p.x ∧ p.x < n ∧ 0 ≤ p.y ∧ p.y < m := by
  constructor
  · rintro ⟨a, ha⟩
    obtain ⟨h1, h2, row, hrow, hcol⟩ := cellAt_eq_some.mp ha
    obtain ⟨hlt, hget⟩ := List.getElem?_eq_some.mp hrow
    obtain ⟨hlt', _⟩ := List.getElem?_eq_some.mp hcol
    have hmem : row ∈ mat := hget ▸ List.getElem_mem hlt
    have hlen := h.2 row hmem
    have hn := h.1
    refine ⟨h1, ?_, h2, ?_⟩ <;> omega
  · rintro ⟨h1, h2, h3, h4⟩
    have hlt : p.x.toNat < mat.length := by rw [h.1]; omega
    have hmem : mat[p.x.toNat] ∈ mat := List.getElem_mem hlt
    have hlen := h.2 _ hmem
    have hlt' : p.y.toNat < (mat[p.x.toNat]).length := by rw [hlen]; omega
    exact ⟨_, cellAt_eq_some.mpr ⟨h1, h3, _, List.getElem?_eq_getElem hlt,
      List.getElem?_eq_getElem hlt'⟩⟩

theorem sum_map_set {α : Type} (f : α → Nat) (l : List α) (i : Nat) (x a : α)
    (h : l[i]? = some a) : ((l.set i x).map f).sum + f a = (l.map f).sum + f x := by
  induction l generalizing i with
  | nil => simp at h
  | cons b t ih =>
    cases i with
    | zero =>
      simp only [List.getElem?_cons_zero, Option.some.injEq] at h
      subst h
      simp only [List.set_cons_zero, List.map_cons, List.sum_cons]
      omega
    | succ j =>
      simp only [List.getElem?_cons_succ] at h
      have := ih j h
      simp only [List.set_cons_succ, List.map_cons, List.sum_cons]
      omega

theorem count_set_of_get {α : Type} [DecidableEq α] (b : α) (l : List α) (j : Nat) (v a : α)
    (h : l[j]? = some a) :
    (l.set j v).count b + (if a = b then 1 else 0) = l.count b + (if v = b then 1 else 0) := by
  induction l generalizing j with
  | nil => simp at h
  | cons c t ih =>
    cases j with
    | zero =>
      simp only [List.getElem?_cons_zero, Option.some.injEq] at h
      subst h
      simp only [List.set_cons_zero, List.count_cons, beq_iff_eq]
      omega
    | succ j =>
      simp only [List.getElem?_cons_succ] at h
      have := ih j h
      simp only [List.set_cons_succ, List.count_cons]
      omega

theorem vecWrite_ok {α : Type} {mat : List (List α)} {p : Point} {a : α}
    (h : cellAt mat p = some a) (v : α) :
    ∃ mat', vecWrite mat p v = .ok mat' ∧
      (∀ q, cellAt mat' q = if q = p then some v else cellAt mat q) ∧
      (∀ n m, Dims mat n m → Dims mat' n m) := by
  obtain ⟨h1, h2, row, hrow, hcol⟩ := cellAt_eq_some.mp h
  obtain ⟨hlt, hget⟩ := List.getElem?_eq_some.mp hrow
  obtain ⟨hlt', _⟩ := List.getElem?_eq_some.mp hcol
  have hD : mat.getD p.x.toNat [] = row := by
    rw [List.getD_eq_getElem?_getD, hrow]; rfl
  refine ⟨mat.set p.x.toNat (row.set p.y.toNat v), ?_, ?_, ?_⟩
  · unfold vecWrite
    rw [h, hD]
  · intro q
    by_cases hq : q = p
    · subst hq
      rw [if_pos rfl]
      refine cellAt_eq_some.mpr ⟨h1, h2, row.set q.y.toNat v, ?_, ?_⟩
      · rw [List.getElem?_set]; simp [hlt]
      · rw [List.getElem?_set]; simp [hlt']
    · rw [if_neg hq]
      unfold cellAt
      by_cases hneg : q.x < 0 ∨ q.y < 0
      · rw [if_pos hneg, if_pos hneg]
      · rw [if_neg hneg, if_neg hneg]
        by_cases hx : p.x.toNat = q.x.toNat
        · have hy : p.y.toNat ≠ q.y.toNat := by
            intro hy
            exact hq (point_eq_of_toNat (by omega) (by omega) h1 h2 hx.symm hy.symm)
          rw [List.getElem?_set, if_pos hx, if_pos hlt, ← hx, hrow]
          simp only
          rw [List.getElem?_set_ne hy]
        · rw [List.getElem?_set_ne hx]
  · rintro n m ⟨hn, hm⟩
    refine ⟨by rw [List.length_set]; exact hn, ?_⟩
    intro r hr
    rcases List.mem_or_eq_of_mem_set hr with hr | hr
    · exact hm r hr
    · rw [hr, List.length_set]
      exact hm row (hget ▸ List.getElem_mem hlt)

theorem vecWrite_count {α : Type} [DecidableEq α] {mat mat' : List (List α)} {p : Point} {a : α}
    (h : cellAt mat p = some a) (v b : α) (hw : vecWrite mat p v = .ok mat') :
    countCells b mat' + (if a = b then 1 else 0) = countCells b mat + (if v = b then 1 else 0) := by
  obtain ⟨h1, h2, row, hrow, hcol⟩ := cellAt_eq_some.mp h
  have hD : mat.getD p.x.toNat [] = row := by
    rw [List.getD_eq_getElem?_getD, hrow]; rfl
  unfold vecWrite at hw
  rw [h, hD] at hw
  simp only [Except.ok.injEq] at hw
  subst hw
  unfold countCells
  have e1 := sum_map_set (fun r : List α => r.count b) mat p.x.toNat (row.set p.y.toNat v) row hrow
  have e2 := count_set_of_get b row p.y.toNat v a hcol
  simp only at e1
  omega

theorem vecRead_ok {α : Type} {mat : List (List α)} {p : Point} {a : α}
    (h : cellAt mat p = some a) : vecRead mat p = .ok a := by
  unfold vecRead; rw [h]

theorem strRead_ok {g : List (List Char)} {p : Point} {c : Char}
    (h : cellAt g p = some c) : strRead g p = .ok c := by
  obtain ⟨h1, h2, row, hrow, hcol⟩ := cellAt_eq_some.mp h
  unfold strRead
  rw [if_neg (by omega), hrow]
  simp only [hcol]

theorem countCells_replicate {α : Type} [DecidableEq α] (a : α) (n m : Nat) :
    countCells a (List.replicate n (List.replicate m a)) = n * m := by
  unfold countCells
  simp [List.map_replicate, List.sum_replicate, List.count_replicate_self]

theorem dims_replicate {α : Type} (a : α) (n m : Nat) :
    Dims (List.replicate n (List.replicate m a)) n m := by
  refine ⟨List.length_replicate _ _, ?_⟩
  intro row hrow
  rw [(List.mem_replicate.mp hrow).2, List.length_replicate]

theorem cellAt_replicate {α : Type} (a : α) (n m : Nat) (p : Point) (b : α)
    (h : cellAt (List.replicate n (List.replicate m a)) p = some b) : b = a := by
  obtain ⟨_, _, row, hrow, hcol⟩ := cellAt_eq_some.mp h
  have h1 := List.mem_replicate.mp (List.mem_iff_getElem?.mpr ⟨_, hrow⟩)
  rw [h1.2] at hcol
  exact (List.mem_replicate.mp (List.mem_iff_getElem?.mpr ⟨_, hcol⟩)).2

theorem countCells_le {α : Type} [DecidableEq α] (a : α) {mat : List (List α)} {n m : Nat}
    (h : Dims mat n m) : countCells a mat ≤ n * m := by
  obtain ⟨hn, hm⟩ := h
  unfold countCells
  subst hn
  induction mat with
  | nil => simp
  | cons r t ih =>
    have hr : r.length = m := hm r (List.mem_cons_self _ _)
    have := ih (fun row hrow => hm row (List.mem_cons_of_mem _ hrow))
    have hc : r.count a ≤ r.length := List.count_le_length a r
    simp only [List.map_cons, List.sum_cons, List.length_cons]
    have : (t.length + 1) * m = t.length * m + m := by ring
    omega

/-! ## Bounds, adjacency and the direction loop -/

theorem isOutOfRange_eq_false (s : Labirinth) (p : Point) :
    isOutOfRange s p = false ↔ InRange s p := by
  unfold isOutOfRange InRange
  simp only [Bool.or_eq_false_iff, decide_eq_false_iff_not, not_lt, ge_iff_le, not_le]
  tauto

theorem Shape.inRange_iff {g : List (List Char)} {n m : Nat} {s : Labirinth}
    (h : Shape g n m s) (p : Point) : InRange s p ↔ ∃ c, cellAt g p = some c := by
  rw [cellAt_some_iff_of_dims h.grid, InRange, h.xs, h.ys]

theorem Shape.inRange_used {g : List (List Char)} {n m : Nat} {s : Labirinth}
    (h : Shape g n m s) (p : Point) : InRange s p ↔ ∃ b, cellAt s.used_ p = some b := by
  rw [cellAt_some_iff_of_dims h.usedDims, InRange, h.xs, h.ys]

theorem Shape.inRange_parent {g : List (List Char)} {n m : Nat} {s : Labirinth}
    (h : Shape g n m s) (p : Point) : InRange s p ↔ ∃ b, cellAt s.parent_ p = some b := by
  rw [cellAt_some_iff_of_dims h.parentDims, InRange, h.xs, h.ys]

theorem recognised_of_cell {g : List (List Char)} (h : AllRecognised g) {p : Point} {c : Char}
    (hc : cellAt g p = some c) : Recognised c := by
  obtain ⟨_, _, row, hrow, hcol⟩ := cellAt_eq_some.mp hc
  exact h row (List.mem_iff_getElem?.mpr ⟨_, hrow⟩) c (List.mem_iff_getElem?.mpr ⟨_, hcol⟩)

theorem open_inRange {g : List (List Char)} {n m : Nat} {s : Labirinth}
    (h : Shape g n m s) {p : Point} (hp : Open g p) : InRange s p := by
  obtain ⟨c, hc, _⟩ := hp
  exact (h.inRange_iff p).mpr ⟨c, hc⟩

theorem used_inRange {g : List (List Char)} {n m : Nat} {s : Labirinth}
    (h : Shape g n m s) {p : Point} (hp : Used s.used_ p) : InRange s p :=
  (h.inRange_used p).mpr ⟨true, hp⟩

theorem adj_iff (p q : Point) :
    Adj p q ↔ ∃ i, i < DIRECTIONS ∧ q = ⟨p.x + dx.getD i 0, p.y + dy.getD i 0⟩ := by
  cases p with
  | mk px py =>
  cases q with
  | mk qx qy =>
  unfold Adj DIRECTIONS
  simp only [Point.mk.injEq]
  constructor
  · rintro (⟨h1, h2 | h2⟩ | ⟨h1, h2 | h2⟩)
    · exact ⟨0, by decide, by simp [dx, dy, h1, h2]⟩
    · exact ⟨2, by decide, by simp [dx, dy, h1, h2]; omega⟩
    · exact ⟨1, by decide, by simp [dx, dy, h1, h2]⟩
    · exact ⟨3, by decide, by simp [dx, dy, h1, h2]; omega⟩
  · rintro ⟨i, hi, h1, h2⟩
    have : i = 0 ∨ i = 1 ∨ i = 2 ∨ i = 3 := by omega
    rcases this with rfl | rfl | rfl | rfl <;> simp [dx, dy] at h1 h2 <;> omega

theorem Adj.symm {p q : Point} (h : Adj p q) : Adj q p := by
  unfold Adj at *
  omega

theorem Adj.ne {p q : Point} (h : Adj p q) : p ≠ q := by
  intro e
  subst e
  unfold Adj at h
  omega

theorem pushNeighbour_eq {g : List (List Char)} {n m : Nat} {s : Labirinth}
    (h : Shape g n m s) (hg : s.labirinth_ = g) (d : Int) (tmp : Point) (i : Nat) :
    pushNeighbour s d tmp i = .ok { s with queue_ := s.queue_ ++
      (match cellAt g ⟨tmp.x + dx.getD i 0, tmp.y + dy.getD i 0⟩ with
        | some c => if c = '#' then [] else [(d + 1, ⟨tmp.x + dx.getD i 0, tmp.y + dy.getD i 0⟩, tmp)]
        | none => []) } := by
  unfold pushNeighbour
  simp only
  generalize (⟨tmp.x + dx.getD i 0, tmp.y + dy.getD i 0⟩ : Point) = q
  by_cases hq : InRange s q
  · obtain ⟨c, hc⟩ := (h.inRange_iff q).mp hq
    obtain ⟨t, ht, hwall, _⟩ := getPointType_of_recognised (recognised_of_cell h.chars hc)
    rw [(isOutOfRange_eq_false s q).mpr hq]
    simp only [Bool.false_eq_true, if_false]
    unfold getPointTypeAt
    subst hg
    rw [strRead_ok hc]
    simp only [ht, hc]
    by_cases hw : c = '#'
    · rw [if_pos (hwall.mpr hw), if_pos hw, List.append_nil]
    · rw [if_neg (fun e => hw (hwall.mp e)), if_neg hw]
  · have hout : isOutOfRange s q = true := by
      cases hb : isOutOfRange s q with
      | true => rfl
      | false => exact absurd ((isOutOfRange_eq_false s q).mp hb) hq
    have hnone : cellAt g q = none := by
      cases hc : cellAt g q with
      | none => rfl
      | some c => exact absurd ((h.inRange_iff q).mpr ⟨c, hc⟩) hq
    rw [hout, hnone]
    simp only [if_true, List.append_nil]

theorem Shape.withQueue {g : List (List Char)} {n m : Nat} {s : Labirinth}
    (h : Shape g n m s) (q : List (Int × Point × Point)) :
    Shape g n m { s with queue_ := q } :=
  ⟨h.xs, h.ys, h.grid, h.chars, h.usedDims, h.parentDims, h.startIn, h.finishIn⟩

theorem pushNeighbour_withQueue {g : List (List Char)} {n m : Nat} {s : Labirinth}
    (h : Shape g n m s) (hg : s.labirinth_ = g) (d : Int) (tmp : Point) (i : Nat)
    (q : List (Int × Point × Point)) :
    pushNeighbour { s with queue_ := q } d tmp i = .ok { s with queue_ := q ++
      (match cellAt g ⟨tmp.x + dx.getD i 0, tmp.y + dy.getD i 0⟩ with
        | some c => if c = '#' then [] else [(d + 1, ⟨tmp.x + dx.getD i 0, tmp.y + dy.getD i 0⟩, tmp)]
        | none => []) } :=
  pushNeighbour_eq (h.withQueue q) hg d tmp i

theorem pushNeighbours_eq {g : List (List Char)} {n m : Nat} {s : Labirinth}
    (h : Shape g n m s) (hg : s.labirinth_ = g) (d : Int) (tmp : Point) :
    pushNeighbours s d tmp = .ok { s with queue_ := s.queue_ ++ newEntries g d tmp } := by
  unfold pushNeighbours
  have hr : List.range DIRECTIONS = [0, 1, 2, 3] := by decide
  rw [hr]
  simp only [List.foldlM_cons, List.foldlM_nil]
  rw [pushNeighbour_eq h hg d tmp 0]
  simp only [bind, Except.bind]
  rw [pushNeighbour_withQueue h hg d tmp 1]
  simp only
  rw [pushNeighbour_withQueue h hg d tmp 2]
  simp only
  rw [pushNeighbour_withQueue h hg d tmp 3]
  simp only [pure, Except.pure, List.append_assoc]
  unfold newEntries
  rw [hr]
  simp only [List.filterMap_cons, List.filterMap_nil]
  congr 2
  cases cellAt g ⟨tmp.x + dx.getD 0 0, tmp.y + dy.getD 0 0⟩ <;>
  cases cellAt g ⟨tmp.x + dx.getD 1 0, tmp.y + dy.getD 1 0⟩ <;>
  cases cellAt g ⟨tmp.x + dx.getD 2 0, tmp.y + dy.getD 2 0⟩ <;>
  cases cellAt g ⟨tmp.x + dx.getD 3 0, tmp.y + dy.getD 3 0⟩ <;>
  simp only [List.nil_append, List.append_nil] <;>
  repeat (first | rfl | split)

theorem mem_newEntries {g : List (List Char)} {d : Int} {tmp : Point} {e : Int × Point × Point} :
    e ∈ newEntries g d tmp ↔ ∃ r, Adj tmp r ∧ Open g r ∧ e = (d + 1, r, tmp) := by
  unfold newEntries
  rw [List.mem_filterMap]
  constructor
  · rintro ⟨i, hi, he⟩
    rw [List.mem_range] at hi
    simp only at he
    cases hc : cellAt g ⟨tmp.x + dx.getD i 0, tmp.y + dy.getD i 0⟩ with
    | none => rw [hc] at he; simp at he
    | some c =>
      rw [hc] at he
      by_cases hw : c = '#'
      · simp [hw] at he
      · simp only [hw, if_false, Option.some.injEq] at he
        exact ⟨_, (adj_iff _ _).mpr ⟨i, hi, rfl⟩, ⟨c, hc, hw⟩, he.symm⟩
  · rintro ⟨r, hadj, ⟨c, hc, hw⟩, he⟩
    obtain ⟨i, hi, hr⟩ := (adj_iff _ _).mp hadj
    refine ⟨i, List.mem_range.mpr hi, ?_⟩
    simp only
    rw [← hr, hc, he]
    simp [hw]

theorem length_newEntries (g : List (List Char)) (d : Int) (tmp : Point) :
    (newEntries g d tmp).length ≤ 4 := by
  unfold newEntries
  exact (List.length_filterMap_le _ _).trans (by simp [DIRECTIONS])

/-! ## Trails of parent entries -/

theorem Trail.route {g : List (List Char)} {u : List (List Bool)} {par : List (List Point)}
    {st p : Point} {l : List Point} (h : Trail g u par st p l) : Route g st l.length p := by
  induction h with
  | root _ _ => exact Route.here
  | step _ _ hadj hopen _ ih => exact Route.step ih hadj hopen

theorem Trail.used {g : List (List Char)} {u : List (List Bool)} {par : List (List Point)}
    {st p : Point} {l : List Point} (h : Trail g u par st p l) : Used u p := by
  cases h with
  | root hu _ => exact hu
  | step hu _ _ _ _ => exact hu

theorem Trail.root_trail {g : List (List Char)} {u : List (List Bool)} {par : List (List Point)}
    {st p : Point} {l : List Point} (h : Trail g u par st p l) : Trail g u par st st [] := by
  induction h with
  | root hu hp => exact Trail.root hu hp
  | step _ _ _ _ _ ih => exact ih

theorem Trail.unique {g : List (List Char)} {u : List (List Bool)} {par : List (List Point)}
    {st p : Point} {l l' : List Point} (h : Trail g u par st p l) (h' : Trail g u par st p l') :
    l = l' := by
  induction h generalizing l' with
  | root _ hp =>
    cases h' with
    | root _ _ => rfl
    | step _ hp' hadj _ _ =>
      rw [hp] at hp'
      simp only [Option.some.injEq] at hp'
      subst hp'
      exact absurd rfl hadj.ne
  | step _ hp hadj _ _ ih =>
    cases h' with
    | root _ hp' =>
      rw [hp] at hp'
      simp only [Option.some.injEq] at hp'
      subst hp'
      exact absurd rfl hadj.ne
    | step _ hp' _ _ ht' =>
      rw [hp] at hp'
      simp only [Option.some.injEq] at hp'
      subst hp'
      rw [ih ht']

theorem Trail.mono {g : List (List Char)} {u u' : List (List Bool)} {par par' : List (List Point)}
    {st p : Point} {l : List Point}
    (hmono : ∀ q, Used u q → Used u' q ∧ cellAt par' q = cellAt par q)
    (h : Trail g u par st p l) : Trail g u' par' st p l := by
  induction h with
  | root hu hp => exact Trail.root (hmono _ hu).1 (by rw [(hmono _ hu).2]; exact hp)
  | step hu hp hadj hopen _ ih =>
    exact Trail.step (hmono _ hu).1 (by rw [(hmono _ hu).2]; exact hp) hadj hopen ih

theorem Trail.mem {g : List (List Char)} {u : List (List Bool)} {par : List (List Point)}
    {st p : Point} {l : List Point} (h : Trail g u par st p l) :
    ∀ r ∈ l, Open g r ∧ ∃ l', Trail g u par st r l' ∧ 0 < l'.length ∧ l'.length ≤ l.length := by
  induction h with
  | root _ _ => intro r hr; cases hr
  | @step p q l hu hp hadj hopen ht ih =>
    intro r hr
    rcases List.mem_cons.mp hr with hr | hr
    · subst hr
      exact ⟨hopen, r :: l, Trail.step hu hp hadj hopen ht, by simp, le_refl _⟩
    · obtain ⟨ho, l', h1, h2, h3⟩ := ih r hr
      exact ⟨ho, l', h1, h2, by simp only [List.length_cons]; omega⟩

theorem Trail.start_not_mem {g : List (List Char)} {u : List (List Bool)}
    {par : List (List Point)} {st p : Point} {l : List Point} (h : Trail g u par st p l) :
    st ∉ l := by
  intro hmem
  obtain ⟨_, l', h1, h2, _⟩ := h.mem st hmem
  have := h1.unique h.root_trail
  subst this
  simp at h2

theorem Trail.nodup {g : List (List Char)} {u : List (List Bool)} {par : List (List Point)}
    {st p : Point} {l : List Point} (h : Trail g u par st p l) : l.Nodup := by
  induction h with
  | root _ _ => exact List.nodup_nil
  | @step p q l hu hp hadj hopen ht ih =>
    refine List.nodup_cons.mpr ⟨?_, ih⟩
    intro hmem
    obtain ⟨_, l', h1, _, h3⟩ := ht.mem p hmem
    have := h1.unique (Trail.step hu hp hadj hopen ht)
    subst this
    simp at h3

theorem Trail.head_eq {g : List (List Char)} {u : List (List Bool)} {par : List (List Point)}
    {st p r : Point} {l : List Point} (h : Trail g u par st p (r :: l)) :
    r = p ∧ ∃ q, cellAt par p = some q ∧ Adj q p ∧ Trail g u par st q l := by
  cases h with
  | step _ hp hadj _ ht => exact ⟨rfl, _, hp, hadj, ht⟩

theorem Trail.nil_eq {g : List (List Char)} {u : List (List Bool)} {par : List (List Point)}
    {st p : Point} (h : Trail g u par st p []) : p = st ∧ cellAt par st = some st := by
  cases h with
  | root _ hp => exact ⟨rfl, hp⟩

/-! ## The invariant of the search loop -/

theorem Inv.entry_route {g : List (List Char)} {n m : Nat} {s : Labirinth} (h : Inv g n m s)
    {e : Int × Point × Point} (he : e ∈ s.queue_) :
    ∃ k : Nat, e.1 = (k : Int) ∧ Route g s.start_ k e.2.1 := by
  rcases h.qTrail e he with ⟨h1, h2, _⟩ | ⟨l, h1, h2, h3, h4⟩
  · exact ⟨0, by simpa using h1, h2 ▸ Route.here⟩
  · exact ⟨l.length + 1, by push_cast; exact h1, Route.step h2.route h3 h4⟩

theorem Inv.entry_inRange {g : List (List Char)} {n m : Nat} {s : Labirinth} (h : Inv g n m s)
    {e : Int × Point × Point} (he : e ∈ s.queue_) : InRange s e.2.1 := by
  rcases h.qTrail e he with ⟨_, h2, _⟩ | ⟨l, _, _, _, h4⟩
  · rw [h2]; exact h.shape.startIn
  · exact open_inRange h.shape h4

/-- Every cell with a route of `k` edges from the Start cell is marked or waits in
the queue with a distance of at most `k`, as long as no entry of the queue has a
distance below `k`. -/
theorem Inv.front {g : List (List Char)} {n m : Nat} {s : Labirinth} (h : Inv g n m s)
    {k : Nat} {p : Point} (hr : Route g s.start_ k p) (hk : ∀ e ∈ s.queue_, (k : Int) ≤ e.1) :
    Used s.used_ p ∨ ∃ e ∈ s.queue_, e.2.1 = p ∧ e.1 ≤ (k : Int) := by
  induction hr with
  | here => exact h.startSeen
  | @step k p q hroute hadj hopen ih =>
    have hk' : ∀ e ∈ s.queue_, (k : Int) ≤ e.1 := by
      intro e he
      have := hk e he
      push_cast at this
      omega
    rcases ih hk' with hu | ⟨e, he, _, hle⟩
    · rcases h.nbrs p hu q hadj hopen k hroute with hq | ⟨e, he, h1, h2⟩
      · exact Or.inl hq
      · exact Or.inr ⟨e, he, h1, by push_cast; exact h2⟩
    · have := hk e he
      push_cast at this
      omega

/-- The distance at the front of the queue is minimal for its cell, if that cell
is not marked yet. -/
theorem Inv.head_minimal {g : List (List Char)} {n m : Nat} {s : Labirinth} (h : Inv g n m s)
    {d : Int} {tmp par : Point} {rest : List (Int × Point × Point)}
    (hq : s.queue_ = (d, tmp, par) :: rest) (hfree : ¬ Used s.used_ tmp)
    {k : Nat} (hr : Route g s.start_ k tmp) : d ≤ (k : Int) := by
  by_contra hlt
  have hsorted := h.sorted
  rw [hq] at hsorted
  have hmin : ∀ e ∈ s.queue_, d ≤ e.1 := by
    intro e he
    rw [hq] at he
    rcases List.mem_cons.mp he with he | he
    · rw [he]
    · exact (List.pairwise_cons.mp hsorted).1 e he
  rcases h.front hr (fun e he => by have := hmin e he; omega) with hu | ⟨e, he, _, hle⟩
  · exact hfree hu
  · have := hmin e he
    omega

theorem loopBody_used {g : List (List Char)} {n m : Nat} {s : Labirinth} (h : Inv g n m s)
    {d : Int} {tmp par : Point} {rest : List (Int × Point × Point)}
    (hq : s.queue_ = (d, tmp, par) :: rest) (hu : Used s.used_ tmp) :
    loopBody { s with queue_ := rest } d tmp par = .next { s with queue_ := rest } ∧
      Inv g n m { s with queue_ := rest } ∧
      measure { s with queue_ := rest } < measure s := by
  have hsub : ∀ e, e ∈ rest → e ∈ s.queue_ := fun e he => by
    rw [hq]; exact List.mem_cons_of_mem _ he
  have hcase : ∀ e ∈ s.queue_, e.2.1 = tmp ∨ e ∈ rest := by
    intro e he
    rw [hq] at he
    rcases List.mem_cons.mp he with he | he
    · exact Or.inl (by rw [he])
    · exact Or.inr he
  refine ⟨?_, ?_, ?_⟩
  · unfold loopBody
    simp only [vecRead_ok hu]
  · refine
      { shape := h.shape.withQueue rest
        lab := h.lab
        noPath := h.noPath
        noLength := h.noLength
        qTrail := fun e he => h.qTrail e (hsub e he)
        sorted := ?_
        span := fun a ha b hb => h.span a (hsub a ha) b (hsub b hb)
        nbrs := ?_
        startSeen := ?_
        usedTrail := h.usedTrail
        finishFree := h.finishFree
        bound := fun e he => h.bound e (hsub e he) }
    · have := h.sorted
      rw [hq] at this
      exact (List.pairwise_cons.mp this).2
    · intro p hp r hadj hopen k hroute
      rcases h.nbrs p hp r hadj hopen k hroute with hr | ⟨e, he, h1, h2⟩
      · exact Or.inl hr
      · rcases hcase e he with h3 | h3
        · exact Or.inl (by rw [← h1, h3]; exact hu)
        · exact Or.inr ⟨e, h3, h1, h2⟩
    · rcases h.startSeen with hs | ⟨e, he, h1, h2⟩
      · exact Or.inl hs
      · rcases hcase e he with h3 | h3
        · exact Or.inl (by rw [← h1, h3]; exact hu)
        · exact Or.inr ⟨e, h3, h1, h2⟩
  · unfold measure
    simp only [hq, List.length_cons]
    omega

theorem loopBody_fresh {g : List (List Char)} {n m : Nat} {s : Labirinth} (h : Inv g n m s)
    {d : Int} {tmp par : Point} {rest : List (Int × Point × Point)}
    (hq : s.queue_ = (d, tmp, par) :: rest) (hfree : ¬ Used s.used_ tmp) :
    ∃ s', s'.start_ = s.start_ ∧ s'.finish_ = s.finish_ ∧
      ((loopBody { s with queue_ := rest } d tmp par = .next s' ∧ Inv g n m s' ∧
          measure s' < measure s) ∨
        (∃ l, loopBody { s with queue_ := rest } d tmp par = .finish s' ∧ Found g n m s' l)) := by
  have hhead : (d, tmp, par) ∈ s.queue_ := by rw [hq]; exact List.mem_cons_self _ _
  have hsub : ∀ e, e ∈ rest → e ∈ s.queue_ := fun e he => by
    rw [hq]; exact List.mem_cons_of_mem _ he
  have hcase : ∀ e ∈ s.queue_, e.2.1 = tmp ∨ e ∈ rest := by
    intro e he
    rw [hq] at he
    rcases List.mem_cons.mp he with he | he
    · exact Or.inl (by rw [he])
    · exact Or.inr he
  have hin : InRange s tmp := h.entry_inRange hhead
  obtain ⟨b, hb⟩ := (h.shape.inRange_used tmp).mp hin
  have hbf : b = false := by
    cases b with
    | false => rfl
    | true => exact absurd hb hfree
  subst hbf
  obtain ⟨u', hwu, hcu, hdu⟩ := vecWrite_ok hb true
  obtain ⟨pb, hpb⟩ := (h.shape.inRange_parent tmp).mp hin
  obtain ⟨par', hwp, hcp, hdp⟩ := vecWrite_ok hpb par
  have hcount : countCells false u' + 1 = countCells false s.used_ := by
    have := vecWrite_count hb true false hwu
    simpa using this
  have hused' : ∀ q, Used u' q ↔ q = tmp ∨ Used s.used_ q := by
    intro q
    unfold Used
    rw [hcu q]
    by_cases hqt : q = tmp
    · simp [hqt]
    · simp [hqt]
  have hne : ∀ q, Used s.used_ q → q ≠ tmp := fun q hq' e => hfree (e ▸ hq')
  have hmono : ∀ q, Used s.used_ q → Used u' q ∧ cellAt par' q = cellAt s.parent_ q := by
    intro q hq'
    refine ⟨(hused' q).mpr (Or.inr hq'), ?_⟩
    rw [hcp q, if_neg (hne q hq')]
  have hmin : ∀ k : Nat, Route g s.start_ k tmp → d ≤ (k : Int) :=
    fun k hr => h.head_minimal hq hfree hr
  -- the trail of the cell that is being marked
  obtain ⟨l, hl, htrail⟩ : ∃ l, d = (l.length : Int) ∧ Trail g u' par' s.start_ tmp l := by
    rcases h.qTrail _ hhead with ⟨h1, h2, h3⟩ | ⟨l, h1, h2, h3, h4⟩
    · simp only at h1 h2 h3
      subst h2
      refine ⟨[], by simpa using h1, Trail.root ((hused' _).mpr (Or.inl rfl)) ?_⟩
      rw [hcp, if_pos rfl, h3]
    · simp only at h1 h2 h3 h4
      refine ⟨tmp :: l, by simp only [List.length_cons]; push_cast; exact h1, ?_⟩
      refine Trail.step ((hused' _).mpr (Or.inl rfl)) ?_ h3 h4 (h2.mono hmono)
      rw [hcp, if_pos rfl]
  have hdims : countCells false s.used_ ≤ n * m := countCells_le false h.shape.usedDims
  have hbound := h.bound _ hhead
  simp only at hbound
  have hspan : ∀ e ∈ rest, d ≤ e.1 ∧ e.1 ≤ d + 1 := by
    intro e he
    have hs := h.sorted
    rw [hq] at hs
    exact ⟨(List.pairwise_cons.mp hs).1 e he, h.span _ hhead e (hsub e he)⟩
  by_cases hfin : tmp = s.finish_
  · refine ⟨{ s with queue_ := rest, used_ := u', parent_ := par', hasPath := true, pathLength := d },
      rfl, rfl, Or.inr ⟨l, ?_, ?_⟩⟩
    · unfold loopBody
      simp only [vecRead_ok hb, hwu, hwp]
      rw [if_pos ((Point.eq_iff _ _).mpr hfin)]
    · exact
        { shape := ⟨h.shape.xs, h.shape.ys, h.shape.grid, h.shape.chars,
            hdu _ _ h.shape.usedDims, hdp _ _ h.shape.parentDims, h.shape.startIn,
            h.shape.finishIn⟩
          lab := h.lab
          hasPath := rfl
          len := hl
          trail := hfin ▸ htrail
          minimal := fun k hr => by
            have := hmin k (hfin ▸ hr)
            omega
          bound := by
            have : (l.length : Int) + 1 ≤ ((n * m : Nat) : Int) := by omega
            exact_mod_cast this }
  · have hshape1 : Shape g n m { s with queue_ := rest, used_ := u', parent_ := par' } :=
      ⟨h.shape.xs, h.shape.ys, h.shape.grid, h.shape.chars, hdu _ _ h.shape.usedDims,
        hdp _ _ h.shape.parentDims, h.shape.startIn, h.shape.finishIn⟩
    have hpush := pushNeighbours_eq hshape1 h.lab d tmp
    refine ⟨{ s with queue_ := rest ++ newEntries g d tmp, used_ := u', parent_ := par' },
      rfl, rfl, Or.inl ⟨?_, ?_, ?_⟩⟩
    · unfold loopBody
      simp only [vecRead_ok hb, hwu, hwp]
      rw [if_neg (fun e => hfin ((Point.eq_iff _ _).mp e)), hpush]
    · refine
        { shape := hshape1.withQueue _
          lab := h.lab
          noPath := h.noPath
          noLength := h.noLength
          qTrail := ?_
          sorted := ?_
          span := ?_
          nbrs := ?_
          startSeen := ?_
          usedTrail := ?_
          finishFree := ?_
          bound := ?_ }
      · intro e he
        rcases List.mem_append.mp he with he | he
        · rcases h.qTrail e (hsub e he) with h1 | ⟨l', h1, h2, h3, h4⟩
          · exact Or.inl h1
          · exact Or.inr ⟨l', h1, h2.mono hmono, h3, h4⟩
        · obtain ⟨r, hadj, hopen, rfl⟩ := mem_newEntries.mp he
          exact Or.inr ⟨l, by simp only; omega, htrail, hadj, hopen⟩
      · refine List.pairwise_append.mpr ⟨?_, ?_, ?_⟩
        · have := h.sorted
          rw [hq] at this
          exact (List.pairwise_cons.mp this).2
        · refine List.pairwise_iff_forall_sublist.mpr ?_
          intro a b hab
          have ha := mem_newEntries.mp (hab.subset (List.mem_cons_self _ _))
          have hb' := mem_newEntries.mp (hab.subset (List.mem_cons_of_mem _ (List.mem_singleton_self _)))
          obtain ⟨_, _, _, rfl⟩ := ha
          obtain ⟨_, _, _, rfl⟩ := hb'
          exact le_refl _
        · intro a ha b hb'
          obtain ⟨_, _, _, rfl⟩ := mem_newEntries.mp hb'
          exact (hspan a ha).2
      · have hall : ∀ e ∈ rest ++ newEntries g d tmp, d ≤ e.1 ∧ e.1 ≤ d + 1 := by
          intro e he
          rcases List.mem_append.mp he with he | he
          · exact hspan e he
          · obtain ⟨_, _, _, rfl⟩ := mem_newEntries.mp he
            simp only
            omega
        intro a ha b hb'
        have := hall a ha
        have := hall b hb'
        omega
      · intro p hp r hadj hopen k hroute
        rcases (hused' p).mp hp with hp | hp
        · subst hp
          refine Or.inr ⟨(d + 1, r, p), List.mem_append_right _ (mem_newEntries.mpr
            ⟨r, hadj, hopen, rfl⟩), rfl, ?_⟩
          have := hmin k hroute
          simp only
          omega
        · rcases h.nbrs p hp r hadj hopen k hroute with hr | ⟨e, he, h1, h2⟩
          · exact Or.inl ((hused' r).mpr (Or.inr hr))
          · rcases hcase e he with h3 | h3
            · exact Or.inl ((hused' r).mpr (Or.inl (by rw [← h1, h3])))
            · exact Or.inr ⟨e, List.mem_append_left _ h3, h1, h2⟩
      · rcases h.startSeen with hs | ⟨e, he, h1, h2⟩
        · exact Or.inl ((hused' _).mpr (Or.inr hs))
        · rcases hcase e he with h3 | h3
          · exact Or.inl ((hused' _).mpr (Or.inl (by rw [← h1, h3])))
          · exact Or.inr ⟨e, List.mem_append_left _ h3, h1, h2⟩
      · intro p hp
        rcases (hused' p).mp hp with hp | hp
        · exact ⟨l, hp ▸ htrail⟩
        · obtain ⟨l', hl'⟩ := h.usedTrail p hp
          exact ⟨l', hl'.mono hmono⟩
      · intro hf
        rcases (hused' _).mp hf with hf | hf
        · exact hfin hf.symm
        · exact h.finishFree hf
      · intro e he
        simp only
        rcases List.mem_append.mp he with he | he
        · have := h.bound e (hsub e he)
          omega
        · obtain ⟨_, _, _, rfl⟩ := mem_newEntries.mp he
          simp only
          omega
    · unfold measure
      have := length_newEntries g d tmp
      simp only [hq, List.length_cons, List.length_append]
      omega

/-! ## The colouring loop and the whole search -/

theorem Trail.parent_tail {g : List (List Char)} {u : List (List Bool)} {par : List (List Point)}
    {st p : Point} {l : List Point} (h : Trail g u par st p l) :
    ∃ q, cellAt par p = some q ∧ Trail g u par st q l.tail := by
  cases h with
  | root hu hp => exact ⟨st, hp, Trail.root hu hp⟩
  | step _ hp _ _ ht => exact ⟨_, hp, ht⟩

theorem colorLoop_spec {g : List (List Char)} {u : List (List Bool)} {par : List (List Point)}
    {st q : Point} {l : List Point} {n m : Nat} (hg : Dims g n m)
    (ht : Trail g u par st q l) :
    ∀ (fuel : Nat) (s : Labirinth), s.parent_ = par → Dims s.labirinth_ n m →
      l.length + 1 ≤ fuel →
      ∃ g', colorLoop fuel s q = .done { s with labirinth_ := g' } ∧ Dims g' n m ∧
        (∀ p, cellAt g' p = if p ∈ l then some pathChar else cellAt s.labirinth_ p) ∧
        ((∀ p ∈ l, cellAt s.labirinth_ p ≠ some pathChar) →
          countCells pathChar g' = countCells pathChar s.labirinth_ + l.length) := by
  induction ht with
  | root hu hp =>
    intro fuel s hpar hdims hfuel
    obtain ⟨f, rfl⟩ : ∃ f, fuel = f + 1 := ⟨fuel - 1, by omega⟩
    refine ⟨s.labirinth_, ?_, hdims, by simp, by simp⟩
    have hp' : cellAt s.parent_ st = some st := hpar ▸ hp
    have hne : st.ne st = false := by
      cases hb : st.ne st with
      | false => rfl
      | true => exact absurd rfl ((Point.ne_iff _ _).mp hb)
    unfold colorLoop
    rw [vecRead_ok hp']
    simp only [hne, Bool.false_eq_true, if_false]
  | @step p q0 l0 hu hp hadj hopen ht ih =>
    intro fuel s hpar hdims hfuel
    obtain ⟨f, rfl⟩ : ∃ f, fuel = f + 1 := ⟨fuel - 1, by omega⟩
    have hnotin : p ∉ l0 := (List.nodup_cons.mp (Trail.step hu hp hadj hopen ht).nodup).1
    obtain ⟨c0, hc0, _⟩ := hopen
    have hrange := (cellAt_some_iff_of_dims hg p).mp ⟨c0, hc0⟩
    obtain ⟨c, hc⟩ := (cellAt_some_iff_of_dims hdims p).mpr hrange
    obtain ⟨g1, hw, hcell, hd1⟩ := vecWrite_ok hc pathChar
    have hcount := vecWrite_count hc pathChar pathChar hw
    obtain ⟨g', hrun, hd', hcell', hstars⟩ :=
      ih f { s with labirinth_ := g1 } hpar (hd1 n m hdims)
        (by simp only [List.length_cons] at hfuel; omega)
    refine ⟨g', ?_, hd', ?_, ?_⟩
    · have hp' : cellAt s.parent_ p = some q0 := hpar ▸ hp
      unfold colorLoop
      rw [vecRead_ok hp']
      simp only
      rw [(Point.ne_iff q0 p).mpr hadj.ne, if_pos rfl, hw]
      simp only
      rw [hrun]
    · intro r
      rw [hcell' r]
      simp only [hcell r, List.mem_cons]
      by_cases h1 : r ∈ l0
      · simp [h1]
      · by_cases h2 : r = p
        · simp [h2]
        · simp [h1, h2]
    · intro hno
      have h1 : countCells pathChar g' = countCells pathChar g1 + l0.length := by
        apply hstars
        intro r hr
        have hrp : r ≠ p := fun e => hnotin (e ▸ hr)
        simp only [hcell r, if_neg hrp]
        exact hno r (List.mem_cons_of_mem _ hr)
      have h2 : c ≠ pathChar := by
        intro e
        exact hno p (List.mem_cons_self _ _) (by rw [hc, e])
      simp only [if_neg h2, if_true] at hcount
      simp only [List.length_cons]
      omega

theorem colorPath_spec {g : List (List Char)} {n m : Nat} {s : Labirinth} {l : List Point}
    (h : Found g n m s l) (fuel : Nat) (hfuel : n * m ≤ fuel) :
    ∃ s', colorPath fuel s = .done s' ∧ PathFound g n m s.start_ s.finish_ s' l := by
  obtain ⟨q, hq, htail⟩ := h.trail.parent_tail
  have hlen : l.tail.length + 1 ≤ fuel := by
    have := h.bound
    simp only [List.length_tail]
    omega
  obtain ⟨g', hrun, hd', hcell', hstars⟩ :=
    colorLoop_spec h.shape.grid htail fuel s rfl (h.lab ▸ h.shape.grid) hlen
  refine ⟨{ s with labirinth_ := g' }, ?_, ?_⟩
  · unfold colorPath
    rw [if_neg (by simp [h.hasPath]), vecRead_ok hq]
    exact hrun
  · exact
      { hasPath := h.hasPath
        len := h.len
        start := rfl
        finish := rfl
        xs := h.shape.xs
        ys := h.shape.ys
        trail := h.trail
        minimal := h.minimal
        dims := hd'
        cells := fun p => by rw [hcell' p, h.lab]
        stars := fun hno => by
          have := hstars (by rw [h.lab]; exact hno)
          rw [h.lab] at this
          exact this }

theorem findPathLoop_spec {g : List (List Char)} {n m : Nat} :
    ∀ (fuel : Nat) (s : Labirinth), Inv g n m s → measure s + n * m + 1 ≤ fuel →
      ∃ s', findPathLoop fuel s = .done s' ∧
        (NoPath g s.start_ s.finish_ s' ∨ ∃ l, PathFound g n m s.start_ s.finish_ s' l) := by
  intro fuel
  induction fuel with
  | zero => intro s _ hf; omega
  | succ fuel ih =>
    intro s h hf
    cases hq : s.queue_ with
    | nil =>
      refine ⟨s, by simp only [findPathLoop, hq], Or.inl ?_⟩
      refine ⟨h.noPath, h.noLength, h.lab, rfl, rfl, ?_⟩
      intro k hr
      rcases h.front hr (by rw [hq]; intro e he; cases he) with hu | ⟨e, he, _⟩
      · exact h.finishFree hu
      · rw [hq] at he; cases he
    | cons e rest =>
      obtain ⟨d, tmp, par⟩ := e
      by_cases hu : Used s.used_ tmp
      · obtain ⟨hbody, hinv, hlt⟩ := loopBody_used h hq hu
        obtain ⟨s', hrun, hpost⟩ := ih _ hinv (by omega)
        refine ⟨s', ?_, hpost⟩
        simp only [findPathLoop, hq, hbody]
        exact hrun
      · obtain ⟨s1, hst, hfi, hcases⟩ := loopBody_fresh h hq hu
        rcases hcases with ⟨hbody, hinv, hlt⟩ | ⟨l, hbody, hfound⟩
        · obtain ⟨s', hrun, hpost⟩ := ih _ hinv (by omega)
          refine ⟨s', ?_, by rw [← hst, ← hfi]; exact hpost⟩
          simp only [findPathLoop, hq, hbody]
          exact hrun
        · obtain ⟨s', hrun, hpost⟩ := colorPath_spec hfound fuel (by omega)
          refine ⟨s', ?_, Or.inr ⟨l, by rw [← hst, ← hfi]; exact hpost⟩⟩
          simp only [findPathLoop, hq, hbody]
          exact hrun

theorem findPath_spec {g : List (List Char)} {n m : Nat} {s : Labirinth} (h : Fresh g n m s)
    (fuel : Nat) (hf : 5 * (n * m) + 2 ≤ fuel) :
    ∃ s', findPath fuel s = .done s' ∧
      (NoPath g s.start_ s.finish_ s' ∨ ∃ l, PathFound g n m s.start_ s.finish_ s' l) := by
  have hfree : ∀ p, ¬ Used s.used_ p := by
    intro p hp
    unfold Used at hp
    rw [h.used] at hp
    have := cellAt_replicate false n m p true hp
    cases this
  have hinv : Inv g n m { s with queue_ := s.queue_ ++ [(0, s.start_, s.start_)] } :=
    { shape := h.shape.withQueue _
      lab := h.lab
      noPath := h.noPath
      noLength := h.noLength
      qTrail := fun e he => by
        rw [h.queue] at he
        simp only [List.nil_append, List.mem_singleton] at he
        subst he
        exact Or.inl ⟨rfl, rfl, rfl⟩
      sorted := by
        rw [h.queue]
        exact List.pairwise_singleton _ _
      span := fun a ha b hb => by
        rw [h.queue] at ha hb
        simp only [List.nil_append, List.mem_singleton] at ha hb
        subst ha; subst hb
        simp
      nbrs := fun p hp => absurd hp (hfree p)
      startSeen := Or.inr ⟨(0, s.start_, s.start_), by rw [h.queue]; simp, rfl, le_refl _⟩
      usedTrail := fun p hp => absurd hp (hfree p)
      finishFree := hfree _
      bound := fun e he => by
        rw [h.queue] at he
        simp only [List.nil_append, List.mem_singleton] at he
        subst he
        have := countCells_le false h.shape.usedDims
        simp only [zero_add]
        exact_mod_cast this }
  have hmeasure : measure { s with queue_ := s.queue_ ++ [(0, s.start_, s.start_)] }
      + n * m + 1 ≤ fuel := by
    have := countCells_le false h.shape.usedDims
    unfold measure
    simp only [h.queue, List.nil_append, List.length_singleton]
    omega
  exact findPathLoop_spec fuel _ hinv hmeasure

/-! ## Reading the grid -/

theorem foldlM_range_inv {σ ε : Type} (f : σ → Nat → Except ε σ) (P : Nat → σ → Prop) (n : Nat)
    (s : σ) (h0 : P 0 s)
    (hstep : ∀ k s, k < n → P k s → ∃ s', f s k = .ok s' ∧ P (k + 1) s') :
    ∃ s', (List.range n).foldlM f s = .ok s' ∧ P n s' := by
  induction n with
  | zero => exact ⟨s, rfl, h0⟩
  | succ n ih =>
    obtain ⟨s1, h1, hP1⟩ := ih (fun k s hk hP => hstep k s (by omega) hP)
    obtain ⟨s2, h2, hP2⟩ := hstep n s1 (by omega) hP1
    refine ⟨s2, ?_, hP2⟩
    rw [List.range_succ, List.foldlM_append, h1]
    simp only [bind, Except.bind, List.foldlM_cons, List.foldlM_nil, h2]
    rfl

theorem dims_of_rect {g : List (List Char)} (h : Rect g) :
    Dims g g.length (g.headD []).length := ⟨rfl, h⟩

theorem LastAt.next {g : List (List Char)} {m : Nat} {c ch : Char} {dflt pt : Point} {i j : Nat}
    (h : LastAt g m c dflt pt i j) (hj : j < m) (hch : cellAt g ⟨i, j⟩ = some ch) :
    LastAt g m c dflt (if ch = c then ⟨i, j⟩ else pt) i (j + 1) := by
  by_cases hc : ch = c
  · rw [if_pos hc]
    refine Or.inr ⟨i, j, rfl, hc ▸ hch, hj, Or.inr ⟨rfl, by omega⟩, ?_⟩
    intro a' b' _ h1 h2
    unfold Before at h1 h2
    omega
  · rw [if_neg hc]
    have hcell : ∀ a b : Nat, a = i → b = j → cellAt g ⟨a, b⟩ ≠ some c := by
      intro a b ha hb
      subst ha; subst hb
      rw [hch]
      intro e
      exact hc (Option.some.inj e)
    rcases h with ⟨h1, h2⟩ | ⟨a, b, h1, h2, h3, h4, h5⟩
    · refine Or.inl ⟨h1, ?_⟩
      intro a b hb hbefore
      by_cases hij : a = i ∧ b = j
      · exact hcell a b hij.1 hij.2
      · exact h2 a b hb (by unfold Before at *; omega)
    · refine Or.inr ⟨a, b, h1, h2, h3, by unfold Before at *; omega, ?_⟩
      intro a' b' hb' hb1 hb2
      by_cases hij : a' = i ∧ b' = j
      · exact hcell a' b' hij.1 hij.2
      · exact h5 a' b' hb' hb1 (by unfold Before at *; omega)

theorem LastAt.nextRow {g : List (List Char)} {m : Nat} {c : Char} {dflt pt : Point} {i : Nat}
    (h : LastAt g m c dflt pt i m) : LastAt g m c dflt pt (i + 1) 0 := by
  rcases h with ⟨h1, h2⟩ | ⟨a, b, h1, h2, h3, h4, h5⟩
  · refine Or.inl ⟨h1, ?_⟩
    intro a b hb hbefore
    exact h2 a b hb (by unfold Before at *; omega)
  · refine Or.inr ⟨a, b, h1, h2, h3, by unfold Before at *; omega, ?_⟩
    intro a' b' hb' hb1 hb2
    exact h5 a' b' hb' hb1 (by unfold Before at *; omega)

theorem LastAt.last {g : List (List Char)} {n m : Nat} {c : Char} {dflt pt : Point}
    (hg : Dims g n m) (h : LastAt g m c dflt pt n 0) : LastOf g c dflt pt := by
  have hnat : ∀ p, cellAt g p = some c →
      ∃ a b : Nat, p = ⟨a, b⟩ ∧ a < n ∧ b < m := by
    intro p hp
    obtain ⟨h1, h2, h3, h4⟩ := (cellAt_some_iff_of_dims hg p).mp ⟨c, hp⟩
    refine ⟨p.x.toNat, p.y.toNat, ?_, by omega, by omega⟩
    cases p
    simp only [Point.mk.injEq] at *
    omega
  rcases h with ⟨h1, h2⟩ | ⟨a, b, h1, h2, h3, h4, h5⟩
  · refine Or.inl ⟨h1, ?_⟩
    intro p hp
    obtain ⟨a, b, rfl, ha, hb⟩ := hnat p hp
    exact h2 a b hb (Or.inl ha) hp
  · refine Or.inr ⟨h1 ▸ h2, ?_⟩
    intro p hp
    obtain ⟨a', b', rfl, ha', hb'⟩ := hnat p hp
    subst h1
    simp only
    by_cases hbefore : Before a b a' b'
    · exact absurd hp (h5 a' b' hb' hbefore (Or.inl ha'))
    · unfold Before at hbefore
      omega

theorem scanCell_spec {g : List (List Char)} {n m : Nat} (hg : Dims g n m)
    (hrec : AllRecognised g) {s : Labirinth} {i j : Nat} (h : Scanned g n m s i j)
    (hi : i < n) (hj : j < m) : ∃ s', scanCell s i j = .ok s' ∧ Scanned g n m s' i (j + 1) := by
  obtain ⟨ch, hch⟩ := (cellAt_some_iff_of_dims hg ⟨i, j⟩).mpr
    ⟨by simp, by simpa using hi, by simp, by simpa using hj⟩
  obtain ⟨t, ht, _, hS, hE⟩ := getPointType_of_recognised (recognised_of_cell hrec hch)
  have hstart := h.start.next hj hch
  have hfinish := h.finish.next hj hch
  have hread : strRead s.labirinth_ ⟨i, j⟩ = .ok ch := by rw [h.lab]; exact strRead_ok hch
  unfold scanCell
  rw [hread]
  simp only [ht]
  by_cases h1 : ch = 'S'
  · have h2 : ch ≠ 'E' := by rw [h1]; decide
    rw [if_pos h1] at hstart
    rw [if_neg h2] at hfinish
    rw [if_pos (hS.mpr h1)]
    exact ⟨_, rfl, ⟨h.lab, h.xs, h.ys, h.used, h.parent, h.noPath, h.noLength, h.queue,
      hstart, hfinish⟩⟩
  · rw [if_neg h1] at hstart
    rw [if_neg (fun e => h1 (hS.mp e))]
    by_cases h2 : ch = 'E'
    · rw [if_pos h2] at hfinish
      rw [if_pos (hE.mpr h2)]
      exact ⟨_, rfl, ⟨h.lab, h.xs, h.ys, h.used, h.parent, h.noPath, h.noLength, h.queue,
        hstart, hfinish⟩⟩
    · rw [if_neg h2] at hfinish
      rw [if_neg (fun e => h2 (hE.mp e))]
      exact ⟨_, rfl, ⟨h.lab, h.xs, h.ys, h.used, h.parent, h.noPath, h.noLength, h.queue,
        hstart, hfinish⟩⟩

theorem scanRow_spec {g : List (List Char)} {n m : Nat} (hg : Dims g n m)
    (hrec : AllRecognised g) {s : Labirinth} {i : Nat} (h : Scanned g n m s i 0)
    (hi : i < n) : ∃ s', scanRow s i = .ok s' ∧ Scanned g n m s' (i + 1) 0 := by
  unfold scanRow
  rw [h.ys, Int.toNat_ofNat]
  obtain ⟨s', h1, h2⟩ := foldlM_range_inv (fun s j => scanCell s i j)
    (fun j s => Scanned g n m s i j) m s h
    (fun j s hj hs => scanCell_spec hg hrec hs hi hj)
  exact ⟨s', h1, ⟨h2.lab, h2.xs, h2.ys, h2.used, h2.parent, h2.noPath, h2.noLength, h2.queue,
    h2.start.nextRow, h2.finish.nextRow⟩⟩

theorem scanGrid_spec {g : List (List Char)} {n m : Nat} (hg : Dims g n m)
    (hrec : AllRecognised g) {s : Labirinth} (h : Scanned g n m s 0 0) :
    ∃ s', scanGrid s = .ok s' ∧ Scanned g n m s' n 0 := by
  unfold scanGrid
  rw [h.xs, Int.toNat_ofNat]
  exact foldlM_range_inv (fun s i => scanRow s i) (fun i s => Scanned g n m s i 0) n s h
    (fun i s hi hs => scanRow_spec hg hrec hs hi)

/-- On a rectangular grid of recognised characters `readLabirinth` returns an
object, whose members are as follows. -/
theorem readLabirinth_spec (input : List Char) (hrect : Rect (readLines input))
    (hrec : AllRecognised (readLines input)) :
    ∃ s, readLabirinth input = .ok s ∧ s.labirinth_ = readLines input ∧
      s.xSize = (readLines input).length ∧ s.ySize = ((readLines input).headD []).length ∧
      s.used_ = List.replicate (readLines input).length
        (List.replicate ((readLines input).headD []).length false) ∧
      s.parent_ = List.replicate (readLines input).length
        (List.replicate ((readLines input).headD []).length ⟨-1, -1⟩) ∧
      s.hasPath = false ∧ s.pathLength = -1 ∧ s.queue_ = [] ∧
      LastOf (readLines input) 'S' Point.default s.start_ ∧
      LastOf (readLines input) 'E' Point.default s.finish_ := by
  have hg := dims_of_rect hrect
  generalize hgen : readLines input = g at *
  have hpre : Scanned g g.length (g.headD []).length
      (if (g.length : Int) > 0 then
        { Labirinth.initial with labirinth_ := g, xSize := g.length, ySize := (g.headD []).length }
       else { Labirinth.initial with labirinth_ := g, xSize := g.length }) 0 0 := by
    have hno : ∀ c, LastAt g (g.headD []).length c Point.default Point.default 0 0 := by
      intro c
      refine Or.inl ⟨rfl, ?_⟩
      intro a b _ hb
      unfold Before at hb
      omega
    by_cases hpos : (g.length : Int) > 0
    · rw [if_pos hpos]
      exact ⟨rfl, rfl, rfl, rfl, rfl, rfl, rfl, rfl, hno _, hno _⟩
    · rw [if_neg hpos]
      have hnil : g = [] := by
        cases g with
        | nil => rfl
        | cons r t => simp at hpos
      subst hnil
      exact ⟨rfl, rfl, rfl, rfl, rfl, rfl, rfl, rfl, hno _, hno _⟩
  obtain ⟨s', hscan, hs'⟩ := scanGrid_spec hg hrec hpre
  refine ⟨{ s' with
      used_ := List.replicate s'.xSize.toNat (List.replicate s'.ySize.toNat false)
      parent_ := List.replicate s'.xSize.toNat (List.replicate s'.ySize.toNat ⟨-1, -1⟩) },
    ?_, hs'.lab, hs'.xs, hs'.ys, ?_, ?_, hs'.noPath, hs'.noLength, hs'.queue,
    hs'.start.last hg, hs'.finish.last hg⟩
  · unfold readLabirinth
    simp only [hgen]
    rw [hscan]
  · simp only [hs'.xs, hs'.ys, Int.toNat_ofNat]
  · simp only [hs'.xs, hs'.ys, Int.toNat_ofNat]

/-! ## Counting cells -/

theorem countCells_pos_of_cell {α : Type} [DecidableEq α] {mat : List (List α)} {p : Point}
    {a : α} (h : cellAt mat p = some a) : 0 < countCells a mat := by
  obtain ⟨_, _, row, hrow, hcol⟩ := cellAt_eq_some.mp h
  have hmem : row ∈ mat := List.mem_iff_getElem?.mpr ⟨_, hrow⟩
  have hin : a ∈ row := List.mem_iff_getElem?.mpr ⟨_, hcol⟩
  have h1 : 0 < row.count a := List.count_pos_iff.mpr hin
  have h2 : row.count a ≤ countCells a mat :=
    List.single_le_sum (fun _ _ => Nat.zero_le _) _
      (List.mem_map_of_mem (fun r : List α => r.count a) hmem)
  omega

theorem cell_ne_of_countCells_zero {α : Type} [DecidableEq α] {mat : List (List α)} {a : α}
    (h : countCells a mat = 0) (p : Point) : cellAt mat p ≠ some a := by
  intro hp
  have := countCells_pos_of_cell hp
  omega

theorem exists_cell_of_countCells_pos {α : Type} [DecidableEq α] {mat : List (List α)} {a : α}
    (h : 0 < countCells a mat) : ∃ p, cellAt mat p = some a := by
  by_contra hno
  have hzero : countCells a mat = 0 := by
    unfold countCells
    apply List.sum_eq_zero
    intro x hx
    obtain ⟨row, hrow, rfl⟩ := List.mem_map.mp hx
    by_contra hne
    have hin : a ∈ row := List.count_pos_iff.mp (Nat.pos_of_ne_zero hne)
    obtain ⟨i, hi⟩ := List.mem_iff_getElem?.mp hrow
    obtain ⟨j, hj⟩ := List.mem_iff_getElem?.mp hin
    exact hno ⟨⟨i, j⟩, cellAt_eq_some.mpr ⟨by simp, by simp, row, by simpa using hi,
      by simpa using hj⟩⟩
  omega

theorem cell_unique_of_countCells_one {mat : List (List Char)} {a : Char}
    (h : countCells a mat = 1) {p q : Point} (hp : cellAt mat p = some a)
    (hq : cellAt mat q = some a) : p = q := by
  by_contra hne
  obtain ⟨v, hv⟩ : ∃ v : Char, v ≠ a := by
    by_cases ha : a = 'a'
    · exact ⟨'b', by rw [ha]; decide⟩
    · exact ⟨'a', fun e => ha e.symm⟩
  obtain ⟨mat', hw, hcell, _⟩ := vecWrite_ok hp v
  have hcount := vecWrite_count hp v a hw
  simp only [if_true, if_neg hv] at hcount
  have hq' : cellAt mat' q = some a := by
    rw [hcell q, if_neg (fun e => hne e.symm)]
    exact hq
  have := countCells_pos_of_cell hq'
  omega

theorem map_length_of_dims {α : Type} {mat : List (List α)} {n m : Nat} (h : Dims mat n m) :
    mat.map List.length = List.replicate n m := by
  rw [List.eq_replicate_iff]
  refine ⟨by rw [List.length_map]; exact h.1, ?_⟩
  intro b hb
  obtain ⟨row, hrow, rfl⟩ := List.mem_map.mp hb
  exact h.2 row hrow

/-! ## Routes -/

theorem Route.zero_eq {g : List (List Char)} {a b : Point} (h : Route g a 0 b) : b = a := by
  cases h
  rfl

theorem Route.succ_inv {g : List (List Char)} {a b : Point} {k : Nat}
    (h : Route g a (k + 1) b) : ∃ p, Route g a k p ∧ Adj p b ∧ Open g b := by
  cases h with
  | step h1 h2 h3 => exact ⟨_, h1, h2, h3⟩

theorem RouteVia.asRoute {g : List (List Char)} {cs : List Char} {a b : Point} {k : Nat}
    (h : RouteVia g cs a k b) (hcs : '#' ∉ cs) : Route g a k b := by
  induction h with
  | here => exact Route.here
  | step _ hadj hc hmem ih =>
    exact Route.step ih hadj ⟨_, hc, fun e => hcs (e ▸ hmem)⟩

/-! ## The object after loading -/

theorem LastOf.bounds {g : List (List Char)} {n m : Nat} {c : Char} {pt : Point}
    (hg : Dims g n m) (hn : 0 < n) (hm : 0 < m) (h : LastOf g c Point.default pt) :
    0 ≤ pt.x ∧ pt.x < n ∧ 0 ≤ pt.y ∧ pt.y < m := by
  rcases h with ⟨h1, _⟩ | ⟨h1, _⟩
  · subst h1
    simp only [Point.default]
    omega
  · exact (cellAt_some_iff_of_dims hg pt).mp ⟨c, h1⟩

theorem LastOf.of_count {g : List (List Char)} {c : Char} {pt : Point}
    (h : LastOf g c Point.default pt) (hc : 0 < countCells c g) : cellAt g pt = some c := by
  rcases h with ⟨_, h2⟩ | ⟨h1, _⟩
  · obtain ⟨p, hp⟩ := exists_cell_of_countCells_pos hc
    exact absurd hp (h2 p)
  · exact h1

theorem LastOf.of_zero {g : List (List Char)} {c : Char} {pt : Point}
    (h : LastOf g c Point.default pt) (hc : countCells c g = 0) : pt = ⟨0, 0⟩ := by
  rcases h with ⟨h1, _⟩ | ⟨h1, _⟩
  · exact h1
  · exact absurd h1 (cell_ne_of_countCells_zero hc pt)

/-- On a rectangular grid of recognised characters with at least one row and one
column, `readLabirinth` returns an object on which the search can run, and
`findPath` returns with one of its two results. -/
theorem loadAndFind_spec (input : List Char) (hrect : Rect (readLines input))
    (hrec : AllRecognised (readLines input)) (hn : 0 < (readLines input).length)
    (hm : 0 < ((readLines input).headD []).length) (fuel : Nat)
    (hfuel : enoughFuel input ≤ fuel) :
    ∃ s s', readLabirinth input = .ok s ∧ loadAndFind fuel input = .done s' ∧
      LastOf (readLines input) 'S' Point.default s.start_ ∧
      LastOf (readLines input) 'E' Point.default s.finish_ ∧
      s.labirinth_ = readLines input ∧
      (NoPath (readLines input) s.start_ s.finish_ s' ∨
        ∃ l, PathFound (readLines input) (readLines input).length
          ((readLines input).headD []).length s.start_ s.finish_ s' l) := by
  obtain ⟨s, hread, hlab, hxs, hys, hused, hparent, hnp, hnl, hqueue, hS, hE⟩ :=
    readLabirinth_spec input hrect hrec
  have hg := dims_of_rect hrect
  have hfresh : Fresh (readLines input) (readLines input).length
      ((readLines input).headD []).length s :=
    { shape :=
        { xs := hxs
          ys := hys
          grid := hg
          chars := hrec
          usedDims := hused ▸ dims_replicate _ _ _
          parentDims := hparent ▸ dims_replicate _ _ _
          startIn := by
            have := hS.bounds hg hn hm
            unfold InRange
            rw [hxs, hys]
            exact this
          finishIn := by
            have := hE.bounds hg hn hm
            unfold InRange
            rw [hxs, hys]
            exact this }
      lab := hlab
      noPath := hnp
      noLength := hnl
      queue := hqueue
      used := hused
      parent := hparent }
  obtain ⟨s', hrun, hpost⟩ := findPath_spec hfresh fuel hfuel
  refine ⟨s, s', hread, ?_, hS, hE, hlab, hpost⟩
  unfold loadAndFind
  rw [hread]
  exact hrun

theorem pos_dims_of_cell {g : List (List Char)} {p : Point} {c : Char} (hrect : Rect g)
    (h : cellAt g p = some c) : 0 < g.length ∧ 0 < (g.headD []).length := by
  have := (cellAt_some_iff_of_dims (dims_of_rect hrect) p).mp ⟨c, h⟩
  omega

/-! ## Consequences for grids with one Start and one Finish -/

theorem Trail.chain {g : List (List Char)} {u : List (List Bool)} {par : List (List Point)}
    {st p : Point} {l : List Point} (h : Trail g u par st p l) :
    List.Chain' (fun a b => cellAt par a = some b ∧ Adj a b) (l ++ [st]) ∧
      (l ++ [st]).head? = some p := by
  induction h with
  | root _ _ => exact ⟨List.chain'_singleton _, rfl⟩
  | @step p q l _ hp hadj _ _ ih =>
    refine ⟨?_, rfl⟩
    rw [List.cons_append]
    refine List.Chain'.cons' ih.1 ?_
    intro y hy
    rw [ih.2] at hy
    cases hy
    exact ⟨hp, hadj.symm⟩

theorem Trail.tail_of_ne {g : List (List Char)} {u : List (List Bool)}
    {par : List (List Point)} {st p r : Point} {l : List Point} (h : Trail g u par st p l)
    (hr : r ∈ l) (hne : r ≠ p) : r ∈ l.tail := by
  cases h with
  | root _ _ => cases hr
  | step _ _ _ _ _ =>
    rcases List.mem_cons.mp hr with hr | hr
    · exact absurd hr hne
    · exact hr

theorem Trail.head_not_mem_tail {g : List (List Char)} {u : List (List Bool)}
    {par : List (List Point)} {st p : Point} {l : List Point} (h : Trail g u par st p l) :
    p ∉ l.tail := by
  have hnd := h.nodup
  cases h with
  | root _ _ => simp
  | step _ _ _ _ _ => exact (List.nodup_cons.mp hnd).1

/-- The cells that `colorPath` overwrites held `_` or `*`. -/
theorem PathFound.tail_char {g : List (List Char)} {n m : Nat} {st fin : Point}
    {s' : Labirinth} {l : List Point} (h : PathFound g n m st fin s' l)
    (hrec : AllRecognised g) (hS : countCells 'S' g = 1) (hE : countCells 'E' g = 1)
    (hst : cellAt g st = some 'S') (hfin : cellAt g fin = some 'E') {p : Point}
    (hp : p ∈ l.tail) : cellAt g p = some '_' ∨ cellAt g p = some '*' := by
  have hmem : p ∈ l := List.mem_of_mem_tail hp
  obtain ⟨⟨c, hc, hwall⟩, _⟩ := h.trail.mem p hmem
  have hne1 : p ≠ st := fun e => h.trail.start_not_mem (e ▸ hmem)
  have hne2 : p ≠ fin := fun e => h.trail.head_not_mem_tail (e ▸ hp)
  have hcS : c ≠ 'S' := fun e => hne1 (cell_unique_of_countCells_one hS (e ▸ hc) hst)
  have hcE : c ≠ 'E' := fun e => hne2 (cell_unique_of_countCells_one hE (e ▸ hc) hfin)
  rcases recognised_of_cell hrec hc with e | e | e | e | e
  · exact Or.inl (e ▸ hc)
  · exact absurd e hwall
  · exact absurd e hcS
  · exact absurd e hcE
  · exact Or.inr (e ▸ hc)

theorem PathFound.frame {g : List (List Char)} {n m : Nat} {st fin : Point}
    {s' : Labirinth} {l : List Point} (h : PathFound g n m st fin s' l)
    (hrec : AllRecognised g) (hS : countCells 'S' g = 1) (hE : countCells 'E' g = 1)
    (hst : cellAt g st = some 'S') (hfin : cellAt g fin = some 'E') (p : Point) :
    cellAt s'.labirinth_ p = cellAt g p ∨
      (cellAt g p = some '_' ∧ cellAt s'.labirinth_ p = some '*') := by
  by_cases hp : p ∈ l.tail
  · have hcell : cellAt s'.labirinth_ p = some '*' := by
      rw [h.cells p, if_pos hp]; rfl
    rcases h.tail_char hrec hS hE hst hfin hp with e | e
    · exact Or.inr ⟨e, hcell⟩
    · exact Or.inl (by rw [hcell, e])
  · exact Or.inl (by rw [h.cells p, if_neg hp])

theorem PathFound.parentPath {g : List (List Char)} {n m : Nat} {st fin : Point}
    {s' : Labirinth} {l : List Point} (h : PathFound g n m st fin s' l) (hg : Dims g n m)
    (hst : cellAt g st = some 'S') : IsParentPath s' (l ++ [st]) l.length := by
  have hcell : ∀ p, p ∈ l ++ [st] → ∃ c, cellAt g p = some c ∧ c ≠ '#' := by
    intro p hp
    rcases List.mem_append.mp hp with hp | hp
    · exact (h.trail.mem p hp).1
    · rw [List.mem_singleton.mp hp]
      exact ⟨'S', hst, by decide⟩
  refine ⟨by simp, ?_, ?_, ?_, ?_, ?_⟩
  · rw [h.finish]; exact h.trail.chain.2
  · rw [h.start]; exact List.getLast?_concat l
  · exact h.trail.chain.1
  · intro p hp
    obtain ⟨c, hc, hwall⟩ := hcell p hp
    refine ⟨?_, ?_⟩
    · have := (cellAt_some_iff_of_dims hg p).mp ⟨c, hc⟩
      unfold InRange
      rw [h.xs, h.ys]
      exact this
    · by_cases htail : p ∈ l.tail
      · exact ⟨pathChar, by rw [h.cells p, if_pos htail], by decide⟩
      · exact ⟨c, by rw [h.cells p, if_neg htail]; exact hc, hwall⟩
  · intro p hp hne1 hne2
    rw [h.start] at hne1
    rw [h.finish] at hne2
    rcases List.mem_append.mp hp with hp | hp
    · rw [h.cells p, if_pos (h.trail.tail_of_ne hp hne2)]
    · exact absurd (List.mem_singleton.mp hp) hne1

/-- The facts about the run on a grid with exactly one `S` and exactly one `E`. -/
theorem solved_spec (input : List Char) (hrect : Rect (readLines input))
    (hrec : AllRecognised (readLines input)) (hS : countCells 'S' (readLines input) = 1)
    (hE : countCells 'E' (readLines input) = 1) (fuel : Nat) (hfuel : enoughFuel input ≤ fuel) :
    ∃ st fin s', loadAndFind fuel input = .done s' ∧
      cellAt (readLines input) st = some 'S' ∧ cellAt (readLines input) fin = some 'E' ∧
      (NoPath (readLines input) st fin s' ∨
        ∃ l, PathFound (readLines input) (readLines input).length
          ((readLines input).headD []).length st fin s' l) := by
  have hpos : 0 < countCells 'S' (readLines input) := by omega
  obtain ⟨a, ha⟩ := exists_cell_of_countCells_pos hpos
  obtain ⟨hn, hm⟩ := pos_dims_of_cell hrect ha
  obtain ⟨s, s', _, hrun, hstart, hfinish, _, hpost⟩ :=
    loadAndFind_spec input hrect hrec hn hm fuel hfuel
  exact ⟨s.start_, s.finish_, s', hrun, hstart.of_count (by omega), hfinish.of_count (by omega),
    hpost⟩

/-! ## The claims -/

/-- C1: on a rectangular grid of recognised characters with exactly one `S` and
one `E`, if a route of `k` edges leads from the `S` cell to the `E` cell through
orthogonally adjacent non-wall cells inside the grid and no route is shorter, then
the constructor followed by `findPath` returns, `isPathExists()` is true and
`getPathLength()` is `k`. -/
theorem C1_shortest_route_length (input : List Char) (hrect : Rect (readLines input))
    (hrec : AllRecognised (readLines input)) (hS : countCells 'S' (readLines input) = 1)
    (hE : countCells 'E' (readLines input) = 1) (a b : Point)
    (ha : cellAt (readLines input) a = some 'S') (hb : cellAt (readLines input) b = some 'E')
    (k : Nat) (hroute : Route (readLines input) a k b)
    (hshortest : ∀ j : Nat, Route (readLines input) a j b → k ≤ j)
    (fuel : Nat) (hfuel : enoughFuel input ≤ fuel) :
    ∃ s', loadAndFind fuel input = .done s' ∧ isPathExists s' = true ∧
      getPathLength s' = (k : Int) := by
  obtain ⟨st, fin, s', hrun, hst, hfin, hpost⟩ := solved_spec input hrect hrec hS hE fuel hfuel
  have e1 : a = st := cell_unique_of_countCells_one hS ha hst
  have e2 : b = fin := cell_unique_of_countCells_one hE hb hfin
  subst e1; subst e2
  refine ⟨s', hrun, ?_⟩
  rcases hpost with hno | ⟨l, hfound⟩
  · exact absurd hroute (hno.unreachable k)
  · refine ⟨hfound.hasPath, ?_⟩
    have h1 := hfound.minimal k hroute
    have h2 := hshortest _ hfound.trail.route
    unfold getPathLength
    rw [hfound.len]
    exact_mod_cast le_antisymm h1 h2

theorem C1_shortest_route_length_witness :
    ∃ s', loadAndFind 17 scenarioA = .done s' ∧ isPathExists s' = true ∧
      getPathLength s' = ((2 : Nat) : Int) :=
  C1_shortest_route_length scenarioA (by decide) (by decide) (by decide) (by decide)
    ⟨0, 0⟩ ⟨0, 2⟩ (by decide) (by decide) 2
    (by
      have h0 : Route (readLines scenarioA) ⟨0, 0⟩ 0 ⟨0, 0⟩ := Route.here
      have h1 : Route (readLines scenarioA) ⟨0, 0⟩ 1 ⟨0, 1⟩ :=
        Route.step h0 (by decide) (by decide)
      exact Route.step h1 (by decide) (by decide))
    (by
      intro j hj
      match j, hj with
      | 0, hj => exact absurd hj.zero_eq (by decide)
      | 1, hj =>
        obtain ⟨p, h1, h2, _⟩ := hj.succ_inv
        rw [h1.zero_eq] at h2
        exact absurd h2 (by decide)
      | j + 2, _ => omega)
    17 (by decide)

/-- C2: on a rectangular grid of recognised characters with exactly one `S` and
one `E`, if no route leads from the `S` cell to the `E` cell, then the constructor
followed by `findPath` returns, `isPathExists()` is false and the rows of the grid
are the loaded rows. -/
theorem C2_unreachable_unchanged (input : List Char) (hrect : Rect (readLines input))
    (hrec : AllRecognised (readLines input)) (hS : countCells 'S' (readLines input) = 1)
    (hE : countCells 'E' (readLines input) = 1) (a b : Point)
    (ha : cellAt (readLines input) a = some 'S') (hb : cellAt (readLines input) b = some 'E')
    (hno : ∀ k : Nat, ¬ Route (readLines input) a k b)
    (fuel : Nat) (hfuel : enoughFuel input ≤ fuel) :
    ∃ s', loadAndFind fuel input = .done s' ∧ isPathExists s' = false ∧
      s'.labirinth_ = readLines input := by
  obtain ⟨st, fin, s', hrun, hst, hfin, hpost⟩ := solved_spec input hrect hrec hS hE fuel hfuel
  have e1 : a = st := cell_unique_of_countCells_one hS ha hst
  have e2 : b = fin := cell_unique_of_countCells_one hE hb hfin
  subst e1; subst e2
  refine ⟨s', hrun, ?_⟩
  rcases hpost with hnp | ⟨l, hfound⟩
  · exact ⟨hnp.hasPath, hnp.lab⟩
  · exact absurd hfound.trail.route (hno _)

theorem C2_unreachable_unchanged_witness :
    ∃ s', loadAndFind 17 scenarioB = .done s' ∧ isPathExists s' = false ∧
      s'.labirinth_ = readLines scenarioB :=
  C2_unreachable_unchanged scenarioB (by decide) (by decide) (by decide) (by decide)
    ⟨0, 0⟩ ⟨0, 2⟩ (by decide) (by decide)
    (by
      have hstay : ∀ (k : Nat) (p : Point), Route (readLines scenarioB) ⟨0, 0⟩ k p →
          p = ⟨0, 0⟩ := by
        intro k p h
        induction h with
        | here => rfl
        | @step k p q _ hadj hopen ih =>
          subst ih
          obtain ⟨i, hi, hq⟩ := (adj_iff _ _).mp hadj
          subst hq
          have : i = 0 ∨ i = 1 ∨ i = 2 ∨ i = 3 := by unfold DIRECTIONS at hi; omega
          rcases this with rfl | rfl | rfl | rfl <;> exact absurd hopen (by decide)
      intro k hk
      exact absurd (hstay k _ hk) (by decide))
    17 (by decide)

/-- C3: on a rectangular grid of recognised characters with exactly one `S` and
one `E` the constructor followed by `findPath` returns, and when it reports a path
of length `L`, the chain of `parent_` from the Finish cell reaches the Start cell in
exactly `L` steps, each step between orthogonally adjacent cells inside the
bounds, no cell of the chain is a wall, and the cells of the chain between the two
ends hold `*`; on a grid loaded without `*` every cell holding `*` is on the
chain. -/
theorem C3_parent_chain_is_path (input : List Char) (hrect : Rect (readLines input))
    (hrec : AllRecognised (readLines input)) (hS : countCells 'S' (readLines input) = 1)
    (hE : countCells 'E' (readLines input) = 1) (fuel : Nat) (hfuel : enoughFuel input ≤ fuel) :
    ∃ s', loadAndFind fuel input = .done s' ∧
      (isPathExists s' = true → ∃ (path : List Point) (len : Nat),
        getPathLength s' = (len : Int) ∧ IsParentPath s' path len ∧
        (countCells '*' (readLines input) = 0 →
          ∀ p, cellAt s'.labirinth_ p = some '*' → p ∈ path)) := by
  obtain ⟨st, fin, s', hrun, hst, hfin, hpost⟩ := solved_spec input hrect hrec hS hE fuel hfuel
  refine ⟨s', hrun, ?_⟩
  intro hfound
  rcases hpost with hnp | ⟨l, hpf⟩
  · have := hnp.hasPath
    unfold isPathExists at hfound
    rw [this] at hfound
    cases hfound
  · refine ⟨l ++ [st], l.length, hpf.len, hpf.parentPath (dims_of_rect hrect) hst, ?_⟩
    intro hnone p hp
    by_cases htail : p ∈ l.tail
    · exact List.mem_append_left _ (List.mem_of_mem_tail htail)
    · rw [hpf.cells p, if_neg htail] at hp
      exact absurd hp (cell_ne_of_countCells_zero hnone p)

theorem C3_parent_chain_is_path_witness :
    ∃ s', loadAndFind 47 scenarioC = .done s' ∧
      (isPathExists s' = true → ∃ (path : List Point) (len : Nat),
        getPathLength s' = (len : Int) ∧ IsParentPath s' path len ∧
        (countCells '*' (readLines scenarioC) = 0 →
          ∀ p, cellAt s'.labirinth_ p = some '*' → p ∈ path)) :=
  C3_parent_chain_is_path scenarioC (by decide) (by decide) (by decide) (by decide) 47
    (by decide)

/-- C4: on a rectangular grid of recognised characters with exactly one `S`,
exactly one `E` and no `*`, the constructor followed by `findPath` returns, and
when it reports a path of length `L` the grid holds exactly `L - 1` characters
`*`. -/
theorem C4_marker_count (input : List Char) (hrect : Rect (readLines input))
    (hrec : AllRecognised (readLines input)) (hS : countCells 'S' (readLines input) = 1)
    (hE : countCells 'E' (readLines input) = 1)
    (hnone : countCells '*' (readLines input) = 0)
    (fuel : Nat) (hfuel : enoughFuel input ≤ fuel) :
    ∃ s', loadAndFind fuel input = .done s' ∧
      (isPathExists s' = true →
        (countCells '*' s'.labirinth_ : Int) = getPathLength s' - 1) := by
  obtain ⟨st, fin, s', hrun, hst, hfin, hpost⟩ := solved_spec input hrect hrec hS hE fuel hfuel
  refine ⟨s', hrun, ?_⟩
  intro hfound
  rcases hpost with hnp | ⟨l, hpf⟩
  · have := hnp.hasPath
    unfold isPathExists at hfound
    rw [this] at hfound
    cases hfound
  · have hstars := hpf.stars (fun p _ => cell_ne_of_countCells_zero hnone p)
    have hpos : 0 < l.length := by
      cases l with
      | nil =>
        have := hpf.trail.nil_eq.1
        rw [this, hst] at hfin
        exact absurd hfin (by decide)
      | cons r t => simp
    have hstars' : countCells '*' s'.labirinth_ = countCells '*' (readLines input) +
        l.tail.length := hstars
    rw [hnone, List.length_tail] at hstars'
    unfold getPathLength
    rw [hpf.len, hstars']
    omega

theorem C4_marker_count_witness :
    ∃ s', loadAndFind 47 scenarioC = .done s' ∧
      (isPathExists s' = true →
        (countCells '*' s'.labirinth_ : Int) = getPathLength s' - 1) :=
  C4_marker_count scenarioC (by decide) (by decide) (by decide) (by decide) (by decide) 47
    (by decide)

/-- C5: on a rectangular grid of recognised characters with exactly one `S` and
one `E` the constructor followed by `findPath` returns a grid with the same number
of rows and the same row lengths, in which every cell holds what it held when
loaded or held `_` and now holds `*`; a cell that held another character than `_`
keeps it. -/
theorem C5_only_empty_cells_marked (input : List Char) (hrect : Rect (readLines input))
    (hrec : AllRecognised (readLines input)) (hS : countCells 'S' (readLines input) = 1)
    (hE : countCells 'E' (readLines input) = 1) (fuel : Nat) (hfuel : enoughFuel input ≤ fuel) :
    ∃ s', loadAndFind fuel input = .done s' ∧
      s'.labirinth_.map List.length = (readLines input).map List.length ∧
      (∀ p, cellAt s'.labirinth_ p = cellAt (readLines input) p ∨
        (cellAt (readLines input) p = some '_' ∧ cellAt s'.labirinth_ p = some '*')) ∧
      (∀ p c, cellAt (readLines input) p = some c → c ≠ '_' →
        cellAt s'.labirinth_ p = some c) := by
  obtain ⟨st, fin, s', hrun, hst, hfin, hpost⟩ := solved_spec input hrect hrec hS hE fuel hfuel
  have hframe : ∀ p, cellAt s'.labirinth_ p = cellAt (readLines input) p ∨
      (cellAt (readLines input) p = some '_' ∧ cellAt s'.labirinth_ p = some '*') := by
    intro p
    rcases hpost with hnp | ⟨l, hpf⟩
    · exact Or.inl (by rw [hnp.lab])
    · exact hpf.frame hrec hS hE hst hfin p
  refine ⟨s', hrun, ?_, hframe, ?_⟩
  · rcases hpost with hnp | ⟨l, hpf⟩
    · rw [hnp.lab]
    · rw [map_length_of_dims hpf.dims, map_length_of_dims (dims_of_rect hrect)]
  · intro p c hc hne
    rcases hframe p with h1 | ⟨h1, _⟩
    · rw [h1, hc]
    · rw [hc] at h1
      exact absurd (Option.some.inj h1) hne

theorem C5_only_empty_cells_marked_witness :
    ∃ s', loadAndFind 47 scenarioC = .done s' ∧
      s'.labirinth_.map List.length = (readLines scenarioC).map List.length ∧
      (∀ p, cellAt s'.labirinth_ p = cellAt (readLines scenarioC) p ∨
        (cellAt (readLines scenarioC) p = some '_' ∧ cellAt s'.labirinth_ p = some '*')) ∧
      (∀ p c, cellAt (readLines scenarioC) p = some c → c ≠ '_' →
        cellAt s'.labirinth_ p = some c) :=
  C5_only_empty_cells_marked scenarioC (by decide) (by decide) (by decide) (by decide) 47
    (by decide)

/-- C6, as the code has it: on a rectangular grid of recognised characters with
at least one row and one column and without `S` or without `E`, the constructor
followed by `findPath` returns; the missing `start_` or `finish_` is the default
`(0, 0)`, `isPathExists()` is true exactly when a route leads from `start_` to
`finish_`, and when it is false the grid is the loaded one. -/
theorem C6_missing_endpoint_defaults (input : List Char) (hrect : Rect (readLines input))
    (hrec : AllRecognised (readLines input)) (hn : 0 < (readLines input).length)
    (hm : 0 < ((readLines input).headD []).length)
    (hmissing : countCells 'S' (readLines input) = 0 ∨ countCells 'E' (readLines input) = 0)
    (fuel : Nat) (hfuel : enoughFuel input ≤ fuel) :
    ∃ s s', readLabirinth input = .ok s ∧ loadAndFind fuel input = .done s' ∧
      (s.start_ = ⟨0, 0⟩ ∨ s.finish_ = ⟨0, 0⟩) ∧
      (countCells 'S' (readLines input) = 0 → s.start_ = ⟨0, 0⟩) ∧
      (countCells 'E' (readLines input) = 0 → s.finish_ = ⟨0, 0⟩) ∧
      (isPathExists s' = true ↔ ∃ k : Nat, Route (readLines input) s.start_ k s.finish_) ∧
      (isPathExists s' = false → s'.labirinth_ = readLines input) := by
  obtain ⟨s, s', hread, hrun, hstart, hfinish, _, hpost⟩ :=
    loadAndFind_spec input hrect hrec hn hm fuel hfuel
  refine ⟨s, s', hread, hrun, ?_, hstart.of_zero, hfinish.of_zero, ?_, ?_⟩
  · rcases hmissing with h | h
    · exact Or.inl (hstart.of_zero h)
    · exact Or.inr (hfinish.of_zero h)
  · rcases hpost with hnp | ⟨l, hpf⟩
    · constructor
      · intro h
        unfold isPathExists at h
        rw [hnp.hasPath] at h
        cases h
      · rintro ⟨k, hk⟩
        exact absurd hk (hnp.unreachable k)
    · exact ⟨fun _ => ⟨_, hpf.trail.route⟩, fun _ => hpf.hasPath⟩
  · intro h
    rcases hpost with hnp | ⟨l, hpf⟩
    · exact hnp.lab
    · unfold isPathExists at h
      rw [hpf.hasPath] at h
      cases h

theorem C6_missing_endpoint_defaults_witness :
    ∃ s s', readLabirinth noStartInput = .ok s ∧ loadAndFind 17 noStartInput = .done s' ∧
      (s.start_ = ⟨0, 0⟩ ∨ s.finish_ = ⟨0, 0⟩) ∧
      (countCells 'S' (readLines noStartInput) = 0 → s.start_ = ⟨0, 0⟩) ∧
      (countCells 'E' (readLines noStartInput) = 0 → s.finish_ = ⟨0, 0⟩) ∧
      (isPathExists s' = true ↔
        ∃ k : Nat, Route (readLines noStartInput) s.start_ k s.finish_) ∧
      (isPathExists s' = false → s'.labirinth_ = readLines noStartInput) :=
  C6_missing_endpoint_defaults noStartInput (by decide) (by decide) (by decide) (by decide)
    (Or.inl (by decide)) 17 (by decide)

/-- C6 fails as stated: the grid with the single row `__E` is rectangular, of
recognised characters, not empty and without `S`, and on it `findPath` reports a
path of length 2 and colours the cell between `(0, 0)` and `E`. -/
theorem C6_counterexample :
    Rect (readLines noStartInput) ∧ AllRecognised (readLines noStartInput) ∧
      readLines noStartInput ≠ [] ∧ countCells 'S' (readLines noStartInput) = 0 ∧
      ∃ s', loadAndFind 17 noStartInput = .done s' ∧ isPathExists s' = true ∧
        getPathLength s' = 2 ∧ s'.labirinth_ = ["_*E".toList] :=
  ⟨by decide, by decide, by decide, by decide, _, rfl, by decide, by decide, by decide⟩

/-- C7 fails on the code: on the empty input the constructor leaves `used_` empty
and `start_` at `(0, 0)`, and the first iteration of `findPath` reads
`used_[0][0]` outside the vector. -/
theorem C7_empty_input_faults :
    (∃ s, readLabirinth [] = .ok s ∧ s.xSize = 0 ∧ s.ySize = 0 ∧ s.used_ = []) ∧
      ∀ fuel : Nat, loadAndFind (fuel + 1) [] = .fault .outOfRange :=
  ⟨⟨_, rfl, rfl, rfl, rfl⟩, fun _ => rfl⟩

/-- C8: on a rectangular grid of recognised characters with exactly one `S` and
one `E`, which may hold `*`, the constructor followed by `findPath` returns;
`start_` and `finish_` are the cells of `S` and `E`, the cells holding `S` and `E`
afterwards are the ones holding them before, every cell that held `*` still holds
`*`, and a route from `S` to `E` over cells holding `_` or `*` is found. -/
theorem C8_marked_cells_kept_and_traversable (input : List Char)
    (hrect : Rect (readLines input)) (hrec : AllRecognised (readLines input))
    (hS : countCells 'S' (readLines input) = 1) (hE : countCells 'E' (readLines input) = 1)
    (fuel : Nat) (hfuel : enoughFuel input ≤ fuel) :
    ∃ s', loadAndFind fuel input = .done s' ∧
      cellAt (readLines input) s'.start_ = some 'S' ∧
      cellAt (readLines input) s'.finish_ = some 'E' ∧
      (∀ p, cellAt s'.labirinth_ p = some 'S' ↔ cellAt (readLines input) p = some 'S') ∧
      (∀ p, cellAt s'.labirinth_ p = some 'E' ↔ cellAt (readLines input) p = some 'E') ∧
      (∀ p, cellAt (readLines input) p = some '*' → cellAt s'.labirinth_ p = some '*') ∧
      (∀ k : Nat, RouteVia (readLines input) ['_', '*', 'E'] s'.start_ k s'.finish_ →
        isPathExists s' = true) := by
  obtain ⟨st, fin, s', hrun, hst, hfin, hpost⟩ := solved_spec input hrect hrec hS hE fuel hfuel
  have hframe : ∀ p, cellAt s'.labirinth_ p = cellAt (readLines input) p ∨
      (cellAt (readLines input) p = some '_' ∧ cellAt s'.labirinth_ p = some '*') := by
    intro p
    rcases hpost with hnp | ⟨l, hpf⟩
    · exact Or.inl (by rw [hnp.lab])
    · exact hpf.frame hrec hS hE hst hfin p
  have hkeep : ∀ c : Char, c ≠ '_' → c ≠ '*' → ∀ p,
      (cellAt s'.labirinth_ p = some c ↔ cellAt (readLines input) p = some c) := by
    intro c h1 h2 p
    rcases hframe p with h | ⟨h3, h4⟩
    · rw [h]
    · rw [h3, h4]
      constructor
      · intro e; exact absurd (Option.some.inj e).symm h2
      · intro e; exact absurd (Option.some.inj e).symm h1
  have hstart : s'.start_ = st := by
    rcases hpost with hnp | ⟨l, hpf⟩
    · exact hnp.start
    · exact hpf.start
  have hfinish : s'.finish_ = fin := by
    rcases hpost with hnp | ⟨l, hpf⟩
    · exact hnp.finish
    · exact hpf.finish
  refine ⟨s', hrun, hstart ▸ hst, hfinish ▸ hfin, hkeep 'S' (by decide) (by decide),
    hkeep 'E' (by decide) (by decide), ?_, ?_⟩
  · intro p hp
    rcases hframe p with h | ⟨h3, _⟩
    · rw [h, hp]
    · rw [hp] at h3
      exact absurd (Option.some.inj h3) (by decide)
  · intro k hk
    rw [hstart, hfinish] at hk
    rcases hpost with hnp | ⟨l, hpf⟩
    · exact absurd (hk.asRoute (by decide)) (hnp.unreachable k)
    · exact hpf.hasPath

theorem C8_marked_cells_kept_and_traversable_witness :
    ∃ s', loadAndFind 22 markedInput = .done s' ∧
      cellAt (readLines markedInput) s'.start_ = some 'S' ∧
      cellAt (readLines markedInput) s'.finish_ = some 'E' ∧
      (∀ p, cellAt s'.labirinth_ p = some 'S' ↔ cellAt (readLines markedInput) p = some 'S') ∧
      (∀ p, cellAt s'.labirinth_ p = some 'E' ↔ cellAt (readLines markedInput) p = some 'E') ∧
      (∀ p, cellAt (readLines markedInput) p = some '*' → cellAt s'.labirinth_ p = some '*') ∧
      (∀ k : Nat, RouteVia (readLines markedInput) ['_', '*', 'E'] s'.start_ k s'.finish_ →
        isPathExists s' = true) :=
  C8_marked_cells_kept_and_traversable markedInput (by decide) (by decide) (by decide)
    (by decide) 22 (by decide)

/-! ## Printing and reading back -/

theorem foldlM_preserve {σ ε α : Type} (f : σ → α → Except ε σ) (R : σ → Prop)
    (hstep : ∀ s a s', R s → f s a = .ok s' → R s') :
    ∀ (l : List α) (s s' : σ), R s → l.foldlM f s = .ok s' → R s' := by
  intro l
  induction l with
  | nil =>
    intro s s' hR h
    simp only [List.foldlM_nil, pure, Except.pure, Except.ok.injEq] at h
    exact h ▸ hR
  | cons a t ih =>
    intro s s' hR h
    rw [List.foldlM_cons] at h
    cases hf : f s a with
    | error e =>
      rw [hf] at h
      simp only [bind, Except.bind] at h
      cases h
    | ok s1 =>
      rw [hf] at h
      simp only [bind, Except.bind] at h
      exact ih s1 s' (hstep s a s1 hR hf) h

theorem scanCell_keeps {s s' : Labirinth} {i j : Nat} (h : scanCell s i j = .ok s') :
    s'.labirinth_ = s.labirinth_ ∧ s'.xSize = s.xSize ∧ s'.ySize = s.ySize := by
  unfold scanCell at h
  split at h
  · cases h
  · split at h
    · cases h
    · split at h
      · simp only [Except.ok.injEq] at h
        subst h
        exact ⟨rfl, rfl, rfl⟩
      · split at h
        · simp only [Except.ok.injEq] at h
          subst h
          exact ⟨rfl, rfl, rfl⟩
        · simp only [Except.ok.injEq] at h
          subst h
          exact ⟨rfl, rfl, rfl⟩

theorem scanGrid_keeps {s s' : Labirinth} (h : scanGrid s = .ok s') :
    s'.labirinth_ = s.labirinth_ ∧ s'.xSize = s.xSize ∧ s'.ySize = s.ySize := by
  have hrow : ∀ (t : Labirinth) (i : Nat) (t' : Labirinth),
      (t.labirinth_ = s.labirinth_ ∧ t.xSize = s.xSize ∧ t.ySize = s.ySize) →
      scanRow t i = .ok t' →
      (t'.labirinth_ = s.labirinth_ ∧ t'.xSize = s.xSize ∧ t'.ySize = s.ySize) := by
    intro t i t' hR ht
    unfold scanRow at ht
    refine foldlM_preserve (fun s j => scanCell s i j)
      (fun t => t.labirinth_ = s.labirinth_ ∧ t.xSize = s.xSize ∧ t.ySize = s.ySize) ?_ _ t t'
      hR ht
    intro u j u' hu hcell
    obtain ⟨h1, h2, h3⟩ := scanCell_keeps hcell
    exact ⟨h1.trans hu.1, h2.trans hu.2.1, h3.trans hu.2.2⟩
  unfold scanGrid at h
  exact foldlM_preserve (fun s i => scanRow s i)
    (fun t => t.labirinth_ = s.labirinth_ ∧ t.xSize = s.xSize ∧ t.ySize = s.ySize) hrow _ s s'
    ⟨rfl, rfl, rfl⟩ h

theorem readLabirinth_keeps {input : List Char} {s : Labirinth}
    (h : readLabirinth input = .ok s) :
    s.labirinth_ = readLines input ∧ s.xSize = (readLines input).length := by
  unfold readLabirinth at h
  simp only at h
  split at h
  · cases h
  · rename_i s2 hscan
    obtain ⟨h1, h2, _⟩ := scanGrid_keeps hscan
    simp only [Except.ok.injEq] at h
    subst h
    refine ⟨?_, ?_⟩
    · simp only [h1]
      split <;> rfl
    · simp only [h2]
      split <;> rfl

theorem unlines_append (a b : List (List Char)) : unlines (a ++ b) = unlines a ++ unlines b := by
  induction a with
  | nil => rfl
  | cons r t ih =>
    rw [List.cons_append, unlines, unlines, ih]
    simp only [List.append_assoc, List.cons_append]

theorem printLabirinth_eq {s : Labirinth} (h : s.xSize = (s.labirinth_.length : Int)) :
    printLabirinth s = .ok (unlines s.labirinth_) := by
  unfold printLabirinth
  rw [h, Int.toNat_ofNat]
  obtain ⟨out, h1, h2⟩ := foldlM_range_inv
    (fun out i =>
      match s.labirinth_[i]? with
      | some row => (.ok (out ++ row ++ ['\n']) : Except Fault (List Char))
      | none => .error .outOfRange)
    (fun k out => out = unlines (s.labirinth_.take k)) s.labirinth_.length [] rfl
    (by
      intro k out hk hout
      refine ⟨out ++ s.labirinth_[k] ++ ['\n'], ?_, ?_⟩
      · simp only [List.getElem?_eq_getElem hk]
      · show out ++ s.labirinth_[k] ++ ['\n'] = unlines (s.labirinth_.take (k + 1))
        rw [List.take_succ, List.getElem?_eq_getElem hk, unlines_append, hout]
        simp [unlines])
  rw [h1, h2, List.take_length]

theorem readLinesAux_row (row rest acc : List Char) (hrow : '\n' ∉ row) :
    readLinesAux (row ++ '\n' :: rest) acc = (acc ++ row) :: readLinesAux rest [] := by
  induction row generalizing acc with
  | nil => simp [readLinesAux]
  | cons c t ih =>
    have hc : c ≠ '\n' := fun e => hrow (e ▸ List.mem_cons_self _ _)
    have ht : '\n' ∉ t := fun e => hrow (List.mem_cons_of_mem _ e)
    rw [List.cons_append, readLinesAux, if_neg hc, ih _ ht]
    simp

theorem readLines_unlines (rows : List (List Char)) (h : ∀ row ∈ rows, '\n' ∉ row) :
    readLines (unlines rows) = rows := by
  unfold readLines
  induction rows with
  | nil => rfl
  | cons r t ih =>
    rw [unlines, readLinesAux_row r _ [] (h r (List.mem_cons_self _ _)),
      ih (fun row hrow => h row (List.mem_cons_of_mem _ hrow))]
    rfl

theorem readLinesAux_no_newline (input : List Char) :
    ∀ acc : List Char, '\n' ∉ acc → ∀ row ∈ readLinesAux input acc, '\n' ∉ row := by
  induction input with
  | nil =>
    intro acc hacc row hrow
    unfold readLinesAux at hrow
    split at hrow
    · cases hrow
    · rw [List.mem_singleton.mp hrow]; exact hacc
  | cons c t ih =>
    intro acc hacc row hrow
    unfold readLinesAux at hrow
    split at hrow
    · rcases List.mem_cons.mp hrow with e | e
      · rw [e]; exact hacc
      · exact ih [] (by simp) row e
    · rename_i hc
      refine ih (acc ++ [c]) ?_ row hrow
      intro hmem
      rcases List.mem_append.mp hmem with e | e
      · exact hacc e
      · exact hc (List.mem_singleton.mp e).symm

/-- C9: when the constructor has loaded an input, `printLabirinth` writes a text
from which the constructor loads the same object again: the same rows, `xSize`,
`ySize`, `start_` and `finish_`. -/
theorem C9_load_print_load (input : List Char) (s : Labirinth)
    (hload : readLabirinth input = .ok s) :
    ∃ out, printLabirinth s = .ok out ∧ readLabirinth out = .ok s := by
  obtain ⟨hlab, hxs⟩ := readLabirinth_keeps hload
  refine ⟨unlines s.labirinth_, printLabirinth_eq (by rw [hxs, hlab]), ?_⟩
  have hlines : readLines (unlines s.labirinth_) = readLines input := by
    rw [hlab]
    exact readLines_unlines _ (readLinesAux_no_newline input [] (by simp))
  rw [← hload]
  unfold readLabirinth
  rw [hlines]

theorem C9_load_print_load_witness :
    ∃ out, printLabirinth roundTripObject = .ok out ∧ readLabirinth out = .ok roundTripObject :=
  C9_load_print_load roundTripInput roundTripObject rfl

/-- The value of `getPointType(char)` on every character: the entry of the table
for each of its five keys, and on every other character the dereference of
`end()`. -/
theorem getPointType_table (c : Char) :
    getPointType c =
      if c = '_' then .ok PointType.EMPTY
      else if c = '#' then .ok PointType.WALL
      else if c = 'S' then .ok PointType.START
      else if c = 'E' then .ok PointType.FINISH
      else if c = '*' then .ok PointType.PATH
      else .error Fault.endDeref := by
  by_cases h1 : c = '_'
  · subst h1; rfl
  by_cases h2 : c = '#'
  · subst h2; rfl
  by_cases h3 : c = 'S'
  · subst h3; rfl
  by_cases h4 : c = 'E'
  · subst h4; rfl
  by_cases h5 : c = '*'
  · subst h5; rfl
  rw [if_neg h1, if_neg h2, if_neg h3, if_neg h4, if_neg h5]
  have e1 : (c == '_') = false := by simpa using h1
  have e2 : (c == '#') = false := by simpa using h2
  have e3 : (c == 'S') = false := by simpa using h3
  have e4 : (c == 'E') = false := by simpa using h4
  have e5 : (c == '*') = false := by simpa using h5
  unfold getPointType symbol2PointType
  simp [List.lookup, e1, e2, e3, e4, e5]

/-- C10: `getPointType(char)` maps `_` to EMPTY, `#` to WALL, `S` to START, `E` to
FINISH and `*` to PATH.  On the character `?`, which is none of these five, it does
not fail with an unknown-symbol error: `find` returns `end()`, the code
dereferences it without a check and leaves defined behaviour.  The constructor
makes this lookup for every character of the grid, so on the input `S?E` neither
`readLabirinth` nor a run of `findPath` after it has a defined result. -/
theorem C10_unknown_char_undefined :
    getPointType '_' = .ok PointType.EMPTY ∧ getPointType '#' = .ok PointType.WALL ∧
    getPointType 'S' = .ok PointType.START ∧ getPointType 'E' = .ok PointType.FINISH ∧
    getPointType '*' = .ok PointType.PATH ∧
    getPointType '?' = .error Fault.endDeref ∧
    readLabirinth unknownCharInput = .error Fault.endDeref ∧
    ∀ fuel : Nat, loadAndFind fuel unknownCharInput = .fault Fault.endDeref := by
  have hread : readLabirinth unknownCharInput = .error Fault.endDeref := rfl
  refine ⟨rfl, rfl, rfl, rfl, rfl, rfl, hread, ?_⟩
  intro fuel
  unfold loadAndFind
  rw [hread]

/-! ## What the loops never change -/

theorem pushNeighbour_shape {s s' : Labirinth} {d : Int} {tmp : Point} {i : Nat}
    (h : pushNeighbour s d tmp i = .ok s') :
    ∃ new, s' = { s with queue_ := s.queue_ ++ new } ∧ new.length ≤ 1 ∧
      ∀ e ∈ new, e.1 = d + 1 ∧ e.2.2 = tmp := by
  unfold pushNeighbour at h
  simp only at h
  split at h
  · simp only [Except.ok.injEq] at h
    exact ⟨[], by rw [← h, List.append_nil], by simp, by simp⟩
  · split at h
    · cases h
    · split at h
      · simp only [Except.ok.injEq] at h
        exact ⟨[], by rw [← h, List.append_nil], by simp, by simp⟩
      · simp only [Except.ok.injEq] at h
        exact ⟨_, h.symm, by simp, by simp⟩

theorem pushNeighbours_shape {s s' : Labirinth} {d : Int} {tmp : Point}
    (h : pushNeighbours s d tmp = .ok s') :
    ∃ new, s' = { s with queue_ := s.queue_ ++ new } ∧ new.length ≤ 4 ∧
      ∀ e ∈ new, e.1 = d + 1 ∧ e.2.2 = tmp := by
  unfold pushNeighbours at h
  have hr : List.range DIRECTIONS = [0, 1, 2, 3] := by decide
  rw [hr] at h
  simp only [List.foldlM_cons, List.foldlM_nil, bind, Except.bind, pure, Except.pure] at h
  split at h
  · cases h
  · rename_i s1 h1
    split at h
    · cases h
    · rename_i s2 h2
      split at h
      · cases h
      · rename_i s3 h3
        split at h
        · cases h
        · rename_i s4 h4
          simp only [Except.ok.injEq] at h
          subst h
          obtain ⟨n1, e1, l1, p1⟩ := pushNeighbour_shape h1
          obtain ⟨n2, e2, l2, p2⟩ := pushNeighbour_shape h2
          obtain ⟨n3, e3, l3, p3⟩ := pushNeighbour_shape h3
          obtain ⟨n4, e4, l4, p4⟩ := pushNeighbour_shape h4
          refine ⟨n1 ++ n2 ++ n3 ++ n4, ?_, ?_, ?_⟩
          · rw [e4, e3, e2, e1]
            simp only [List.append_assoc]
          · simp only [List.length_append]
            omega
          · intro e he
            simp only [List.mem_append] at he
            rcases he with ((he | he) | he) | he
            · exact p1 e he
            · exact p2 e he
            · exact p3 e he
            · exact p4 e he

theorem loopBody_next_shape {s s' : Labirinth} {d : Int} {tmp par : Point}
    (h : loopBody s d tmp par = .next s') :
    ∃ u p new, s' = { s with used_ := u, parent_ := p, queue_ := s.queue_ ++ new } ∧
      new.length ≤ 4 ∧ ∀ e ∈ new, e.1 = d + 1 ∧ e.2.2 = tmp := by
  unfold loopBody at h
  split at h
  · cases h
  · simp only [Iter.next.injEq] at h
    exact ⟨s.used_, s.parent_, [], by rw [← h, List.append_nil], by simp, by simp⟩
  · split at h
    · cases h
    · split at h
      · cases h
      · simp only at h
        split at h
        · cases h
        · split at h
          · cases h
          · rename_i s1 hpush
            simp only [Iter.next.injEq] at h
            subst h
            obtain ⟨new, e1, l1, p1⟩ := pushNeighbours_shape hpush
            exact ⟨_, _, new, e1, l1, p1⟩

theorem loopBody_finish_shape {s s' : Labirinth} {d : Int} {tmp par : Point}
    (h : loopBody s d tmp par = .finish s') :
    ∃ u p, s' = { s with used_ := u, parent_ := p, hasPath := true, pathLength := d } := by
  unfold loopBody at h
  split at h
  · cases h
  · cases h
  · split at h
    · cases h
    · split at h
      · cases h
      · simp only at h
        split at h
        · simp only [Iter.finish.injEq] at h
          exact ⟨_, _, h.symm⟩
        · split at h
          · cases h
          · cases h

theorem colorLoop_shape : ∀ (fuel : Nat) (s s' : Labirinth) (p : Point),
    colorLoop fuel s p = .done s' → ∃ g', s' = { s with labirinth_ := g' } := by
  intro fuel
  induction fuel with
  | zero => intro s s' p h; cases h
  | succ fuel ih =>
    intro s s' p h
    unfold colorLoop at h
    split at h
    · cases h
    · split at h
      · split at h
        · cases h
        · obtain ⟨g', hg'⟩ := ih _ _ _ h
          exact ⟨g', hg'⟩
      · simp only [Outcome.done.injEq] at h
        exact ⟨s.labirinth_, h.symm⟩

theorem colorPath_shape {fuel : Nat} {s s' : Labirinth} (h : colorPath fuel s = .done s') :
    ∃ g', s' = { s with labirinth_ := g' } := by
  unfold colorPath at h
  split at h
  · simp only [Outcome.done.injEq] at h
    exact ⟨s.labirinth_, h.symm⟩
  · split at h
    · cases h
    · exact colorLoop_shape _ _ _ _ h

theorem scanCell_shape {s s' : Labirinth} {i j : Nat} (h : scanCell s i j = .ok s') :
    s' = { s with start_ := s'.start_, finish_ := s'.finish_ } := by
  unfold scanCell at h
  split at h
  · cases h
  · split at h
    · cases h
    · split at h
      · simp only [Except.ok.injEq] at h
        subst h
        rfl
      · split at h
        · simp only [Except.ok.injEq] at h
          subst h
          rfl
        · simp only [Except.ok.injEq] at h
          subst h
          rfl

theorem scanGrid_shape {s s' : Labirinth} (h : scanGrid s = .ok s') :
    s' = { s with start_ := s'.start_, finish_ := s'.finish_ } := by
  have hrow : ∀ (t : Labirinth) (i : Nat) (t' : Labirinth),
      t = { s with start_ := t.start_, finish_ := t.finish_ } → scanRow t i = .ok t' →
      t' = { s with start_ := t'.start_, finish_ := t'.finish_ } := by
    intro t i t' hR ht
    unfold scanRow at ht
    refine foldlM_preserve (fun s j => scanCell s i j)
      (fun t => t = { s with start_ := t.start_, finish_ := t.finish_ }) ?_ _ t t' hR ht
    intro u j u' hu hcell
    have h1 := scanCell_shape hcell
    rw [h1, hu]
  unfold scanGrid at h
  exact foldlM_preserve (fun s i => scanRow s i)
    (fun t => t = { s with start_ := t.start_, finish_ := t.finish_ }) hrow _ s s' rfl h

/-- The members of the object that `readLabirinth` returns, whatever the input. -/
theorem readLabirinth_shape {input : List Char} {s : Labirinth}
    (h : readLabirinth input = .ok s) :
    s.labirinth_ = readLines input ∧ s.xSize = (readLines input).length ∧
      s.ySize = ((readLines input).headD []).length ∧ s.hasPath = false ∧
      s.pathLength = -1 ∧ s.queue_ = [] ∧
      s.used_ = List.replicate (readLines input).length
        (List.replicate ((readLines input).headD []).length false) ∧
      s.parent_ = List.replicate (readLines input).length
        (List.replicate ((readLines input).headD []).length ⟨-1, -1⟩) := by
  unfold readLabirinth at h
  simp only at h
  split at h
  · cases h
  · rename_i s2 hscan
    have h2 := scanGrid_shape hscan
    simp only [Except.ok.injEq] at h
    subst h
    rw [h2]
    simp only
    cases hlines : readLines input with
    | nil => simp [Labirinth.initial]
    | cons r t =>
      have hpos : ((t.length : Int) + 1 > 0) := by omega
      simp [Labirinth.initial, hpos]

theorem findPathLoop_flags : ∀ (fuel : Nat) (s s' : Labirinth), s.hasPath = false →
    s.pathLength = -1 → (∀ e ∈ s.queue_, 0 ≤ e.1) → findPathLoop fuel s = .done s' →
    (s'.hasPath = false ∧ s'.pathLength = -1) ∨ (s'.hasPath = true ∧ 0 ≤ s'.pathLength) := by
  intro fuel
  induction fuel with
  | zero => intro s s' _ _ _ h; cases h
  | succ fuel ih =>
    intro s s' h1 h2 h3 h
    unfold findPathLoop at h
    split at h
    · simp only [Outcome.done.injEq] at h
      subst h
      exact Or.inl ⟨h1, h2⟩
    · rename_i d tmp par rest hq
      have hd : 0 ≤ d := h3 (d, tmp, par) (by rw [hq]; exact List.mem_cons_self _ _)
      split at h
      · cases h
      · rename_i s1 hbody
        obtain ⟨u, p, new, e1, _, p1⟩ := loopBody_next_shape hbody
        refine ih s1 s' (by rw [e1]; exact h1) (by rw [e1]; exact h2) ?_ h
        intro e he
        rw [e1] at he
        rcases List.mem_append.mp he with he | he
        · exact h3 e (by rw [hq]; exact List.mem_cons_of_mem _ he)
        · have := (p1 e he).1
          omega
      · rename_i s1 hbody
        obtain ⟨u, p, e1⟩ := loopBody_finish_shape hbody
        obtain ⟨g', e2⟩ := colorPath_shape h
        refine Or.inr ?_
        rw [e2, e1]
        exact ⟨rfl, hd⟩

/-- C11: whenever the constructor followed by `findPath` returns without fault,
`getPathLength()` is the unset value `-1` exactly when `isPathExists()` is false,
and it is not negative when `isPathExists()` is true; so the length is `-1` when
the queue has run empty without reaching the Finish cell. -/
theorem C11_length_unset_iff_no_path (fuel : Nat) (input : List Char) (s' : Labirinth)
    (hrun : loadAndFind fuel input = .done s') :
    (getPathLength s' = -1 ↔ isPathExists s' = false) ∧
      (isPathExists s' = true → 0 ≤ getPathLength s') := by
  unfold loadAndFind at hrun
  split at hrun
  · cases hrun
  · rename_i s hread
    obtain ⟨_, _, _, h1, h2, h3, _⟩ := readLabirinth_shape hread
    unfold findPath at hrun
    have hq : ∀ e ∈ s.queue_ ++ [(0, s.start_, s.start_)], (0 : Int) ≤ e.1 := by
      intro e he
      rw [h3] at he
      simp only [List.nil_append, List.mem_singleton] at he
      rw [he]
    have := findPathLoop_flags fuel
      { s with queue_ := s.queue_ ++ [(0, s.start_, s.start_)] } s' h1 h2 hq hrun
    unfold getPathLength isPathExists
    rcases this with ⟨h4, h5⟩ | ⟨h4, h5⟩
    · rw [h4, h5]
      simp
    · rw [h4]
      refine ⟨⟨fun e => ?_, fun e => by cases e⟩, fun _ => h5⟩
      omega

theorem C11_length_unset_iff_no_path_witness :
    ∃ s', loadAndFind 17 scenarioB = .done s' ∧
      (getPathLength s' = -1 ↔ isPathExists s' = false) ∧
      (isPathExists s' = true → 0 ≤ getPathLength s') :=
  ⟨_, rfl, C11_length_unset_iff_no_path 17 scenarioB _ rfl⟩

/-- C12: on a rectangular grid of recognised characters that holds several `S`,
`readLabirinth` leaves in `start_` a cell that holds `S` and that no other cell
holding `S` follows in the row-major order of the scan; the same holds of `E` and
`finish_`. -/
theorem C12_last_occurrence_wins (input : List Char) (hrect : Rect (readLines input))
    (hrec : AllRecognised (readLines input)) :
    ∃ s, readLabirinth input = .ok s ∧
      (1 < countCells 'S' (readLines input) →
        cellAt (readLines input) s.start_ = some 'S' ∧
        ∀ p, cellAt (readLines input) p = some 'S' →
          p.x < s.start_.x ∨ (p.x = s.start_.x ∧ p.y ≤ s.start_.y)) ∧
      (1 < countCells 'E' (readLines input) →
        cellAt (readLines input) s.finish_ = some 'E' ∧
        ∀ p, cellAt (readLines input) p = some 'E' →
          p.x < s.finish_.x ∨ (p.x = s.finish_.x ∧ p.y ≤ s.finish_.y)) := by
  obtain ⟨s, hread, _, _, _, _, _, _, _, _, hS, hE⟩ := readLabirinth_spec input hrect hrec
  refine ⟨s, hread, ?_, ?_⟩
  · intro hcount
    rcases hS with ⟨_, h2⟩ | h
    · obtain ⟨p, hp⟩ := exists_cell_of_countCells_pos (show 0 < countCells 'S' (readLines input) by omega)
      exact absurd hp (h2 p)
    · exact h
  · intro hcount
    rcases hE with ⟨_, h2⟩ | h
    · obtain ⟨p, hp⟩ := exists_cell_of_countCells_pos (show 0 < countCells 'E' (readLines input) by omega)
      exact absurd hp (h2 p)
    · exact h

theorem C12_last_occurrence_wins_witness :
    ∃ s, readLabirinth manyEndsInput = .ok s ∧
      (1 < countCells 'S' (readLines manyEndsInput) →
        cellAt (readLines manyEndsInput) s.start_ = some 'S' ∧
        ∀ p, cellAt (readLines manyEndsInput) p = some 'S' →
          p.x < s.start_.x ∨ (p.x = s.start_.x ∧ p.y ≤ s.start_.y)) ∧
      (1 < countCells 'E' (readLines manyEndsInput) →
        cellAt (readLines manyEndsInput) s.finish_ = some 'E' ∧
        ∀ p, cellAt (readLines manyEndsInput) p = some 'E' →
          p.x < s.finish_.x ∨ (p.x = s.finish_.x ∧ p.y ≤ s.finish_.y)) :=
  C12_last_occurrence_wins manyEndsInput (by decide) (by decide)

/-- C13: on the object that the constructor has loaded, `isOutOfRange` is false
exactly for the points `(row, col)` with `0 ≤ row < xSize` and `0 ≤ col < ySize`,
where `xSize` is the number of loaded lines and `ySize` the length of the first
line (zero when there is none). -/
theorem C13_isOutOfRange_iff (input : List Char) (s : Labirinth)
    (hload : readLabirinth input = .ok s) (p : Point) :
    s.xSize = (readLines input).length ∧ s.ySize = ((readLines input).headD []).length ∧
      (isOutOfRange s p = false ↔
        0 ≤ p.x ∧ p.x < (readLines input).length ∧ 0 ≤ p.y ∧
          p.y < ((readLines input).headD []).length) := by
  obtain ⟨_, hxs, hys, _⟩ := readLabirinth_shape hload
  refine ⟨hxs, hys, ?_⟩
  rw [isOutOfRange_eq_false, InRange, hxs, hys]

theorem C13_isOutOfRange_iff_witness :
    roundTripObject.xSize = (readLines roundTripInput).length ∧
      roundTripObject.ySize = ((readLines roundTripInput).headD []).length ∧
      (isOutOfRange roundTripObject ⟨1, 2⟩ = false ↔
        0 ≤ (⟨1, 2⟩ : Point).x ∧ (⟨1, 2⟩ : Point).x < (readLines roundTripInput).length ∧
          0 ≤ (⟨1, 2⟩ : Point).y ∧
          (⟨1, 2⟩ : Point).y < ((readLines roundTripInput).headD []).length) :=
  C13_isOutOfRange_iff roundTripInput roundTripObject rfl ⟨1, 2⟩

/-! ## The states that the search passes through -/

theorem inv_first {g : List (List Char)} {n m : Nat} {s : Labirinth} (h : Fresh g n m s) :
    Inv g n m { s with queue_ := s.queue_ ++ [(0, s.start_, s.start_)] } := by
  have hfree : ∀ p, ¬ Used s.used_ p := by
    intro p hp
    unfold Used at hp
    rw [h.used] at hp
    have := cellAt_replicate false n m p true hp
    cases this
  exact
    { shape := h.shape.withQueue _
      lab := h.lab
      noPath := h.noPath
      noLength := h.noLength
      qTrail := fun e he => by
        rw [h.queue] at he
        simp only [List.nil_append, List.mem_singleton] at he
        subst he
        exact Or.inl ⟨rfl, rfl, rfl⟩
      sorted := by
        rw [h.queue]
        exact List.pairwise_singleton _ _
      span := fun a ha b hb => by
        rw [h.queue] at ha hb
        simp only [List.nil_append, List.mem_singleton] at ha hb
        subst ha; subst hb
        simp
      nbrs := fun p hp => absurd hp (hfree p)
      startSeen := Or.inr ⟨(0, s.start_, s.start_), by rw [h.queue]; simp, rfl, le_refl _⟩
      usedTrail := fun p hp => absurd hp (hfree p)
      finishFree := hfree _
      bound := fun e he => by
        rw [h.queue] at he
        simp only [List.nil_append, List.mem_singleton] at he
        subst he
        have := countCells_le false h.shape.usedDims
        simp only [zero_add]
        exact_mod_cast this }

/-- The value of the loop body on a cell that is not marked yet. -/
theorem loopBody_eval {g : List (List Char)} {n m : Nat} {s : Labirinth} (h : Inv g n m s)
    {d : Int} {tmp par : Point} {rest : List (Int × Point × Point)}
    (hq : s.queue_ = (d, tmp, par) :: rest) (hfree : ¬ Used s.used_ tmp) :
    ∃ u' par', (∀ q, cellAt u' q = if q = tmp then some true else cellAt s.used_ q) ∧
      (∀ q, cellAt par' q = if q = tmp then some par else cellAt s.parent_ q) ∧
      loopBody { s with queue_ := rest } d tmp par =
        if tmp = s.finish_ then
          .finish { s with queue_ := rest, used_ := u', parent_ := par', hasPath := true, pathLength := d }
        else .next { s with queue_ := rest ++ newEntries g d tmp, used_ := u', parent_ := par' } := by
  have hhead : (d, tmp, par) ∈ s.queue_ := by rw [hq]; exact List.mem_cons_self _ _
  have hin : InRange s tmp := h.entry_inRange hhead
  obtain ⟨b, hb⟩ := (h.shape.inRange_used tmp).mp hin
  have hbf : b = false := by
    cases b with
    | false => rfl
    | true => exact absurd hb hfree
  subst hbf
  obtain ⟨u', hwu, hcu, hdu⟩ := vecWrite_ok hb true
  obtain ⟨pb, hpb⟩ := (h.shape.inRange_parent tmp).mp hin
  obtain ⟨par', hwp, hcp, hdp⟩ := vecWrite_ok hpb par
  refine ⟨u', par', hcu, hcp, ?_⟩
  by_cases hfin : tmp = s.finish_
  · rw [if_pos hfin]
    unfold loopBody
    simp only [vecRead_ok hb, hwu, hwp]
    rw [if_pos ((Point.eq_iff _ _).mpr hfin)]
  · rw [if_neg hfin]
    have hshape1 : Shape g n m { s with queue_ := rest, used_ := u', parent_ := par' } :=
      ⟨h.shape.xs, h.shape.ys, h.shape.grid, h.shape.chars, hdu _ _ h.shape.usedDims,
        hdp _ _ h.shape.parentDims, h.shape.startIn, h.shape.finishIn⟩
    have hpush := pushNeighbours_eq hshape1 h.lab d tmp
    unfold loopBody
    simp only [vecRead_ok hb, hwu, hwp]
    rw [if_neg (fun e => hfin ((Point.eq_iff _ _).mp e)), hpush]

/-- What a pass that returns to the loop test does to the object. -/
theorem loopNext_effect {g : List (List Char)} {n m : Nat} {s s' : Labirinth}
    (h : Inv g n m s) (hstep : LoopNext s s') :
    Inv g n m s' ∧ measure s' < measure s ∧ s'.start_ = s.start_ ∧ s'.finish_ = s.finish_ ∧
    ∃ (d : Int) (tmp par : Point) (rest : List (Int × Point × Point)),
      s.queue_ = (d, tmp, par) :: rest ∧
      ((Used s.used_ tmp ∧ s' = { s with queue_ := rest }) ∨
        (¬ Used s.used_ tmp ∧ tmp ≠ s.finish_ ∧
          (∀ q, cellAt s'.used_ q = if q = tmp then some true else cellAt s.used_ q) ∧
          (∀ q, cellAt s'.parent_ q = if q = tmp then some par else cellAt s.parent_ q) ∧
          s'.queue_ = rest ++ newEntries g d tmp)) := by
  obtain ⟨d, tmp, par, rest, hq, hbody⟩ := hstep
  by_cases hu : Used s.used_ tmp
  · obtain ⟨hb, hinv, hlt⟩ := loopBody_used h hq hu
    rw [hb] at hbody
    simp only [Iter.next.injEq] at hbody
    subst hbody
    exact ⟨hinv, hlt, rfl, rfl, d, tmp, par, rest, hq, Or.inl ⟨hu, rfl⟩⟩
  · obtain ⟨s1, hst, hfi, hcases⟩ := loopBody_fresh h hq hu
    obtain ⟨u', par', hcu, hcp, heval⟩ := loopBody_eval h hq hu
    rcases hcases with ⟨hb, hinv, hlt⟩ | ⟨l, hb, _⟩
    · rw [hb] at hbody
      simp only [Iter.next.injEq] at hbody
      subst hbody
      refine ⟨hinv, hlt, hst, hfi, d, tmp, par, rest, hq, Or.inr ⟨hu, ?_⟩⟩
      by_cases hfin : tmp = s.finish_
      · rw [if_pos hfin, hb] at heval
        cases heval
      · rw [if_neg hfin, hb] at heval
        simp only [Iter.next.injEq] at heval
        subst heval
        exact ⟨hfin, hcu, hcp, rfl⟩
    · rw [hb] at hbody
      cases hbody

/-- What the pass that reaches the Finish cell does to the object. -/
theorem loopFinish_effect {g : List (List Char)} {n m : Nat} {s s' : Labirinth}
    (h : Inv g n m s) (hstep : LoopFinish s s') :
    (∃ l, Found g n m s' l) ∧ s'.start_ = s.start_ ∧ s'.finish_ = s.finish_ ∧
    s'.xSize = s.xSize ∧ s'.ySize = s.ySize ∧
    ∃ (d : Int) (tmp par : Point) (rest : List (Int × Point × Point)),
      s.queue_ = (d, tmp, par) :: rest ∧ ¬ Used s.used_ tmp ∧ tmp = s.finish_ ∧
        (∀ q, cellAt s'.used_ q = if q = tmp then some true else cellAt s.used_ q) ∧
        (∀ q, cellAt s'.parent_ q = if q = tmp then some par else cellAt s.parent_ q) := by
  obtain ⟨d, tmp, par, rest, hq, hbody⟩ := hstep
  by_cases hu : Used s.used_ tmp
  · obtain ⟨hb, _, _⟩ := loopBody_used h hq hu
    rw [hb] at hbody
    cases hbody
  · obtain ⟨s1, hst, hfi, hcases⟩ := loopBody_fresh h hq hu
    obtain ⟨u', par', hcu, hcp, heval⟩ := loopBody_eval h hq hu
    rcases hcases with ⟨hb, _, _⟩ | ⟨l, hb, hfound⟩
    · rw [hb] at hbody
      cases hbody
    · rw [hb] at hbody
      simp only [Iter.finish.injEq] at hbody
      subst hbody
      by_cases hfin : tmp = s.finish_
      · rw [if_pos hfin, hb] at heval
        simp only [Iter.finish.injEq] at heval
        subst heval
        exact ⟨⟨l, hfound⟩, rfl, rfl, rfl, rfl, d, tmp, par, rest, hq, hu, hfin, hcu, hcp⟩
      · rw [if_neg hfin, hb] at heval
        cases heval

/-- Every object at the loop test satisfies the invariant, and the measure has
gone down by at least one in every pass. -/
theorem AtLoop.inv {g : List (List Char)} {n m : Nat} {s0 : Labirinth} (h0 : Fresh g n m s0)
    {k : Nat} {s : Labirinth} (h : AtLoop s0 k s) :
    Inv g n m s ∧ s.start_ = s0.start_ ∧ s.finish_ = s0.finish_ ∧
      k + measure s ≤ 1 + 4 * (n * m) := by
  induction h with
  | first =>
    refine ⟨inv_first h0, rfl, rfl, ?_⟩
    have := countCells_le false h0.shape.usedDims
    unfold measure
    simp only [h0.queue, List.nil_append, List.length_singleton]
    omega
  | next _ hstep ih =>
    obtain ⟨hinv, h1, h2, h3⟩ := ih
    obtain ⟨hinv', hlt, hst, hfi, _⟩ := loopNext_effect hinv hstep
    exact ⟨hinv', hst.trans h1, hfi.trans h2, by omega⟩

/-- The object that `readLabirinth` returns on a rectangular grid of recognised
characters with at least one row and one column is ready for the search. -/
theorem fresh_of_load {input : List Char} {s0 : Labirinth} (hrect : Rect (readLines input))
    (hrec : AllRecognised (readLines input)) (hn : 0 < (readLines input).length)
    (hm : 0 < ((readLines input).headD []).length) (hload : readLabirinth input = .ok s0) :
    Fresh (readLines input) (readLines input).length ((readLines input).headD []).length s0 := by
  obtain ⟨s, hread, hlab, hxs, hys, hused, hparent, hnp, hnl, hqueue, hS, hE⟩ :=
    readLabirinth_spec input hrect hrec
  rw [hload] at hread
  simp only [Except.ok.injEq] at hread
  subst hread
  have hg := dims_of_rect hrect
  exact
    { shape :=
        { xs := hxs
          ys := hys
          grid := hg
          chars := hrec
          usedDims := hused ▸ dims_replicate _ _ _
          parentDims := hparent ▸ dims_replicate _ _ _
          startIn := by
            have := hS.bounds hg hn hm
            unfold InRange
            rw [hxs, hys]
            exact this
          finishIn := by
            have := hE.bounds hg hn hm
            unfold InRange
            rw [hxs, hys]
            exact this }
      lab := hlab
      noPath := hnp
      noLength := hnl
      queue := hqueue
      used := hused
      parent := hparent }

theorem Inv.head_parent {g : List (List Char)} {n m : Nat} {s : Labirinth} (h : Inv g n m s)
    {d : Int} {tmp par : Point} {rest : List (Int × Point × Point)}
    (hq : s.queue_ = (d, tmp, par) :: rest) (hfree : ¬ Used s.used_ tmp) :
    (tmp = s.start_ ∧ par = s.start_) ∨
      (tmp ≠ s.start_ ∧ Adj par tmp ∧ Used s.used_ par) := by
  have hhead : (d, tmp, par) ∈ s.queue_ := by rw [hq]; exact List.mem_cons_self _ _
  rcases h.qTrail _ hhead with ⟨_, h2, h3⟩ | ⟨l, h1, h2, h3, _⟩
  · exact Or.inl ⟨h2, h3⟩
  · refine Or.inr ⟨?_, h3, h2.used⟩
    simp only at h1
    rcases h.startSeen with hs | ⟨e, he, _, hle⟩
    · exact fun e => hfree (e ▸ hs)
    · exfalso
      have hsorted := h.sorted
      rw [hq] at hsorted he
      rcases List.mem_cons.mp he with he | he
      · rw [he] at hle
        simp only at hle
        omega
      · have := (List.pairwise_cons.mp hsorted).1 e he
        simp only at this
        omega

/-- The effect of marking the cell `tmp` with the parent `par` on the marks and
parent entries. -/
theorem settled_step {s s' : Labirinth} {tmp par : Point} (hs : ParentsSettled s)
    (hst : s'.start_ = s.start_) (hxs : s'.xSize = s.xSize) (hys : s'.ySize = s.ySize)
    (hfree : ¬ Used s.used_ tmp)
    (hcu : ∀ q, cellAt s'.used_ q = if q = tmp then some true else cellAt s.used_ q)
    (hcp : ∀ q, cellAt s'.parent_ q = if q = tmp then some par else cellAt s.parent_ q)
    (hpar : (tmp = s.start_ ∧ par = s.start_) ∨
      (tmp ≠ s.start_ ∧ Adj par tmp ∧ Used s.used_ par)) :
    MarksOnce s s' ∧ ParentsSettled s' := by
  have hused' : ∀ q, Used s'.used_ q ↔ q = tmp ∨ Used s.used_ q := by
    intro q
    unfold Used
    rw [hcu q]
    by_cases hqt : q = tmp
    · simp [hqt]
    · simp [hqt]
  obtain ⟨h1, h2, h3⟩ := hs
  refine ⟨⟨?_, ?_, ?_⟩, ?_, ?_, ?_⟩
  · exact fun p hp => (hused' p).mpr (Or.inr hp)
  · intro p hp
    by_cases hpt : p = tmp
    · subst hpt
      exact ⟨hfree, (hused' _).mpr (Or.inl rfl)⟩
    · rw [hcp p, if_neg hpt] at hp
      exact absurd rfl hp
  · intro p hp hp' hne
    have hpt : p = tmp := by
      rcases (hused' p).mp hp' with e | e
      · exact e
      · exact absurd e hp
    subst hpt
    rcases hpar with ⟨e, _⟩ | ⟨_, hadj, hu⟩
    · exact absurd e hne
    · exact ⟨par, by rw [hcp, if_pos rfl], hadj, hu⟩
  · intro p hin hp
    have hpt : p ≠ tmp := fun e => hp ((hused' p).mpr (Or.inl e))
    have hold : ¬ Used s.used_ p := fun e => hp ((hused' p).mpr (Or.inr e))
    rw [hcp p, if_neg hpt]
    refine h1 p ?_ hold
    unfold InRange at hin ⊢
    rw [hxs, hys] at hin
    exact hin
  · intro hu
    rw [hst]
    by_cases hpt : s.start_ = tmp
    · rw [hcp, if_pos hpt]
      rcases hpar with ⟨_, e⟩ | ⟨e, _⟩
      · rw [e]
      · exact absurd hpt.symm e
    · rw [hcp, if_neg hpt]
      rw [hst] at hu
      rcases (hused' _).mp hu with e | e
      · exact absurd e hpt
      · exact h2 e
  · intro p hp hne
    rw [hst] at hne
    rcases (hused' p).mp hp with e | e
    · subst e
      rcases hpar with ⟨e, _⟩ | ⟨_, hadj, hu⟩
      · exact absurd e hne
      · exact ⟨par, by rw [hcp, if_pos rfl], hadj, (hused' _).mpr (Or.inr hu)⟩
    · have hpt : p ≠ tmp := fun e' => hfree (e' ▸ e)
      obtain ⟨q, hq1, hq2, hq3⟩ := h3 p e hne
      exact ⟨q, by rw [hcp, if_neg hpt]; exact hq1, hq2, (hused' _).mpr (Or.inr hq3)⟩

theorem settled_next {g : List (List Char)} {n m : Nat} {s s' : Labirinth} (h : Inv g n m s)
    (hs : ParentsSettled s) (hstep : LoopNext s s') : MarksOnce s s' ∧ ParentsSettled s' := by
  obtain ⟨hinv', _, hst, _, d, tmp, par, rest, hq, hcase⟩ := loopNext_effect h hstep
  rcases hcase with ⟨_, e⟩ | ⟨hfree, _, hcu, hcp, _⟩
  · subst e
    refine ⟨⟨fun p hp => hp, fun p hp => absurd rfl hp, fun p hp hp' => absurd hp' hp⟩, hs⟩
  · exact settled_step hs hst (hinv'.shape.xs.trans h.shape.xs.symm)
      (hinv'.shape.ys.trans h.shape.ys.symm) hfree hcu hcp (h.head_parent hq hfree)

theorem settled_finish {g : List (List Char)} {n m : Nat} {s s' : Labirinth} (h : Inv g n m s)
    (hs : ParentsSettled s) (hstep : LoopFinish s s') :
    MarksOnce s s' ∧ ParentsSettled s' := by
  obtain ⟨_, hst, _, hxs, hys, d, tmp, par, rest, hq, hfree, _, hcu, hcp⟩ :=
    loopFinish_effect h hstep
  exact settled_step hs hst hxs hys hfree hcu hcp (h.head_parent hq hfree)

theorem AtLoop.settled {g : List (List Char)} {n m : Nat} {s0 : Labirinth}
    (h0 : Fresh g n m s0) {k : Nat} {s : Labirinth} (h : AtLoop s0 k s) : ParentsSettled s := by
  induction h with
  | first =>
    have hfree : ∀ p, ¬ Used s0.used_ p := by
      intro p hp
      unfold Used at hp
      rw [h0.used] at hp
      have := cellAt_replicate false n m p true hp
      cases this
    refine ⟨?_, fun hu => absurd hu (hfree _), fun p hp => absurd hp (hfree p)⟩
    intro p hin _
    obtain ⟨b, hb⟩ := (h0.shape.inRange_parent p).mp hin
    have hb' := hb
    rw [h0.parent] at hb'
    rw [cellAt_replicate _ n m p b hb'] at hb
    exact hb
  | next hprev hstep ih => exact (settled_next (hprev.inv h0).1 ih hstep).2

/-- C14: on a rectangular grid of recognised characters with at least one row and
one column, in every state that `findPath` passes through, a cell that is not
marked holds the unset parent `(-1, -1)`, the Start cell, once marked, is its own
parent, and the parent of every other marked cell is a marked cell orthogonally
adjacent to it; in every pass through the loop body no mark is taken back, a
parent entry changes only where the mark is set in that pass, and the parent
written there was marked before the pass. -/
theorem C14_marks_and_parents_settle (input : List Char) (hrect : Rect (readLines input))
    (hrec : AllRecognised (readLines input)) (hn : 0 < (readLines input).length)
    (hm : 0 < ((readLines input).headD []).length) :
    ∃ s0, readLabirinth input = .ok s0 ∧
      ∀ (k : Nat) (s : Labirinth), AtLoop s0 k s →
        ParentsSettled s ∧
        ∀ s', LoopNext s s' ∨ LoopFinish s s' → MarksOnce s s' ∧ ParentsSettled s' := by
  obtain ⟨s0, hread, _⟩ := readLabirinth_spec input hrect hrec
  have h0 := fresh_of_load hrect hrec hn hm hread
  refine ⟨s0, hread, ?_⟩
  intro k s hs
  refine ⟨hs.settled h0, ?_⟩
  intro s' hstep
  rcases hstep with hstep | hstep
  · exact settled_next (hs.inv h0).1 (hs.settled h0) hstep
  · exact settled_finish (hs.inv h0).1 (hs.settled h0) hstep

theorem C14_marks_and_parents_settle_witness :
    ∃ s0, readLabirinth scenarioC = .ok s0 ∧
      ∀ (k : Nat) (s : Labirinth), AtLoop s0 k s →
        ParentsSettled s ∧
        ∀ s', LoopNext s s' ∨ LoopFinish s s' → MarksOnce s s' ∧ ParentsSettled s' :=
  C14_marks_and_parents_settle scenarioC (by decide) (by decide) (by decide) (by decide)

theorem Trail.mem_parent {g : List (List Char)} {u : List (List Bool)} {par : List (List Point)}
    {st p : Point} {l : List Point} (h : Trail g u par st p l) :
    ∀ r ∈ l, ∃ q, cellAt par r = some q ∧ Adj q r ∧ Used u q := by
  induction h with
  | root _ _ => intro r hr; cases hr
  | step _ hp hadj _ ht ih =>
    intro r hr
    rcases List.mem_cons.mp hr with hr | hr
    · subst hr
      exact ⟨_, hp, hadj, ht.used⟩
    · exact ih r hr

/-- The marked cells of the object on which `colorPath` is called form a tree of
parent entries rooted at the Start cell. -/
theorem finish_tree {g : List (List Char)} {n m : Nat} {s s' : Labirinth} (h : Inv g n m s)
    (hstep : LoopFinish s s') :
    ∀ p, Used s'.used_ p → ∃ l, Trail g s'.used_ s'.parent_ s'.start_ p l := by
  obtain ⟨⟨lf, hfound⟩, hst, hfi, _, _, d, tmp, par, rest, hq, hfree, htmp, hcu, hcp⟩ :=
    loopFinish_effect h hstep
  have hused' : ∀ q, Used s'.used_ q ↔ q = tmp ∨ Used s.used_ q := by
    intro q
    unfold Used
    rw [hcu q]
    by_cases hqt : q = tmp
    · simp [hqt]
    · simp [hqt]
  have hmono : ∀ q, Used s.used_ q → Used s'.used_ q ∧ cellAt s'.parent_ q = cellAt s.parent_ q := by
    intro q hq'
    refine ⟨(hused' q).mpr (Or.inr hq'), ?_⟩
    rw [hcp q, if_neg (fun e : q = tmp => hfree (e ▸ hq'))]
  intro p hp
  rcases (hused' p).mp hp with e | e
  · refine ⟨lf, ?_⟩
    have := hfound.trail
    rw [hfi, ← htmp, ← e] at this
    exact this
  · obtain ⟨l, hl⟩ := h.usedTrail p e
    exact ⟨l, hst ▸ hl.mono hmono⟩

/-- C15: on a rectangular grid of recognised characters with at least one row and
one column, whenever `findPath` reaches the Finish cell and calls `colorPath`,
every marked cell has a trail of parent entries to the Start cell whose cells are
pairwise distinct, are not the Start cell, are not their own parent and hold a
set parent entry; the Start cell is its own parent and the only marked cell that
is; and `colorPath` returns after one loop test for each cell of the trail of
`parent_[finish_]` and one more for the Start cell. -/
theorem C15_color_walk_terminates (input : List Char) (hrect : Rect (readLines input))
    (hrec : AllRecognised (readLines input)) (hn : 0 < (readLines input).length)
    (hm : 0 < ((readLines input).headD []).length) :
    ∃ s0, readLabirinth input = .ok s0 ∧
      ∀ (k : Nat) (s s' : Labirinth), AtLoop s0 k s → LoopFinish s s' →
        (∀ p, Used s'.used_ p →
          ∃ l, Trail (readLines input) s'.used_ s'.parent_ s'.start_ p l ∧ l.Nodup ∧
            s'.start_ ∉ l ∧
            ∀ r ∈ l, cellAt s'.parent_ r ≠ some r ∧ cellAt s'.parent_ r ≠ some ⟨-1, -1⟩) ∧
        cellAt s'.parent_ s'.start_ = some s'.start_ ∧
        (∀ p, Used s'.used_ p → cellAt s'.parent_ p = some p → p = s'.start_) ∧
        ∃ q l, cellAt s'.parent_ s'.finish_ = some q ∧
          Trail (readLines input) s'.used_ s'.parent_ s'.start_ q l ∧
          ∀ fuel : Nat, l.length + 1 ≤ fuel → ∃ s'', colorPath fuel s' = .done s'' := by
  obtain ⟨s0, hread, _⟩ := readLabirinth_spec input hrect hrec
  have h0 := fresh_of_load hrect hrec hn hm hread
  refine ⟨s0, hread, ?_⟩
  intro k s s' hs hstep
  have hinv := (hs.inv h0).1
  have htree := finish_tree hinv hstep
  obtain ⟨⟨lf, hfound⟩, hst, hfi, hxs, hys, _⟩ := loopFinish_effect hinv hstep
  have hfin : Trail (readLines input) s'.used_ s'.parent_ s'.start_ s'.finish_ lf := hfound.trail
  refine ⟨?_, hfin.root_trail.nil_eq.2, ?_, ?_⟩
  · intro p hp
    obtain ⟨l, hl⟩ := htree p hp
    refine ⟨l, hl, hl.nodup, hl.start_not_mem, ?_⟩
    intro r hr
    obtain ⟨q, hq1, hq2, hq3⟩ := hl.mem_parent r hr
    rw [hq1]
    refine ⟨fun e => hq2.ne (Option.some.inj e), fun e => ?_⟩
    have hq : q = ⟨-1, -1⟩ := Option.some.inj e
    have hin := used_inRange hfound.shape hq3
    rw [hq] at hin
    unfold InRange at hin
    simp only at hin
    omega
  · intro p hp hself
    obtain ⟨l, hl⟩ := htree p hp
    cases hl with
    | root _ _ => rfl
    | step _ hp' hadj _ _ =>
      rw [hself] at hp'
      exact absurd (Option.some.inj hp') hadj.ne.symm
  · obtain ⟨q, hq, htail⟩ := hfin.parent_tail
    refine ⟨q, lf.tail, hq, htail, ?_⟩
    intro fuel hfuel
    obtain ⟨g', hrun, _⟩ := colorLoop_spec hfound.shape.grid htail fuel s' rfl
      (hfound.lab ▸ hfound.shape.grid) hfuel
    refine ⟨{ s' with labirinth_ := g' }, ?_⟩
    unfold colorPath
    rw [if_neg (by simp [hfound.hasPath]), vecRead_ok hq]
    exact hrun

theorem C15_color_walk_terminates_witness :
    ∃ s0, readLabirinth scenarioC = .ok s0 ∧
      ∀ (k : Nat) (s s' : Labirinth), AtLoop s0 k s → LoopFinish s s' →
        (∀ p, Used s'.used_ p →
          ∃ l, Trail (readLines scenarioC) s'.used_ s'.parent_ s'.start_ p l ∧ l.Nodup ∧
            s'.start_ ∉ l ∧
            ∀ r ∈ l, cellAt s'.parent_ r ≠ some r ∧ cellAt s'.parent_ r ≠ some ⟨-1, -1⟩) ∧
        cellAt s'.parent_ s'.start_ = some s'.start_ ∧
        (∀ p, Used s'.used_ p → cellAt s'.parent_ p = some p → p = s'.start_) ∧
        ∃ q l, cellAt s'.parent_ s'.finish_ = some q ∧
          Trail (readLines scenarioC) s'.used_ s'.parent_ s'.start_ q l ∧
          ∀ fuel : Nat, l.length + 1 ≤ fuel → ∃ s'', colorPath fuel s' = .done s'' :=
  C15_color_walk_terminates scenarioC (by decide) (by decide) (by decide) (by decide)

/-- C16: on a rectangular grid of recognised characters with at least one row and
one column, at every test of the loop of `findPath` the distances in `queue_` do
not decrease from front to back and no two of them differ by more than one; the
distance at the front of the next test is not smaller; and when the cell at the
front is not marked yet, the distance at the front is the length of a shortest
route from the Start cell to it. -/
theorem C16_queue_distances_sorted (input : List Char) (hrect : Rect (readLines input))
    (hrec : AllRecognised (readLines input)) (hn : 0 < (readLines input).length)
    (hm : 0 < ((readLines input).headD []).length) :
    ∃ s0, readLabirinth input = .ok s0 ∧
      ∀ (k : Nat) (s : Labirinth), AtLoop s0 k s →
        s.queue_.Pairwise (fun a b => a.1 ≤ b.1) ∧
        (∀ a ∈ s.queue_, ∀ b ∈ s.queue_, b.1 ≤ a.1 + 1) ∧
        (∀ (s' : Labirinth) (e e' : Int × Point × Point), LoopNext s s' →
          s.queue_.head? = some e → s'.queue_.head? = some e' → e.1 ≤ e'.1) ∧
        (∀ (d : Int) (tmp par : Point) (rest : List (Int × Point × Point)),
          s.queue_ = (d, tmp, par) :: rest → ¬ Used s.used_ tmp →
          ∃ j : Nat, d = (j : Int) ∧ Route (readLines input) s0.start_ j tmp ∧
            ∀ i : Nat, Route (readLines input) s0.start_ i tmp → j ≤ i) := by
  obtain ⟨s0, hread, _⟩ := readLabirinth_spec input hrect hrec
  have h0 := fresh_of_load hrect hrec hn hm hread
  refine ⟨s0, hread, ?_⟩
  intro k s hs
  obtain ⟨hinv, hst, _, _⟩ := hs.inv h0
  refine ⟨hinv.sorted, hinv.span, ?_, ?_⟩
  · intro s' e e' hstep he he'
    obtain ⟨_, _, _, _, d, tmp, par, rest, hq, hcase⟩ := loopNext_effect hinv hstep
    have hsorted := hinv.sorted
    rw [hq] at hsorted he
    simp only [List.head?_cons, Option.some.injEq] at he
    subst he
    have hrest : ∀ x ∈ rest, d ≤ x.1 := (List.pairwise_cons.mp hsorted).1
    have hmem : e' ∈ s'.queue_ := List.mem_of_mem_head? he'
    rcases hcase with ⟨_, e1⟩ | ⟨_, _, _, _, e1⟩
    · rw [e1] at hmem
      exact hrest e' hmem
    · rw [e1] at hmem
      rcases List.mem_append.mp hmem with h1 | h1
      · exact hrest e' h1
      · obtain ⟨_, _, _, rfl⟩ := mem_newEntries.mp h1
        simp only
        omega
  · intro d tmp par rest hq hfree
    have hhead : (d, tmp, par) ∈ s.queue_ := by rw [hq]; exact List.mem_cons_self _ _
    obtain ⟨j, hj, hroute⟩ := hinv.entry_route hhead
    refine ⟨j, hj, hst ▸ hroute, ?_⟩
    intro i hi
    have := hinv.head_minimal hq hfree (hst ▸ hi)
    simp only at hj
    omega

theorem C16_queue_distances_sorted_witness :
    ∃ s0, readLabirinth scenarioC = .ok s0 ∧
      ∀ (k : Nat) (s : Labirinth), AtLoop s0 k s →
        s.queue_.Pairwise (fun a b => a.1 ≤ b.1) ∧
        (∀ a ∈ s.queue_, ∀ b ∈ s.queue_, b.1 ≤ a.1 + 1) ∧
        (∀ (s' : Labirinth) (e e' : Int × Point × Point), LoopNext s s' →
          s.queue_.head? = some e → s'.queue_.head? = some e' → e.1 ≤ e'.1) ∧
        (∀ (d : Int) (tmp par : Point) (rest : List (Int × Point × Point)),
          s.queue_ = (d, tmp, par) :: rest → ¬ Used s.used_ tmp →
          ∃ j : Nat, d = (j : Int) ∧ Route (readLines scenarioC) s0.start_ j tmp ∧
            ∀ i : Nat, Route (readLines scenarioC) s0.start_ i tmp → j ≤ i) :=
  C16_queue_distances_sorted scenarioC (by decide) (by decide) (by decide) (by decide)

/-! ## More fuel does not change a result -/

theorem colorLoop_unfold (fuel : Nat) (s : Labirinth) (point : Point) :
    colorLoop (fuel + 1) s point =
      match vecRead s.parent_ point with
      | .error f => .fault f
      | .ok q =>
        if q.ne point then
          match vecWrite s.labirinth_ point pathChar with
          | .error f => .fault f
          | .ok g => colorLoop fuel { s with labirinth_ := g } q
        else .done s := by
  rw [colorLoop]

theorem findPathLoop_unfold (fuel : Nat) (s : Labirinth) :
    findPathLoop (fuel + 1) s =
      match s.queue_ with
      | [] => .done s
      | (distance, tmp, parent) :: rest =>
        match loopBody { s with queue_ := rest } distance tmp parent with
        | .fault f => .fault f
        | .next s => findPathLoop fuel s
        | .finish s => colorPath fuel s := by
  rw [findPathLoop]

theorem colorLoop_succ : ∀ (fuel : Nat) (s : Labirinth) (p : Point),
    colorLoop fuel s p ≠ .outOfFuel → colorLoop (fuel + 1) s p = colorLoop fuel s p := by
  intro fuel
  induction fuel with
  | zero => intro s p h; exact absurd rfl h
  | succ n ih =>
    intro s p h
    rw [colorLoop_unfold (n + 1), colorLoop_unfold n]
    rw [colorLoop_unfold n] at h
    cases hr : vecRead s.parent_ p with
    | error f => rfl
    | ok q =>
      rw [hr] at h
      simp only at h ⊢
      by_cases hne : q.ne p = true
      · simp only [if_pos hne] at h ⊢
        cases hw : vecWrite s.labirinth_ p pathChar with
        | error f => rfl
        | ok g =>
          rw [hw] at h
          simp only at h ⊢
          exact ih _ _ h
      · simp only [if_neg hne]

theorem colorPath_succ (fuel : Nat) (s : Labirinth) (h : colorPath fuel s ≠ .outOfFuel) :
    colorPath (fuel + 1) s = colorPath fuel s := by
  unfold colorPath at h ⊢
  by_cases hp : (!s.hasPath) = true
  · simp only [if_pos hp]
  · simp only [if_neg hp] at h ⊢
    cases hr : vecRead s.parent_ s.finish_ with
    | error f => rfl
    | ok q =>
      rw [hr] at h
      simp only at h ⊢
      exact colorLoop_succ _ _ _ h

theorem findPathLoop_succ : ∀ (fuel : Nat) (s : Labirinth),
    findPathLoop fuel s ≠ .outOfFuel → findPathLoop (fuel + 1) s = findPathLoop fuel s := by
  intro fuel
  induction fuel with
  | zero => intro s h; exact absurd rfl h
  | succ n ih =>
    intro s h
    rw [findPathLoop_unfold (n + 1), findPathLoop_unfold n]
    rw [findPathLoop_unfold n] at h
    cases hq : s.queue_ with
    | nil => rfl
    | cons e rest =>
      obtain ⟨d, tmp, par⟩ := e
      rw [hq] at h
      simp only at h ⊢
      cases hb : loopBody { s with queue_ := rest } d tmp par with
      | fault f => rfl
      | next s1 =>
        rw [hb] at h
        simp only at h ⊢
        exact ih _ h
      | finish s1 =>
        rw [hb] at h
        simp only at h ⊢
        exact colorPath_succ _ _ h

theorem findPathLoop_add (fuel k : Nat) (s : Labirinth)
    (h : findPathLoop fuel s ≠ .outOfFuel) :
    findPathLoop (fuel + k) s = findPathLoop fuel s := by
  induction k with
  | zero => rfl
  | succ k ih =>
    have e := findPathLoop_succ (fuel + k) s (by rw [ih]; exact h)
    exact e.trans ih

theorem loadAndFind_add (fuel k : Nat) (input : List Char)
    (h : loadAndFind fuel input ≠ .outOfFuel) :
    loadAndFind (fuel + k) input = loadAndFind fuel input := by
  unfold loadAndFind at h ⊢
  cases hr : readLabirinth input with
  | error f => rfl
  | ok s =>
    rw [hr] at h
    simp only at h ⊢
    unfold findPath at h ⊢
    exact findPathLoop_add fuel k _ h

/-- C18: on a rectangular grid of recognised characters with at least one row and
at least one column, `readLabirinth` returns an object, and the constructor
followed by `findPath` never takes a fault branch: with any fuel the run only
stops for lack of fuel or returns, and with enough fuel it returns.  The grid need
not hold `S` or `E`. -/
theorem C18_no_access_faults (input : List Char) (hrect : Rect (readLines input))
    (hrec : AllRecognised (readLines input)) (hn : 0 < (readLines input).length)
    (hm : 0 < ((readLines input).headD []).length) :
    (∃ s0, readLabirinth input = .ok s0) ∧
      (∀ (fuel : Nat) (f : Fault), loadAndFind fuel input ≠ .fault f) ∧
      ∀ fuel : Nat, enoughFuel input ≤ fuel → ∃ s', loadAndFind fuel input = .done s' := by
  have hdone : ∀ fuel : Nat, enoughFuel input ≤ fuel →
      ∃ s', loadAndFind fuel input = .done s' := by
    intro fuel hfuel
    obtain ⟨_, s', _, hrun, _⟩ := loadAndFind_spec input hrect hrec hn hm fuel hfuel
    exact ⟨s', hrun⟩
  obtain ⟨s0, hread, _⟩ := readLabirinth_spec input hrect hrec
  refine ⟨⟨s0, hread⟩, ?_, hdone⟩
  intro fuel f hfault
  obtain ⟨s', hs'⟩ := hdone (fuel + enoughFuel input) (by omega)
  rw [loadAndFind_add fuel _ input (by rw [hfault]; exact fun e => by cases e), hfault] at hs'
  cases hs'

theorem C18_no_access_faults_witness :
    (∃ s0, readLabirinth noStartInput = .ok s0) ∧
      (∀ (fuel : Nat) (f : Fault), loadAndFind fuel noStartInput ≠ .fault f) ∧
      ∀ fuel : Nat, enoughFuel noStartInput ≤ fuel →
        ∃ s', loadAndFind fuel noStartInput = .done s' :=
  C18_no_access_faults noStartInput (by decide) (by decide) (by decide) (by decide)

/-- C19: on a rectangular grid of recognised characters with at least one row and
one column `findPath` returns.  After `k` passes through the loop body the
number of triples pushed so far, which is `k` plus the length of the queue, is at
most `1 + 4 * xSize * ySize`, and so is the number `k + 1` of passes when another
one begins; a pass pushes triples, at most four, only when it marks the cell at
the front of the queue. -/
theorem C19_search_terminates (input : List Char) (hrect : Rect (readLines input))
    (hrec : AllRecognised (readLines input)) (hn : 0 < (readLines input).length)
    (hm : 0 < ((readLines input).headD []).length) :
    (∀ fuel : Nat, enoughFuel input ≤ fuel → ∃ s', loadAndFind fuel input = .done s') ∧
      ∃ s0, readLabirinth input = .ok s0 ∧
        ∀ (k : Nat) (s : Labirinth), AtLoop s0 k s →
          k + s.queue_.length ≤ 1 + 4 * cellCount input ∧
          (s.queue_ ≠ [] → k + 1 ≤ 1 + 4 * cellCount input) ∧
          ∀ s', LoopNext s s' →
            ∃ (d : Int) (tmp par : Point) (rest : List (Int × Point × Point)),
              s.queue_ = (d, tmp, par) :: rest ∧
              ((Used s.used_ tmp ∧ s'.queue_ = rest) ∨
                (¬ Used s.used_ tmp ∧ Used s'.used_ tmp ∧
                  ∃ new, s'.queue_ = rest ++ new ∧ new.length ≤ 4)) := by
  refine ⟨?_, ?_⟩
  · intro fuel hfuel
    obtain ⟨_, s', _, hrun, _⟩ := loadAndFind_spec input hrect hrec hn hm fuel hfuel
    exact ⟨s', hrun⟩
  · obtain ⟨s0, hread, _⟩ := readLabirinth_spec input hrect hrec
    have h0 := fresh_of_load hrect hrec hn hm hread
    refine ⟨s0, hread, ?_⟩
    intro k s hs
    obtain ⟨hinv, _, _, hk⟩ := hs.inv h0
    have hmeasure : s.queue_.length ≤ measure s := by unfold measure; omega
    refine ⟨by unfold cellCount; omega, ?_, ?_⟩
    · intro hne
      have : 0 < s.queue_.length := List.length_pos.mpr hne
      unfold cellCount
      omega
    · intro s' hstep
      obtain ⟨_, _, _, _, d, tmp, par, rest, hq, hcase⟩ := loopNext_effect hinv hstep
      refine ⟨d, tmp, par, rest, hq, ?_⟩
      rcases hcase with ⟨hu, e⟩ | ⟨hu, _, hcu, _, e⟩
      · exact Or.inl ⟨hu, by rw [e]⟩
      · refine Or.inr ⟨hu, ?_, newEntries (readLines input) d tmp, e, length_newEntries _ _ _⟩
        unfold Used
        rw [hcu, if_pos rfl]

theorem C19_search_terminates_witness :
    (∀ fuel : Nat, enoughFuel scenarioC ≤ fuel → ∃ s', loadAndFind fuel scenarioC = .done s') ∧
      ∃ s0, readLabirinth scenarioC = .ok s0 ∧
        ∀ (k : Nat) (s : Labirinth), AtLoop s0 k s →
          k + s.queue_.length ≤ 1 + 4 * cellCount scenarioC ∧
          (s.queue_ ≠ [] → k + 1 ≤ 1 + 4 * cellCount scenarioC) ∧
          ∀ s', LoopNext s s' →
            ∃ (d : Int) (tmp par : Point) (rest : List (Int × Point × Point)),
              s.queue_ = (d, tmp, par) :: rest ∧
              ((Used s.used_ tmp ∧ s'.queue_ = rest) ∨
                (¬ Used s.used_ tmp ∧ Used s'.used_ tmp ∧
                  ∃ new, s'.queue_ = rest ++ new ∧ new.length ≤ 4)) :=
  C19_search_terminates scenarioC (by decide) (by decide) (by decide) (by decide)

/-! ## The search depends on the walls only -/

theorem cellAt_of_vecRead {α : Type} {mat : List (List α)} {p : Point} {a : α}
    (h : vecRead mat p = .ok a) : cellAt mat p = some a := by
  unfold vecRead at h
  split at h
  · simp only [Except.ok.injEq] at h
    subst h
    assumption
  · cases h

theorem dims_of_vecWrite {α : Type} {mat mat' : List (List α)} {p : Point} {v : α} {n m : Nat}
    (h : vecWrite mat p v = .ok mat') (hd : Dims mat n m) : Dims mat' n m := by
  cases hc : cellAt mat p with
  | none =>
    unfold vecWrite at h
    rw [hc] at h
    cases h
  | some a =>
    obtain ⟨mat'', hw, _, hdims⟩ := vecWrite_ok hc v
    rw [hw] at h
    simp only [Except.ok.injEq] at h
    subst h
    exact hdims n m hd

theorem newEntries_congr {g g' : List (List Char)} (hopen : ∀ p, Open g p ↔ Open g' p)
    (d : Int) (tmp : Point) : newEntries g d tmp = newEntries g' d tmp := by
  unfold newEntries
  congr 1
  funext i
  simp only
  generalize (⟨tmp.x + dx.getD i 0, tmp.y + dy.getD i 0⟩ : Point) = q
  have hq := hopen q
  unfold Open at hq
  cases h1 : cellAt g q with
  | none =>
    cases h2 : cellAt g' q with
    | none => rfl
    | some c' =>
      simp only
      by_cases hw : c' = '#'
      · rw [if_pos hw]
      · exfalso
        obtain ⟨c, hc, _⟩ := hq.mpr ⟨c', h2, hw⟩
        rw [h1] at hc
        cases hc
  | some c =>
    cases h2 : cellAt g' q with
    | none =>
      simp only
      by_cases hw : c = '#'
      · rw [if_pos hw]
      · exfalso
        obtain ⟨c', hc, _⟩ := hq.mp ⟨c, h1, hw⟩
        rw [h2] at hc
        cases hc
    | some c' =>
      simp only
      by_cases hw : c = '#'
      · have hw' : c' = '#' := by
          by_contra hne
          obtain ⟨c2, hc, hne2⟩ := hq.mpr ⟨c', h2, hne⟩
          rw [h1] at hc
          exact hne2 (Option.some.inj hc ▸ hw)
        rw [if_pos hw, if_pos hw']
      · have hw' : c' ≠ '#' := by
          intro e
          obtain ⟨c2, hc, hne2⟩ := hq.mp ⟨c, h1, hw⟩
          rw [h2] at hc
          exact hne2 (Option.some.inj hc ▸ e)
        rw [if_neg hw, if_neg hw']

theorem grid_ext {α : Type} {a b : List (List α)} {n m : Nat} (ha : Dims a n m)
    (hb : Dims b n m) (h : ∀ p, cellAt a p = cellAt b p) : a = b := by
  apply List.ext_getElem?
  intro i
  by_cases hi : i < n
  · have hia : i < a.length := by rw [ha.1]; exact hi
    have hib : i < b.length := by rw [hb.1]; exact hi
    rw [List.getElem?_eq_getElem hia, List.getElem?_eq_getElem hib]
    congr 1
    apply List.ext_getElem?
    intro j
    have hp := h ⟨i, j⟩
    unfold cellAt at hp
    simp only [Int.toNat_ofNat, List.getElem?_eq_getElem hia, List.getElem?_eq_getElem hib] at hp
    rw [if_neg (by omega), if_neg (by omega)] at hp
    exact hp
  · rw [List.getElem?_eq_none (by rw [ha.1]; omega), List.getElem?_eq_none (by rw [hb.1]; omega)]

theorem loopBody_regrid {g g' : List (List Char)} {n m : Nat} {s : Labirinth}
    (h : Shape g n m s) (hlab : s.labirinth_ = g) (hg' : Dims g' n m)
    (hrec' : AllRecognised g') (hopen : ∀ p, Open g p ↔ Open g' p) (d : Int)
    (tmp par : Point) :
    loopBody { s with labirinth_ := g' } d tmp par =
      match loopBody s d tmp par with
      | .fault f => .fault f
      | .next t => .next { t with labirinth_ := g' }
      | .finish t => .finish { t with labirinth_ := g' } := by
  unfold loopBody
  simp only
  cases hr : vecRead s.used_ tmp with
  | error f => rfl
  | ok b =>
    cases b with
    | true => rfl
    | false =>
      simp only
      cases hw : vecWrite s.used_ tmp true with
      | error f => rfl
      | ok u =>
        simp only
        cases hwp : vecWrite s.parent_ tmp par with
        | error f => rfl
        | ok p =>
          simp only
          by_cases hfin : tmp.eq s.finish_ = true
          · simp only [if_pos hfin]
          · simp only [if_neg hfin]
            have hshape1 : Shape g n m { s with used_ := u, parent_ := p } :=
              ⟨h.xs, h.ys, h.grid, h.chars, dims_of_vecWrite hw h.usedDims,
                dims_of_vecWrite hwp h.parentDims, h.startIn, h.finishIn⟩
            have hshape2 : Shape g' n m { s with labirinth_ := g', used_ := u, parent_ := p } :=
              ⟨h.xs, h.ys, hg', hrec', dims_of_vecWrite hw h.usedDims,
                dims_of_vecWrite hwp h.parentDims, h.startIn, h.finishIn⟩
            rw [pushNeighbours_eq hshape1 hlab, pushNeighbours_eq hshape2 rfl,
              newEntries_congr hopen]

theorem findPathLoop_keeps : ∀ (fuel : Nat) (s s' : Labirinth),
    findPathLoop fuel s = .done s' →
    s'.xSize = s.xSize ∧ s'.ySize = s.ySize ∧ s'.start_ = s.start_ ∧
      s'.finish_ = s.finish_ := by
  intro fuel
  induction fuel with
  | zero => intro s s' h; cases h
  | succ fuel ih =>
    intro s s' h
    rw [findPathLoop_unfold] at h
    split at h
    · simp only [Outcome.done.injEq] at h
      subst h
      exact ⟨rfl, rfl, rfl, rfl⟩
    · split at h
      · cases h
      · rename_i s1 hbody
        obtain ⟨u, p, new, e1, _⟩ := loopBody_next_shape hbody
        obtain ⟨h1, h2, h3, h4⟩ := ih s1 s' h
        rw [e1] at h1 h2 h3 h4
        exact ⟨h1, h2, h3, h4⟩
      · rename_i s1 hbody
        obtain ⟨u, p, e1⟩ := loopBody_finish_shape hbody
        obtain ⟨g', e2⟩ := colorPath_shape h
        rw [e2, e1]
        exact ⟨rfl, rfl, rfl, rfl⟩

/-- Two runs of the loop of `findPath` on objects that differ in the grid only,
when the two grids have the same walls, return the same flag and length, and
`colorPath` overwrites the same cells in both. -/
theorem findPathLoop_regrid {g g' : List (List Char)} {n m : Nat} (hg' : Dims g' n m)
    (hrec' : AllRecognised g') (hopen : ∀ p, Open g p ↔ Open g' p) :
    ∀ (fuel : Nat) (s : Labirinth), Inv g n m s → measure s + n * m + 1 ≤ fuel →
      ∃ (s1 t1 : Labirinth) (cells : List Point), findPathLoop fuel s = .done s1 ∧
        findPathLoop fuel { s with labirinth_ := g' } = .done t1 ∧
        t1.hasPath = s1.hasPath ∧ t1.pathLength = s1.pathLength ∧
        Dims s1.labirinth_ n m ∧ Dims t1.labirinth_ n m ∧
        (∀ p, cellAt s1.labirinth_ p = if p ∈ cells then some pathChar else cellAt g p) ∧
        (∀ p, cellAt t1.labirinth_ p = if p ∈ cells then some pathChar else cellAt g' p) := by
  intro fuel
  induction fuel with
  | zero => intro s _ hf; omega
  | succ fuel ih =>
    intro s h hf
    have hsplit : s.queue_ = [] ∨ ∃ (d : Int) (tmp par : Point)
        (rest : List (Int × Point × Point)), s.queue_ = (d, tmp, par) :: rest := by
      cases hq : s.queue_ with
      | nil => exact Or.inl rfl
      | cons e rest => exact Or.inr ⟨e.1, e.2.1, e.2.2, rest, rfl⟩
    rcases hsplit with hq | ⟨d, tmp, par, rest, hq⟩
    · refine ⟨s, { s with labirinth_ := g' }, [], ?_, ?_, rfl, rfl, h.lab ▸ h.shape.grid, hg', ?_, ?_⟩
      · rw [findPathLoop_unfold, hq]
      · rw [findPathLoop_unfold]
        simp only [hq]
      · intro p
        simp [h.lab]
      · intro p
        simp
    · have hre := loopBody_regrid (h.shape.withQueue rest) h.lab hg' hrec' hopen d tmp par
      have hunf1 : findPathLoop (fuel + 1) s =
          match loopBody { s with queue_ := rest } d tmp par with
          | .fault f => .fault f
          | .next s => findPathLoop fuel s
          | .finish s => colorPath fuel s := by
        rw [findPathLoop_unfold, hq]
      have hunf2 : findPathLoop (fuel + 1) { s with labirinth_ := g' } =
          match loopBody { s with labirinth_ := g', queue_ := rest } d tmp par with
          | .fault f => .fault f
          | .next s => findPathLoop fuel s
          | .finish s => colorPath fuel s := by
        rw [findPathLoop_unfold]
        simp only [hq]
      have hnext : ∀ s2, loopBody { s with queue_ := rest } d tmp par = .next s2 →
          Inv g n m s2 → measure s2 < measure s →
          ∃ (s1 t1 : Labirinth) (cells : List Point), findPathLoop (fuel + 1) s = .done s1 ∧
            findPathLoop (fuel + 1) { s with labirinth_ := g' } = .done t1 ∧
            t1.hasPath = s1.hasPath ∧ t1.pathLength = s1.pathLength ∧
            Dims s1.labirinth_ n m ∧ Dims t1.labirinth_ n m ∧
            (∀ p, cellAt s1.labirinth_ p = if p ∈ cells then some pathChar else cellAt g p) ∧
            (∀ p, cellAt t1.labirinth_ p =
              if p ∈ cells then some pathChar else cellAt g' p) := by
        intro s2 hbody hinv hlt
        obtain ⟨s1, t1, cells, r1, r2, rest'⟩ := ih s2 hinv (by omega)
        refine ⟨s1, t1, cells, ?_, ?_, rest'⟩
        · rw [hunf1, hbody]
          exact r1
        · rw [hunf2]
          have : loopBody { s with labirinth_ := g', queue_ := rest } d tmp par =
              .next { s2 with labirinth_ := g' } := by
            have := hre
            rw [hbody] at this
            exact this
          rw [this]
          exact r2
      by_cases hu : Used s.used_ tmp
      · obtain ⟨hbody, hinv, hlt⟩ := loopBody_used h hq hu
        exact hnext _ hbody hinv hlt
      · obtain ⟨s2, _, _, hcases⟩ := loopBody_fresh h hq hu
        rcases hcases with ⟨hbody, hinv, hlt⟩ | ⟨l, hbody, hfound⟩
        · exact hnext _ hbody hinv hlt
        · obtain ⟨q, hq', htail⟩ := hfound.trail.parent_tail
          have hlen : l.tail.length + 1 ≤ fuel := by
            have := hfound.bound
            simp only [List.length_tail]
            have : 1 ≤ measure s := by unfold measure; rw [hq]; simp only [List.length_cons]; omega
            omega
          obtain ⟨g1, hrun1, hd1, hcell1, _⟩ :=
            colorLoop_spec hfound.shape.grid htail fuel s2 rfl
              (hfound.lab ▸ hfound.shape.grid) hlen
          obtain ⟨g2, hrun2, hd2, hcell2, _⟩ :=
            colorLoop_spec hfound.shape.grid htail fuel { s2 with labirinth_ := g' } rfl hg' hlen
          refine ⟨{ s2 with labirinth_ := g1 }, { s2 with labirinth_ := g2 }, l.tail, ?_, ?_,
            rfl, rfl, hd1, hd2, ?_, hcell2⟩
          · rw [hunf1, hbody]
            simp only
            unfold colorPath
            rw [if_neg (by simp [hfound.hasPath]), vecRead_ok hq']
            exact hrun1
          · rw [hunf2]
            have : loopBody { s with labirinth_ := g', queue_ := rest } d tmp par =
                .finish { s2 with labirinth_ := g' } := by
              have := hre
              rw [hbody] at this
              exact this
            rw [this]
            simp only
            unfold colorPath
            rw [if_neg (by simp [hfound.hasPath])]
            simp only [vecRead_ok hq']
            exact hrun2
          · intro p
            rw [hcell1 p, hfound.lab]

theorem labirinth_eq {a b : Labirinth} (h1 : a.labirinth_ = b.labirinth_)
    (h2 : a.used_ = b.used_) (h3 : a.parent_ = b.parent_) (h4 : a.start_ = b.start_)
    (h5 : a.finish_ = b.finish_) (h6 : a.xSize = b.xSize) (h7 : a.ySize = b.ySize)
    (h8 : a.hasPath = b.hasPath) (h9 : a.pathLength = b.pathLength)
    (h10 : a.queue_ = b.queue_) : a = b := by
  cases a
  cases b
  simp only at h1 h2 h3 h4 h5 h6 h7 h8 h9 h10
  subst h1 h2 h3 h4 h5 h6 h7 h8 h9 h10
  rfl

theorem recognised_of_cells {g : List (List Char)}
    (h : ∀ p c, cellAt g p = some c → Recognised c) : AllRecognised g := by
  intro row hrow c hc
  obtain ⟨i, hi⟩ := List.mem_iff_getElem?.mp hrow
  obtain ⟨j, hj⟩ := List.mem_iff_getElem?.mp hc
  exact h ⟨i, j⟩ c (cellAt_eq_some.mpr ⟨by simp, by simp, row, by simpa using hi,
    by simpa using hj⟩)

theorem rect_of_dims {g : List (List Char)} {n m : Nat} (h : Dims g n m) (hn : 0 < n) :
    Rect g ∧ g.length = n ∧ (g.headD []).length = m := by
  obtain ⟨h1, h2⟩ := h
  cases g with
  | nil => simp at h1; omega
  | cons r t =>
    have hr : r.length = m := h2 r (List.mem_cons_self _ _)
    refine ⟨?_, h1, hr⟩
    intro row hrow
    simp only [List.headD_cons]
    rw [h2 row hrow, hr]

theorem no_newline_of_recognised {g : List (List Char)} (h : AllRecognised g) :
    ∀ row ∈ g, '\n' ∉ row := by
  intro row hrow hmem
  have := h row hrow _ hmem
  revert this
  decide

/-- C17: on a rectangular grid of recognised characters with exactly one `S` and
one `E`, the constructor followed by `findPath` returns an object whose grid
`printLabirinth` writes out, and the constructor followed by `findPath` on that
text returns an object with the same found flag, the same path length and the
same grid. -/
theorem C17_rerun_is_fixed_point (input : List Char) (hrect : Rect (readLines input))
    (hrec : AllRecognised (readLines input)) (hS : countCells 'S' (readLines input) = 1)
    (hE : countCells 'E' (readLines input) = 1) (fuel : Nat) (hfuel : enoughFuel input ≤ fuel) :
    ∃ s1 out t1, loadAndFind fuel input = .done s1 ∧ printLabirinth s1 = .ok out ∧
      loadAndFind fuel out = .done t1 ∧ isPathExists t1 = isPathExists s1 ∧
      getPathLength t1 = getPathLength s1 ∧ t1.labirinth_ = s1.labirinth_ := by
  have hposS : 0 < countCells 'S' (readLines input) := by omega
  have hposE : 0 < countCells 'E' (readLines input) := by omega
  obtain ⟨a, ha⟩ := exists_cell_of_countCells_pos hposS
  obtain ⟨hn, hm⟩ := pos_dims_of_cell hrect ha
  obtain ⟨s0, hread, hlab0, hxs0, hys0, hused0, hparent0, hnp0, hnl0, hq0, hS0, hE0⟩ :=
    readLabirinth_spec input hrect hrec
  have h0 := fresh_of_load hrect hrec hn hm hread
  have hg := dims_of_rect hrect
  have hst := hS0.of_count hposS
  have hfin := hE0.of_count hposE
  -- the first run
  obtain ⟨s1, hrun1, hpost⟩ := findPath_spec h0 fuel hfuel
  have hframe : ∀ p, cellAt s1.labirinth_ p = cellAt (readLines input) p ∨
      (cellAt (readLines input) p = some '_' ∧ cellAt s1.labirinth_ p = some '*') := by
    intro p
    rcases hpost with hnp | ⟨l, hpf⟩
    · exact Or.inl (by rw [hnp.lab])
    · exact hpf.frame hrec hS hE hst hfin p
  have hd1 : Dims s1.labirinth_ (readLines input).length ((readLines input).headD []).length := by
    rcases hpost with hnp | ⟨l, hpf⟩
    · rw [hnp.lab]; exact hg
    · exact hpf.dims
  have hopen : ∀ p, Open (readLines input) p ↔ Open s1.labirinth_ p := by
    intro p
    unfold Open
    rcases hframe p with e | ⟨e1, e2⟩
    · rw [e]
    · rw [e1, e2]
      exact ⟨fun _ => ⟨'*', rfl, by decide⟩, fun _ => ⟨'_', rfl, by decide⟩⟩
  have hrec1 : AllRecognised s1.labirinth_ := by
    apply recognised_of_cells
    intro p c hc
    rcases hframe p with e | ⟨_, e2⟩
    · rw [e] at hc
      exact recognised_of_cell hrec hc
    · rw [e2] at hc
      rw [← Option.some.inj hc]
      exact Or.inr (Or.inr (Or.inr (Or.inr rfl)))
  obtain ⟨hrect1, hlen1, hhead1⟩ := rect_of_dims hd1 hn
  have hkeep := findPathLoop_keeps fuel _ s1 hrun1
  have hprint : printLabirinth s1 = .ok (unlines s1.labirinth_) := by
    apply printLabirinth_eq
    rw [hkeep.1, hlen1]
    exact hxs0
  have hlines : readLines (unlines s1.labirinth_) = s1.labirinth_ :=
    readLines_unlines _ (no_newline_of_recognised hrec1)
  -- the second load
  obtain ⟨t0, hread2, hlab2, hxs2, hys2, hused2, hparent2, hnp2, hnl2, hq2, hS2, hE2⟩ :=
    readLabirinth_spec (unlines s1.labirinth_) (by rw [hlines]; exact hrect1)
      (by rw [hlines]; exact hrec1)
  rw [hlines] at hlab2 hxs2 hys2 hused2 hparent2 hS2 hE2
  rw [hlen1] at hxs2 hused2 hparent2
  rw [hhead1] at hys2 hused2 hparent2
  have hkeepS : ∀ p, cellAt s1.labirinth_ p = some 'S' ↔
      cellAt (readLines input) p = some 'S' := by
    intro p
    rcases hframe p with e | ⟨e1, e2⟩
    · rw [e]
    · rw [e1, e2]
      exact ⟨fun e => absurd (Option.some.inj e) (by decide),
        fun e => absurd (Option.some.inj e) (by decide)⟩
  have hkeepE : ∀ p, cellAt s1.labirinth_ p = some 'E' ↔
      cellAt (readLines input) p = some 'E' := by
    intro p
    rcases hframe p with e | ⟨e1, e2⟩
    · rw [e]
    · rw [e1, e2]
      exact ⟨fun e => absurd (Option.some.inj e) (by decide),
        fun e => absurd (Option.some.inj e) (by decide)⟩
  have hstart2 : t0.start_ = s0.start_ := by
    have h1 := hS2.of_count (countCells_pos_of_cell ((hkeepS _).mpr hst))
    exact cell_unique_of_countCells_one hS ((hkeepS _).mp h1) hst
  have hfinish2 : t0.finish_ = s0.finish_ := by
    have h1 := hE2.of_count (countCells_pos_of_cell ((hkeepE _).mpr hfin))
    exact cell_unique_of_countCells_one hE ((hkeepE _).mp h1) hfin
  have ht0 : t0 = { s0 with labirinth_ := s1.labirinth_ } :=
    labirinth_eq hlab2 (by rw [hused2, hused0]) (by rw [hparent2, hparent0]) hstart2 hfinish2
      (by rw [hxs2, hxs0]) (by rw [hys2, hys0]) (by rw [hnp2, hnp0]) (by rw [hnl2, hnl0])
      (by rw [hq2, hq0])
  -- the two runs side by side
  have hmeasure : measure { s0 with queue_ := s0.queue_ ++ [(0, s0.start_, s0.start_)] }
      + (readLines input).length * ((readLines input).headD []).length + 1 ≤ fuel := by
    have := countCells_le false h0.shape.usedDims
    have hf : 5 * ((readLines input).length * ((readLines input).headD []).length) + 2 ≤ fuel :=
      hfuel
    unfold measure
    simp only [h0.queue, List.nil_append, List.length_singleton]
    omega
  obtain ⟨s1', t1, cells, r1, r2, e1, e2, _, hdt, hc1, hc2⟩ :=
    findPathLoop_regrid hd1 hrec1 hopen fuel _ (inv_first h0) hmeasure
  have hs1 : s1' = s1 := by
    have : findPathLoop fuel { s0 with queue_ := s0.queue_ ++ [(0, s0.start_, s0.start_)] } =
        .done s1 := hrun1
    rw [this] at r1
    exact (Outcome.done.inj r1).symm
  subst hs1
  refine ⟨s1', unlines s1'.labirinth_, t1, ?_, hprint, ?_, ?_, e2, ?_⟩
  · unfold loadAndFind
    rw [hread]
    exact hrun1
  · unfold loadAndFind
    rw [hread2, ht0]
    exact r2
  · unfold isPathExists
    exact e1
  · apply grid_ext hdt hd1
    intro p
    rw [hc2 p]
    by_cases hp : p ∈ cells
    · rw [if_pos hp]
      have := hc1 p
      rw [if_pos hp] at this
      exact this.symm
    · rw [if_neg hp]

theorem C17_rerun_is_fixed_point_witness :
    ∃ s1 out t1, loadAndFind 47 scenarioC = .done s1 ∧ printLabirinth s1 = .ok out ∧
      loadAndFind 47 out = .done t1 ∧ isPathExists t1 = isPathExists s1 ∧
      getPathLength t1 = getPathLength s1 ∧ t1.labirinth_ = s1.labirinth_ :=
  C17_rerun_is_fixed_point scenarioC (by decide) (by decide) (by decide) (by decide) 47
    (by decide)

/-! ## The search on a grid without walls -/

theorem point_eq_iff (p q : Point) : p = q ↔ p.x = q.x ∧ p.y = q.y := by
  cases p; cases q
  simp only [Point.mk.injEq]

theorem adj_cases {p q : Point} (h : Adj p q) :
    q = ⟨p.x, p.y + 1⟩ ∨ q = ⟨p.x + 1, p.y⟩ ∨ q = ⟨p.x, p.y - 1⟩ ∨ q = ⟨p.x - 1, p.y⟩ := by
  unfold Adj at h
  simp only [point_eq_iff]
  omega

theorem expectedParent_cases (q : Point) (hx : 0 ≤ q.x) (hy : 0 ≤ q.y) (hne : q ≠ ⟨0, 0⟩) :
    (0 < q.x ∧ expectedParent q = ⟨q.x - 1, q.y⟩) ∨
      (q.x = 0 ∧ 0 < q.y ∧ expectedParent q = ⟨q.x, q.y - 1⟩) := by
  unfold expectedParent
  by_cases h1 : 0 < q.x
  · exact Or.inl ⟨h1, by rw [if_pos h1]⟩
  · have h2 : 0 < q.y := by
      by_contra h2
      apply hne
      rw [point_eq_iff]
      simp only
      omega
    exact Or.inr ⟨by omega, h2, by rw [if_neg h1, if_pos h2]⟩

theorem adj_up (q : Point) : Adj ⟨q.x - 1, q.y⟩ q :=
  Or.inr ⟨rfl, Or.inl (by simp only; omega)⟩

theorem adj_left (q : Point) : Adj ⟨q.x, q.y - 1⟩ q :=
  Or.inl ⟨rfl, Or.inl (by simp only; omega)⟩

theorem markedBefore_irrefl (q : Point) : ¬ MarkedBefore q q := by
  unfold MarkedBefore
  omega

/-- A triple for a cell that comes before the cell at the front cannot wait
behind the front of the queue. -/
theorem queuedBefore_contra {d d' : Int} {t f q pq : Point} (hf : 0 ≤ f.x)
    (hdir : t = ⟨f.x, f.y + 1⟩ ∨ t = ⟨f.x + 1, f.y⟩)
    (hpq : (0 < q.x ∧ pq = ⟨q.x - 1, q.y⟩) ∨ (q.x = 0 ∧ 0 < q.y ∧ pq = ⟨q.x, q.y - 1⟩))
    (hmb : MarkedBefore q t) (hqb : QueuedBefore (d, t, f) (d', q, pq)) : False := by
  obtain ⟨fx, fy⟩ := f
  obtain ⟨tx, ty⟩ := t
  obtain ⟨qx, qy⟩ := q
  obtain ⟨px, py⟩ := pq
  simp only [QueuedBefore, MarkedBefore, Point.mk.injEq] at hf hdir hpq hmb hqb
  omega

/-- The triple that the cell above pushed for a cell comes before the triple
that the cell to its left pushed. -/
theorem queuedBefore_up_first {d d' : Int} {t f : Point} (ht : 0 < t.x)
    (hdir : t = ⟨f.x, f.y + 1⟩) (hqb : QueuedBefore (d, t, f) (d', t, ⟨t.x - 1, t.y⟩)) :
    False := by
  obtain ⟨fx, fy⟩ := f
  obtain ⟨tx, ty⟩ := t
  simp only [QueuedBefore, MarkedBefore, Point.mk.injEq] at ht hdir hqb
  omega

theorem sweep_head {g : List (List Char)} {n m : Nat} {s : Labirinth} (hinv : Inv g n m s)
    (hsw : Sweep s) {d : Int} {t f : Point} {rest : List (Int × Point × Point)}
    (hq : s.queue_ = (d, t, f) :: rest) (hfree : ¬ Used s.used_ t) :
    (∀ q, InRange s q → MarkedBefore q t → Used s.used_ q) ∧ f = expectedParent t := by
  have hhead : (d, t, f) ∈ s.queue_ := by rw [hq]; exact List.mem_cons_self _ _
  rcases hsw.z with h0 | ⟨hq0, _⟩
  · obtain ⟨hfu, hadj⟩ := hsw.ent h0 _ hhead
    simp only at hfu hadj
    have htin : InRange s t := hinv.entry_inRange hhead
    have hfin : InRange s f := used_inRange hinv.shape hfu
    have hord := hsw.ord
    rw [hq] at hord
    have hrest : ∀ e ∈ rest, QueuedBefore (d, t, f) e := (List.pairwise_cons.mp hord).1
    -- the cell at the front is the right or the lower neighbour of its parent
    have hdir : t = ⟨f.x, f.y + 1⟩ ∨ t = ⟨f.x + 1, f.y⟩ := by
      rcases adj_cases hadj with e | e | e | e
      · exact Or.inl e
      · exact Or.inr e
      · exfalso
        apply hfree
        apply hsw.down f t hfu htin
        unfold MarkedBefore
        rw [e]
        dsimp only
        omega
      · exfalso
        apply hfree
        apply hsw.down f t hfu htin
        unfold MarkedBefore
        rw [e]
        dsimp only
        omega
    have hA : ∀ (σ : Nat) (q : Point), InRange s q → q.x + q.y = (σ : Int) →
        MarkedBefore q t → Used s.used_ q := by
      intro σ
      induction σ using Nat.strong_induction_on with
      | _ σ ih =>
        intro q hqin hsum hmb
        by_contra hqu
        have hq00 : q ≠ ⟨0, 0⟩ := fun e => hqu (e ▸ h0)
        have hqt : q ≠ t := fun e => markedBefore_irrefl t (e ▸ hmb)
        obtain ⟨hq1, hq2, hq3, hq4⟩ := hqin
        have hpq : ∃ pq : Point, Used s.used_ pq ∧ Adj pq q ∧
            ((0 < q.x ∧ pq = ⟨q.x - 1, q.y⟩) ∨ (q.x = 0 ∧ 0 < q.y ∧ pq = ⟨q.x, q.y - 1⟩)) := by
          rcases expectedParent_cases q hq1 hq3 hq00 with ⟨h1, _⟩ | ⟨h1, h2, _⟩
          · refine ⟨⟨q.x - 1, q.y⟩, ?_, adj_up q, Or.inl ⟨h1, rfl⟩⟩
            apply ih (σ - 1) (by omega) ⟨q.x - 1, q.y⟩
            · exact ⟨by dsimp only; omega, by dsimp only; omega, hq3, hq4⟩
            · dsimp only; omega
            · unfold MarkedBefore at hmb ⊢
              dsimp only
              omega
          · refine ⟨⟨q.x, q.y - 1⟩, ?_, adj_left q, Or.inr ⟨h1, h2, rfl⟩⟩
            apply ih (σ - 1) (by omega) ⟨q.x, q.y - 1⟩
            · exact ⟨hq1, hq2, by dsimp only; omega, by dsimp only; omega⟩
            · dsimp only; omega
            · unfold MarkedBefore at hmb ⊢
              dsimp only
              omega
        obtain ⟨pq, hpu, hpadj, hpcase⟩ := hpq
        rcases hsw.nb pq q hpu hpadj ⟨hq1, hq2, hq3, hq4⟩ with hu | ⟨e, he, he1, he2⟩
        · exact hqu hu
        · rw [hq] at he
          rcases List.mem_cons.mp he with he | he
          · rw [he] at he1
            exact hqt he1.symm
          · have hqb := hrest e he
            obtain ⟨e1, e2, e3⟩ := e
            simp only at he1 he2
            subst he1; subst he2
            exact queuedBefore_contra hfin.1 hdir hpcase hmb hqb
    have hAll : ∀ q, InRange s q → MarkedBefore q t → Used s.used_ q := by
      intro q hqin hmb
      exact hA (q.x + q.y).toNat q hqin (by have := hqin.1; have := hqin.2.2.1; omega) hmb
    refine ⟨hAll, ?_⟩
    obtain ⟨ht1, ht2, ht3, ht4⟩ := htin
    obtain ⟨hf1, hf2, hf3, hf4⟩ := hfin
    rcases hdir with e1 | e1
    · by_cases htx : 0 < t.x
      · exfalso
        have hu : Used s.used_ ⟨t.x - 1, t.y⟩ := by
          apply hAll
          · exact ⟨by dsimp only; omega, by dsimp only; omega, ht3, ht4⟩
          · unfold MarkedBefore
            dsimp only
            omega
        rcases hsw.nb _ t hu (adj_up t) ⟨ht1, ht2, ht3, ht4⟩ with hu' | ⟨e, he, he1, he2⟩
        · exact hfree hu'
        · rw [hq] at he
          rcases List.mem_cons.mp he with he | he
          · rw [he] at he2
            dsimp only at he2
            rw [point_eq_iff] at he2 e1
            dsimp only at he2 e1
            omega
          · have hqb := hrest e he
            obtain ⟨e1', e2, e3⟩ := e
            simp only at he1 he2
            subst he1; subst he2
            exact queuedBefore_up_first htx e1 hqb
      · unfold expectedParent
        rw [point_eq_iff] at e1
        dsimp only at e1
        rw [if_neg htx, if_pos (by omega), point_eq_iff]
        dsimp only
        omega
    · unfold expectedParent
      rw [point_eq_iff] at e1
      dsimp only at e1
      rw [if_pos (by omega), point_eq_iff]
      dsimp only
      omega
  · rw [hq] at hq0
    simp only [List.cons.injEq, Prod.mk.injEq] at hq0
    obtain ⟨⟨_, ht, hf⟩, _⟩ := hq0
    subst ht; subst hf
    refine ⟨?_, by unfold expectedParent; simp⟩
    intro q hqin hmb
    unfold MarkedBefore at hmb
    obtain ⟨h1, _, h3, _⟩ := hqin
    dsimp only at hmb
    omega

theorem markedBefore_total {p q : Point} (h : p ≠ q) : MarkedBefore p q ∨ MarkedBefore q p := by
  rw [Ne, point_eq_iff] at h
  unfold MarkedBefore
  omega

/-- The triples that one cell pushes stand in the queue in the order of the
directions, the one for the right neighbour first. -/
theorem newEntries_ordered (g : List (List Char)) (d : Int) (tmp : Point) :
    (newEntries g d tmp).Pairwise QueuedBefore := by
  unfold newEntries
  refine List.Pairwise.filterMap _ ?_ (List.pairwise_lt_range DIRECTIONS)
  intro i j hij b hb b' hb'
  have key : ∀ (k : Nat) (e : Int × Point × Point),
      e ∈ (match cellAt g (Point.mk (tmp.x + dx.getD k 0) (tmp.y + dy.getD k 0)) with
        | some c => if c = '#' then (none : Option (Int × Point × Point))
          else some (d + 1, Point.mk (tmp.x + dx.getD k 0) (tmp.y + dy.getD k 0), tmp)
        | none => none) →
      e = (d + 1, Point.mk (tmp.x + dx.getD k 0) (tmp.y + dy.getD k 0), tmp) := by
    intro k e he
    split at he
    · split at he
      · cases he
      · exact (Option.some.inj he).symm
    · cases he
  have e1 := key i b hb
  have e2 := key j b' hb'
  subst e1; subst e2
  refine Or.inr ⟨rfl, ?_⟩
  intro h
  exfalso
  simp only [Point.mk.injEq] at h
  obtain ⟨h1, h2⟩ := h
  rcases j with _ | _ | _ | _ | j
  · omega
  · simp [dx] at h1
  · simp [dy] at h2
  · simp [dx] at h1
  · simp [dy] at h2

/-- A pass that marks the cell at the front of the queue keeps the invariant of
the search on a grid without walls. -/
theorem sweep_fresh {g : List (List Char)} {n m : Nat} {s s' : Labirinth} (hinv : Inv g n m s)
    (hsw : Sweep s) (hopen : ∀ p, InRange s p → Open g p) {d : Int} {tmp par : Point}
    {rest : List (Int × Point × Point)} (hq : s.queue_ = (d, tmp, par) :: rest)
    (hfree : ¬ Used s.used_ tmp) (hxs : s'.xSize = s.xSize) (hys : s'.ySize = s.ySize)
    (hcu : ∀ q, cellAt s'.used_ q = if q = tmp then some true else cellAt s.used_ q)
    (hcp : ∀ q, cellAt s'.parent_ q = if q = tmp then some par else cellAt s.parent_ q)
    (hqueue : s'.queue_ = rest ++ newEntries g d tmp) : Sweep s' := by
  have hused' : ∀ q, Used s'.used_ q ↔ q = tmp ∨ Used s.used_ q := by
    intro q
    unfold Used
    rw [hcu q]
    by_cases hqt : q = tmp
    · simp [hqt]
    · simp [hqt]
  obtain ⟨hall, hpar⟩ := sweep_head hinv hsw hq hfree
  have hhead : (d, tmp, par) ∈ s.queue_ := by rw [hq]; exact List.mem_cons_self _ _
  have htin : InRange s tmp := hinv.entry_inRange hhead
  have hrange : ∀ q, InRange s' q → InRange s q := by
    intro q hq'
    unfold InRange at hq' ⊢
    rw [hxs, hys] at hq'
    exact hq'
  have hzero : ¬ Used s.used_ ⟨0, 0⟩ → rest = [] ∧ tmp = ⟨0, 0⟩ := by
    intro h0
    rcases hsw.z with h | ⟨h, _⟩
    · exact absurd h h0
    · rw [hq] at h
      simp only [List.cons.injEq, Prod.mk.injEq] at h
      exact ⟨h.2, h.1.2.1⟩
  have hrestUsed : ∀ e ∈ rest, Used s.used_ e.2.2 ∧ Adj e.2.2 e.2.1 := by
    intro e he
    by_cases h0 : Used s.used_ ⟨0, 0⟩
    · exact hsw.ent h0 e (by rw [hq]; exact List.mem_cons_of_mem _ he)
    · rw [(hzero h0).1] at he
      cases he
  exact
    { z := by
        by_cases h0 : Used s.used_ ⟨0, 0⟩
        · exact Or.inl ((hused' _).mpr (Or.inr h0))
        · exact Or.inl ((hused' _).mpr (Or.inl (hzero h0).2.symm))
      ent := by
        intro _ e he
        rw [hqueue] at he
        rcases List.mem_append.mp he with he | he
        · obtain ⟨h1, h2⟩ := hrestUsed e he
          exact ⟨(hused' _).mpr (Or.inr h1), h2⟩
        · obtain ⟨r, hadj, _, rfl⟩ := mem_newEntries.mp he
          exact ⟨(hused' _).mpr (Or.inl rfl), hadj⟩
      ord := by
        rw [hqueue]
        have hord := hsw.ord
        rw [hq] at hord
        refine List.pairwise_append.mpr ⟨(List.pairwise_cons.mp hord).2,
          newEntries_ordered g d tmp, ?_⟩
        intro a ha b hb
        obtain ⟨r, _, _, rfl⟩ := mem_newEntries.mp hb
        obtain ⟨hau, _⟩ := hrestUsed a ha
        have hne : a.2.2 ≠ tmp := fun e => hfree (e ▸ hau)
        rcases markedBefore_total hne with h | h
        · exact Or.inl h
        · exact absurd (hsw.down _ _ hau htin h) hfree
      down := by
        intro p q hp hqin hmb
        rcases (hused' p).mp hp with e | hpu
        · rw [e] at hmb
          exact (hused' q).mpr (Or.inr (hall q (hrange q hqin) hmb))
        · exact (hused' q).mpr (Or.inr (hsw.down p q hpu (hrange q hqin) hmb))
      nb := by
        intro p r hp hadj hrin
        rw [hqueue]
        rcases (hused' p).mp hp with e | hpu
        · subst e
          exact Or.inr ⟨(d + 1, r, p), List.mem_append_right _
            (mem_newEntries.mpr ⟨r, hadj, hopen r (hrange r hrin), rfl⟩), rfl, rfl⟩
        · rcases hsw.nb p r hpu hadj (hrange r hrin) with hru | ⟨e, he, he1, he2⟩
          · exact Or.inl ((hused' r).mpr (Or.inr hru))
          · rw [hq] at he
            rcases List.mem_cons.mp he with he | he
            · rw [he] at he1
              exact Or.inl ((hused' r).mpr (Or.inl he1.symm))
            · exact Or.inr ⟨e, List.mem_append_left _ he, he1, he2⟩
      par := by
        intro p hp
        rw [hcp p]
        by_cases hpt : p = tmp
        · rw [if_pos hpt, hpt, hpar]
        · rw [if_neg hpt]
          rcases (hused' p).mp hp with e | hpu
          · exact absurd e hpt
          · exact hsw.par p hpu }

/-- A pass that finds the cell at the front of the queue marked keeps the
invariant of the search on a grid without walls. -/
theorem sweep_used {s : Labirinth} (hsw : Sweep s) {d : Int} {tmp par : Point}
    {rest : List (Int × Point × Point)} (hq : s.queue_ = (d, tmp, par) :: rest)
    (hu : Used s.used_ tmp) : Sweep { s with queue_ := rest } := by
  have h0 : Used s.used_ ⟨0, 0⟩ := by
    rcases hsw.z with h | ⟨_, h⟩
    · exact h
    · exact absurd hu (h tmp)
  have hsub : ∀ e ∈ rest, e ∈ s.queue_ := by
    intro e he
    rw [hq]
    exact List.mem_cons_of_mem _ he
  exact
    { z := Or.inl h0
      ent := fun _ e he => hsw.ent h0 e (hsub e he)
      ord := by
        have hord := hsw.ord
        rw [hq] at hord
        exact (List.pairwise_cons.mp hord).2
      down := hsw.down
      nb := by
        intro p r hp hadj hrin
        rcases hsw.nb p r hp hadj hrin with hru | ⟨e, he, he1, he2⟩
        · exact Or.inl hru
        · rw [hq] at he
          rcases List.mem_cons.mp he with he | he
          · rw [he] at he1
            exact Or.inl (he1 ▸ hu)
          · exact Or.inr ⟨e, he, he1, he2⟩
      par := hsw.par }

theorem sweep_next {g : List (List Char)} {n m : Nat} {s s' : Labirinth} (hinv : Inv g n m s)
    (hsw : Sweep s) (hopen : ∀ p, InRange s p → Open g p) (hstep : LoopNext s s') :
    Sweep s' := by
  obtain ⟨hinv', _, _, _, d, tmp, par, rest, hq, hcase⟩ := loopNext_effect hinv hstep
  rcases hcase with ⟨hu, rfl⟩ | ⟨hfree, _, hcu, hcp, hqueue⟩
  · exact sweep_used hsw hq hu
  · exact sweep_fresh hinv hsw hopen hq hfree (hinv'.shape.xs.trans hinv.shape.xs.symm)
      (hinv'.shape.ys.trans hinv.shape.ys.symm) hcu hcp hqueue

theorem sweep_first {g : List (List Char)} {n m : Nat} {s : Labirinth} (h : Fresh g n m s)
    (hst : s.start_ = ⟨0, 0⟩) :
    Sweep { s with queue_ := s.queue_ ++ [(0, s.start_, s.start_)] } := by
  have hfree : ∀ p, ¬ Used s.used_ p := by
    intro p hp
    unfold Used at hp
    rw [h.used] at hp
    have := cellAt_replicate false n m p true hp
    cases this
  exact
    { z := Or.inr ⟨by simp only [h.queue, hst, List.nil_append], hfree⟩
      ent := fun h0 => absurd h0 (hfree _)
      ord := by
        simp only [h.queue, List.nil_append]
        exact List.pairwise_singleton _ _
      down := fun p _ hp => absurd hp (hfree p)
      nb := fun p _ hp => absurd hp (hfree p)
      par := fun p hp => absurd hp (hfree p) }

/-- On a grid without walls whose Start cell is `(0, 0)` the parent of every
marked cell of the object that the loop returns is the cell above it, or for a
cell of the top row the cell to its left. -/
theorem sweep_run {g : List (List Char)} {n m : Nat} :
    ∀ (fuel : Nat) (s s' : Labirinth), Inv g n m s → Sweep s →
      (∀ p, InRange s p → Open g p) → findPathLoop fuel s = .done s' →
      ∀ p, Used s'.used_ p → cellAt s'.parent_ p = some (expectedParent p) := by
  intro fuel
  induction fuel with
  | zero =>
    intro s s' _ _ _ hrun
    unfold findPathLoop at hrun
    cases hrun
  | succ fuel ih =>
    intro s s' hinv hsw hopen hrun
    rw [findPathLoop_unfold] at hrun
    have hsplit : s.queue_ = [] ∨ ∃ d tmp par rest, s.queue_ = (d, tmp, par) :: rest := by
      cases hq : s.queue_ with
      | nil => exact Or.inl rfl
      | cons e rest =>
        obtain ⟨d, tmp, par⟩ := e
        exact Or.inr ⟨d, tmp, par, rest, rfl⟩
    rcases hsplit with hq | ⟨d, tmp, par, rest, hq⟩
    · rw [hq] at hrun
      simp only [Outcome.done.injEq] at hrun
      subst hrun
      exact hsw.par
    · rw [hq] at hrun
      simp only at hrun
      cases hb : loopBody { s with queue_ := rest } d tmp par with
      | fault f =>
        rw [hb] at hrun
        cases hrun
      | next s1 =>
        rw [hb] at hrun
        simp only at hrun
        have hstep : LoopNext s s1 := ⟨d, tmp, par, rest, hq, hb⟩
        obtain ⟨hinv1, _⟩ := loopNext_effect hinv hstep
        have hopen1 : ∀ p, InRange s1 p → Open g p := by
          intro p hp
          apply hopen
          unfold InRange at hp ⊢
          rw [hinv1.shape.xs] at hp
          rw [hinv1.shape.ys] at hp
          rw [hinv.shape.xs, hinv.shape.ys]
          exact hp
        exact ih s1 s' hinv1 (sweep_next hinv hsw hopen hstep) hopen1 hrun
      | finish s2 =>
        rw [hb] at hrun
        simp only at hrun
        have hstep : LoopFinish s s2 := ⟨d, tmp, par, rest, hq, hb⟩
        obtain ⟨_, _, _, _, _, d', tmp', par', rest', hq', hfree, _, hcu, hcp⟩ :=
          loopFinish_effect hinv hstep
        obtain ⟨_, hpar⟩ := sweep_head hinv hsw hq' hfree
        obtain ⟨g', hs'⟩ := colorPath_shape hrun
        intro p hp
        rw [hs'] at hp ⊢
        simp only at hp ⊢
        rw [hcp p]
        unfold Used at hp
        rw [hcu p] at hp
        by_cases hpt : p = tmp'
        · rw [if_pos hpt, hpt, hpar]
        · rw [if_neg hpt] at hp ⊢
          exact hsw.par p hp

/-- The trail of a cell when every marked cell has the cell above it, or in the
top row the cell to its left, for parent: the cells of its column above it and of
the top row to its left, without the cell `(0, 0)`. -/
theorem trail_corner {g : List (List Char)} {u : List (List Bool)} {par : List (List Point)}
    (hpar : ∀ p, Used u p → cellAt par p = some (expectedParent p)) {p : Point}
    {l : List Point} (h : Trail g u par ⟨0, 0⟩ p l) :
    0 ≤ p.x ∧ 0 ≤ p.y ∧ ∀ r, r ∈ l ↔
      r ≠ ⟨0, 0⟩ ∧ ((r.y = p.y ∧ 0 ≤ r.x ∧ r.x ≤ p.x) ∨ (r.x = 0 ∧ 0 ≤ r.y ∧ r.y ≤ p.y)) := by
  induction h with
  | root _ _ =>
    refine ⟨le_refl _, le_refl _, ?_⟩
    intro r
    obtain ⟨rx, ry⟩ := r
    simp only [List.not_mem_nil, Point.mk.injEq, ne_eq, false_iff]
    omega
  | @step p q l hu hp hadj _ _ ih =>
    obtain ⟨hq1, hq2, ih⟩ := ih
    obtain ⟨hp1, hp2, _⟩ := cellAt_eq_some.mp hu
    have hq : q = expectedParent p := by
      have := hpar p hu
      rw [hp] at this
      exact Option.some.inj this
    refine ⟨hp1, hp2, ?_⟩
    intro r
    rw [List.mem_cons, ih r]
    unfold expectedParent at hq
    unfold Adj at hadj
    obtain ⟨rx, ry⟩ := r
    obtain ⟨px, py⟩ := p
    obtain ⟨qx, qy⟩ := q
    simp only at hp1 hp2 hq1 hq2 hadj hq
    by_cases h1 : 0 < px
    · rw [if_pos h1] at hq
      simp only [Point.mk.injEq, ne_eq] at hq ⊢
      omega
    · rw [if_neg h1] at hq
      by_cases h2 : 0 < py
      · rw [if_pos h2] at hq
        simp only [Point.mk.injEq, ne_eq] at hq ⊢
        omega
      · rw [if_neg h2] at hq
        simp only [Point.mk.injEq] at hq
        omega

/-- What the condition `IsCornerGrid` says of a cell of the grid. -/
theorem corner_cell {g : List (List Char)} (hrect : Rect g) (h : IsCornerGrid g) {p : Point}
    {c : Char} (hc : cellAt g p = some c) :
    c ≠ '#' ∧ (c = 'S' ↔ p = ⟨0, 0⟩) ∧
      (p = ⟨(g.length : Int) - 1, ((g.headD []).length : Int) - 1⟩ → c = 'E') := by
  obtain ⟨h1, h2, h3, h4⟩ := (cellAt_some_iff_of_dims (dims_of_rect hrect) p).mp ⟨c, hc⟩
  have hp : p = ⟨((p.x.toNat : Nat) : Int), ((p.y.toNat : Nat) : Int)⟩ := by
    rw [point_eq_iff]
    dsimp only
    omega
  obtain ⟨ha, hb, he⟩ := h.2.2 p.x.toNat (by omega) p.y.toNat (by omega)
  rw [← hp, hc] at ha hb he
  refine ⟨fun e => ha (by rw [e]), ?_, ?_⟩
  · rw [point_eq_iff]
    dsimp only
    constructor
    · intro e
      have := hb.mp (by rw [e])
      omega
    · intro e
      have := hb.mpr (by omega)
      exact Option.some.inj this
  · intro e
    rw [point_eq_iff] at e
    dsimp only at e
    exact Option.some.inj (he (by omega))

/-- On a grid without walls a route leads from the cell `(0, 0)` to every cell. -/
theorem route_corner {g : List (List Char)} {n m : Nat}
    (hopen : ∀ p : Point, 0 ≤ p.x → p.x < n → 0 ≤ p.y → p.y < m → Open g p) (hm : 0 < m) :
    ∀ (a b : Nat), a < n → b < m → Route g ⟨0, 0⟩ (a + b) ⟨(a : Int), (b : Int)⟩ := by
  have hcol : ∀ a : Nat, a < n → Route g ⟨0, 0⟩ a ⟨(a : Int), 0⟩ := by
    intro a
    induction a with
    | zero => intro _; exact Route.here
    | succ a ih =>
      intro ha
      refine Route.step (ih (by omega)) (Or.inr ⟨rfl, Or.inl ?_⟩)
        (hopen _ (by dsimp only; omega) (by dsimp only; omega) (le_refl _) (by dsimp only; omega))
      dsimp only
      omega
  intro a b ha
  induction b with
  | zero => intro _; exact hcol a ha
  | succ b ih =>
    intro hb
    refine Route.step (ih (by omega)) (Or.inl ⟨rfl, Or.inl ?_⟩)
      (hopen _ (by dsimp only; omega) (by dsimp only; omega) (by dsimp only; omega)
        (by dsimp only; omega))
    dsimp only
    omega

/-! ## The path on a grid without walls -/

/-- Claim C20: the neighbours of a cell are pushed in the order right, down, left,
up, and this fixes the path that is drawn.  On every rectangular grid of
recognised characters without a wall, with `S` in the top-left corner only and `E`
in the bottom-right corner, `findPath` finds a path and overwrites with `*`
exactly the cells of the top row and of the last column other than the two
corners, leaving every other cell as it was; so when the grid held no `*` before,
the cells that hold `*` afterwards are exactly those.  On the grid of scenario C
the result is `S**`, `_#*`, `__E`. -/
theorem C20_corner_path_top_row_last_column (input : List Char)
    (hrect : Rect (readLines input)) (hrec : AllRecognised (readLines input))
    (hgrid : IsCornerGrid (readLines input)) (fuel : Nat) (hfuel : enoughFuel input ≤ fuel) :
    dx.zip dy = [(0, 1), (1, 0), (0, -1), (-1, 0)] ∧
    (∃ s', loadAndFind fuel input = .done s' ∧ isPathExists s' = true ∧
      (∀ p, cellAt s'.labirinth_ p =
        if OnCornerPath (readLines input).length ((readLines input).headD []).length p
        then some '*' else cellAt (readLines input) p) ∧
      ((∀ p, cellAt (readLines input) p ≠ some '*') →
        ∀ p, cellAt s'.labirinth_ p = some '*' ↔
          OnCornerPath (readLines input).length ((readLines input).headD []).length p)) ∧
    ∃ s', loadAndFind 47 scenarioC = .done s' ∧ s'.labirinth_ = scenarioCOutput := by
  refine ⟨by decide, ?_, ⟨_, rfl, by decide⟩⟩
  have hn := hgrid.1
  have hm := hgrid.2.1
  obtain ⟨s, s', hread, hrun, hS, hE, hlab, hres⟩ :=
    loadAndFind_spec input hrect hrec hn hm fuel hfuel
  have hfresh := fresh_of_load hrect hrec hn hm hread
  have hdims := dims_of_rect hrect
  generalize hgen : readLines input = g at *
  generalize hngen : g.length = n at *
  generalize hmgen : (g.headD []).length = m at *
  have hcell : ∀ (p : Point) (c : Char), cellAt g p = some c →
      c ≠ '#' ∧ (c = 'S' ↔ p = ⟨0, 0⟩) ∧ (p = ⟨(n : Int) - 1, (m : Int) - 1⟩ → c = 'E') := by
    intro p c hc
    have := corner_cell hrect hgrid hc
    rw [hngen, hmgen] at this
    exact this
  have hsome : ∀ p : Point, 0 ≤ p.x → p.x < n → 0 ≤ p.y → p.y < m → ∃ c, cellAt g p = some c :=
    fun p h1 h2 h3 h4 => (cellAt_some_iff_of_dims hdims p).mpr ⟨h1, h2, h3, h4⟩
  have hopen : ∀ p : Point, 0 ≤ p.x → p.x < n → 0 ≤ p.y → p.y < m → Open g p := by
    intro p h1 h2 h3 h4
    obtain ⟨c, hc⟩ := hsome p h1 h2 h3 h4
    exact ⟨c, hc, (hcell p c hc).1⟩
  -- the Start cell and the Finish cell are the two corners
  have hst : s.start_ = ⟨0, 0⟩ := by
    rcases hS with ⟨h1, _⟩ | ⟨h1, _⟩
    · exact h1
    · exact ((hcell _ _ h1).2.1).mp rfl
  obtain ⟨cE, hcE⟩ := hsome ⟨(n : Int) - 1, (m : Int) - 1⟩ (by dsimp only; omega)
    (by dsimp only; omega) (by dsimp only; omega) (by dsimp only; omega)
  have hcE' : cE = 'E' := (hcell _ _ hcE).2.2 rfl
  subst hcE'
  have hfi : s.finish_ = ⟨(n : Int) - 1, (m : Int) - 1⟩ := by
    have hb := hfresh.shape.finishIn
    unfold InRange at hb
    rw [hfresh.shape.xs, hfresh.shape.ys] at hb
    rcases hE with ⟨_, h2⟩ | ⟨_, h2⟩
    · exact absurd hcE (h2 _)
    · have := h2 _ hcE
      rw [point_eq_iff]
      dsimp only at this ⊢
      omega
  have hnm : 1 < n ∨ 1 < m := by
    by_contra hcon
    have h00 : (⟨(n : Int) - 1, (m : Int) - 1⟩ : Point) = ⟨0, 0⟩ := by
      rw [point_eq_iff]
      dsimp only
      omega
    have := ((hcell _ _ hcE).2.1).mpr h00
    exact absurd this (by decide)
  have hloop : findPathLoop fuel { s with queue_ := s.queue_ ++ [(0, s.start_, s.start_)] } =
      .done s' := by
    unfold loadAndFind at hrun
    rw [hread] at hrun
    exact hrun
  have hparents := sweep_run fuel _ s' (inv_first hfresh) (sweep_first hfresh hst)
    (by
      intro p hp
      unfold InRange at hp
      simp only at hp
      rw [hfresh.shape.xs, hfresh.shape.ys] at hp
      exact hopen p hp.1 hp.2.1 hp.2.2.1 hp.2.2.2) hloop
  rcases hres with hno | ⟨l, hfound⟩
  · exfalso
    have hroute := route_corner hopen hm (n - 1) (m - 1) (by omega) (by omega)
    have heq : (⟨((n - 1 : Nat) : Int), ((m - 1 : Nat) : Int)⟩ : Point) = s.finish_ := by
      rw [hfi, point_eq_iff]
      dsimp only
      omega
    rw [heq, ← hst] at hroute
    exact hno.unreachable _ hroute
  · have htrail := hfound.trail
    rw [hst] at htrail
    obtain ⟨q, hq, htail⟩ := htrail.parent_tail
    have hq' : q = expectedParent s.finish_ := by
      have := hparents _ htrail.used
      rw [hq] at this
      exact Option.some.inj this
    obtain ⟨_, _, hmem⟩ := trail_corner hparents htail
    have key : ∀ r, r ∈ l.tail ↔ OnCornerPath n m r := by
      intro r
      rw [hmem r]
      rw [hfi] at hq'
      unfold expectedParent at hq'
      unfold OnCornerPath
      obtain ⟨rx, ry⟩ := r
      obtain ⟨qx, qy⟩ := q
      dsimp only at hq' ⊢
      by_cases h1 : 0 < (n : Int) - 1
      · rw [if_pos h1] at hq'
        simp only [Point.mk.injEq, ne_eq] at hq' ⊢
        omega
      · rw [if_neg h1] at hq'
        by_cases h2 : 0 < (m : Int) - 1
        · rw [if_pos h2] at hq'
          simp only [Point.mk.injEq, ne_eq] at hq' ⊢
          omega
        · omega
    have hcells : ∀ p, cellAt s'.labirinth_ p =
        if OnCornerPath n m p then some '*' else cellAt g p := by
      intro p
      rw [hfound.cells p]
      by_cases hp : OnCornerPath n m p
      · rw [if_pos hp, if_pos ((key p).mpr hp)]
        rfl
      · rw [if_neg hp, if_neg (fun e => hp ((key p).mp e))]
    refine ⟨s', hrun, hfound.hasPath, hcells, ?_⟩
    intro hstar p
    rw [hcells p]
    by_cases hp : OnCornerPath n m p
    · rw [if_pos hp]
      exact ⟨fun _ => hp, fun _ => rfl⟩
    · rw [if_neg hp]
      exact ⟨fun e => absurd e (hstar p), fun e => absurd e hp⟩

theorem C20_corner_path_top_row_last_column_witness :
    dx.zip dy = [(0, 1), (1, 0), (0, -1), (-1, 0)] ∧
    (∃ s', loadAndFind 62 cornerInput = .done s' ∧ isPathExists s' = true ∧
      (∀ p, cellAt s'.labirinth_ p =
        if OnCornerPath (readLines cornerInput).length ((readLines cornerInput).headD []).length p
        then some '*' else cellAt (readLines cornerInput) p) ∧
      ((∀ p, cellAt (readLines cornerInput) p ≠ some '*') →
        ∀ p, cellAt s'.labirinth_ p = some '*' ↔
          OnCornerPath (readLines cornerInput).length
            ((readLines cornerInput).headD []).length p)) ∧
    ∃ s', loadAndFind 47 scenarioC = .done s' ∧ s'.labirinth_ = scenarioCOutput :=
  C20_corner_path_top_row_last_column cornerInput (by decide) (by decide) (by decide) 62
    (by decide)

end LabirinthCpp
